import Mathlib

/-!
# SpellCorrector: uniform Levenshtein metric and BK-tree

A shallow embedding of `src/metric.h` and `src/bk_tree.hpp`.

* `std::wstring` is a list of code points (`WString`), `wchar_t` a natural number.
* `uint32_t` values are natural numbers; every `uint32_t` addition of the source is
  followed by `% UINT32_MOD`, `size_t` counters are not wrapped (string sizes stay far
  below `2^64`).
* `std::vector<uint32_t>` is a list, read with `getD _ 0` and written with `List.set`.
* A call that does not return is `none`.
-/

namespace SpellCorrector

/-! ## Data model -/

/-- A `wchar_t` code point. -/
abbrev WChar := Nat

/-- A `std::wstring`. -/
abbrev WString := List WChar

/-- The number of `uint32_t` values, `2^32`. -/
def UINT32_MOD : Nat := 4294967296

/-- The value of `std::numeric_limits<uint32_t>::max()`. -/
def UINT32_MAX : Nat := 4294967295

/-! ## `metric.h`: the uniform metric -/

/-- The two scratch rows owned by a `LevensteinMetric` object. -/
structure LevensteinMetric where
  buffer_src : List Nat
  buffer_dst : List Nat
deriving DecidableEq, Repr

namespace LevensteinMetric

/-- The state after `LevensteinMetric() = default`: both vectors empty. -/
def fresh : LevensteinMetric := ⟨[], []⟩

/-- The input placed on the inner axis: `left_input.size() < right_input.size() ? left_input : right_input`. -/
def pickLeft (left_input right_input : WString) : WString :=
  if left_input.length < right_input.length then left_input else right_input

/-- The input placed on the outer axis: `left_input.size() >= right_input.size() ? left_input : right_input`. -/
def pickRight (left_input right_input : WString) : WString :=
  if left_input.length ≥ right_input.length then left_input else right_input

/-- The effect of `std::vector<uint32_t>::resize(n)`: truncate, or pad with zeros. -/
def resize (v : List Nat) (n : Nat) : List Nat :=
  v.take n ++ List.replicate (n - v.length) 0

/-- The loop `for (uint32_t i = 0; i < buffer_src.size(); ++i) buffer_src[i] = i;`
for a vector of fewer than `2^32` elements. -/
def initRow (buffer_src : List Nat) : List Nat :=
  (List.range buffer_src.length).foldl (fun b i => b.set i i) buffer_src

/-- The body of the inner loop at row `i`, column `j`: the new `buffer_dst`. -/
def cell (left right : WString) (i : Nat) (buffer_src buffer_dst : List Nat) (j : Nat) : List Nat :=
  if j = 0 then
    buffer_dst.set j (i % UINT32_MOD)
  else
    let substitution_const := if left.getD (j - 1) 0 = right.getD (i - 1) 0 then 0 else 1
    let buffer_dst := buffer_dst.set j
      (min ((buffer_dst.getD (j - 1) 0 + 1) % UINT32_MOD) ((buffer_src.getD j 0 + 1) % UINT32_MOD))
    buffer_dst.set j
      (min (buffer_dst.getD j 0) ((substitution_const + buffer_src.getD (j - 1) 0) % UINT32_MOD))

/-- The inner loop `for (size_t j = 0; j < left.size() + 1; ++j)` at row `i`. -/
def innerLoop (left right : WString) (i : Nat) (buffer_src buffer_dst : List Nat) : List Nat :=
  (List.range (left.length + 1)).foldl (cell left right i buffer_src) buffer_dst

/-- One iteration of the outer loop: the inner loop, then `buffer_dst.swap(buffer_src)`.
The pair is `(buffer_src, buffer_dst)`. -/
def rowStep (left right : WString) (b : List Nat × List Nat) (i : Nat) : List Nat × List Nat :=
  (innerLoop left right i b.1 b.2, b.1)

/-- The outer loop `for (size_t i = 1; i < right.size() + 1; ++i)`. -/
def rows (left right : WString) (b : List Nat × List Nat) : List Nat × List Nat :=
  (List.range' 1 right.length).foldl (rowStep left right) b

/-- The buffers after the conditional `resize` at the start of a call. -/
def grow (m : LevensteinMetric) (left : WString) : List Nat × List Nat :=
  if m.buffer_src.length < left.length + 1 then
    (resize m.buffer_src (left.length + 1), resize m.buffer_dst (left.length + 1))
  else (m.buffer_src, m.buffer_dst)

/-- The method `LevensteinMetric::operator()`: the returned distance and the buffers left
behind.
The initialisation loop counts with a `uint32_t`, so it only ends when the row has
fewer than `2^32` cells; otherwise the call does not return. -/
def call (m : LevensteinMetric) (left_input right_input : WString) : Option (Nat × LevensteinMetric) :=
  let left := pickLeft left_input right_input
  let right := pickRight left_input right_input
  let b := grow m left
  if UINT32_MOD ≤ b.1.length then none
  else
    let b := rows left right (initRow b.1, b.2)
    some (b.1.getD left.length 0, ⟨b.1, b.2⟩)

/-- The state invariant of a metric object: both rows have the same size, below `2^32`. -/
def WF (m : LevensteinMetric) : Prop :=
  m.buffer_src.length = m.buffer_dst.length ∧ m.buffer_src.length < UINT32_MOD

end LevensteinMetric

/-- The free function `Dist`: the same loops on function-local buffers, returning
`buffer_src.back()`. -/
def Dist (left_input right_input : WString) : Option Nat :=
  let left := LevensteinMetric.pickLeft left_input right_input
  let right := LevensteinMetric.pickRight left_input right_input
  let b := LevensteinMetric.grow LevensteinMetric.fresh left
  if UINT32_MOD ≤ b.1.length then none
  else
    let b := LevensteinMetric.rows left right (LevensteinMetric.initRow b.1, b.2)
    some (b.1.getLastD 0)

/-- The function a `LevensteinMetric` object computes, as seen through
`AbstractWStringMetric&`: the value returned by `operator()`, which is the same from every
state the buffers can be in (`uniformMetric_of_call`). Where the call does not return (an
inner string of `2^32 - 1` or more characters) the value is immaterial and taken to be `0`;
the theorems about trees over this metric bound the word lengths so that every call
returns. -/
def uniformMetric (a b : WString) : Nat :=
  match LevensteinMetric.call LevensteinMetric.fresh a b with
  | some r => r.1
  | none => 0

/-! ## Reference definition of the Levenshtein distance -/

/-- One row of the textbook recursion: the distances from `x :: xs` to every suffix of
the second string, given the distances `prev` from `xs`. -/
def levRow (x : WChar) (prev : WString → Nat) (n : Nat) : WString → Nat
  | [] => n
  | y :: ys =>
    min (prev (y :: ys) + 1) (min (levRow x prev n ys + 1) (prev ys + if x = y then 0 else 1))

/-- The classic Levenshtein distance by the standard recursion: deleting the head of
the first string, inserting the head of the second, or substituting one for the other. -/
def levRef : WString → WString → Nat
  | [], b => b.length
  | x :: xs, b => levRow x (levRef xs) (xs.length + 1) b

/-- The substitution cost of the recursion: `0` on equal characters, `1` otherwise. -/
def subst (x y : WChar) : Nat := if x = y then 0 else 1

/-- The table entry at row `i`, column `j`: the distance between the first `j`
characters of `left` and the first `i` characters of `right`. -/
def table (left right : WString) (i j : Nat) : Nat :=
  levRef (left.take j) (right.take i)

/-! ## `bk_tree.hpp` -/

/-- A `SearchResult`: a stored word, its distance to the query, its priority. -/
structure SearchResult where
  result : WString
  tolerance : Nat
  priority : Nat
deriving DecidableEq, Repr

mutual
/-- A `TreeNode`. -/
inductive TreeNode where
  | mk (data_ : WString) (priority_ : Nat) (childs_ : Childs) (max_dist_ min_dist_ : Nat)
/-- The map `childs_` from edge label to child: an association list, newest entry first. -/
inductive Childs where
  | nil
  | cons (key : Nat) (child : TreeNode) (rest : Childs)
end

namespace TreeNode

/-- The constructor `TreeNode(data, priority)`: no children, `max_dist_ = 0`,
`min_dist_ = UINT32_MAX`. -/
def leaf (data : WString) (priority : Nat) : TreeNode :=
  .mk data priority .nil 0 UINT32_MAX

/-- The word held by the node. -/
def data_ : TreeNode → WString
  | .mk d _ _ _ _ => d

/-- The accumulated priority of the node. -/
def priority_ : TreeNode → Nat
  | .mk _ p _ _ _ => p

/-- The children map of the node. -/
def childs_ : TreeNode → Childs
  | .mk _ _ cs _ _ => cs

/-- The field `max_dist_`. -/
def max_dist_ : TreeNode → Nat
  | .mk _ _ _ mx _ => mx

/-- The field `min_dist_`. -/
def min_dist_ : TreeNode → Nat
  | .mk _ _ _ _ mn => mn

end TreeNode

mutual
/-- The method `TreeNode::Insert`: the returned flag and the node after the call. -/
def TreeNode.Insert (metric : WString → WString → Nat) (new_data : WString) (priority : Nat) :
    TreeNode → Bool × TreeNode
  | .mk data_ priority_ childs_ max_dist_ min_dist_ =>
    let distance := metric new_data data_
    if distance ≠ 0 then
      match Childs.InsertAt metric new_data priority distance childs_ with
      | some r => (r.1, .mk data_ priority_ r.2 max_dist_ min_dist_)
      | none =>
        (true, .mk data_ priority_ (.cons distance (TreeNode.leaf new_data priority) childs_)
          (max max_dist_ distance) (min min_dist_ distance))
    else
      (false, .mk data_ ((priority_ + priority) % UINT32_MOD) childs_ max_dist_ min_dist_)
/-- The branch `childs_.find(distance) != childs_.end()` of `Insert`: when the key is
present, `childs_[distance]->Insert(...)` run on that child; `none` when it is absent. -/
def Childs.InsertAt (metric : WString → WString → Nat) (new_data : WString) (priority : Nat)
    (distance : Nat) : Childs → Option (Bool × Childs)
  | .nil => none
  | .cons key child rest =>
    if key = distance then
      some ((TreeNode.Insert metric new_data priority child).1,
        .cons key (TreeNode.Insert metric new_data priority child).2 rest)
    else
      match Childs.InsertAt metric new_data priority distance rest with
      | some r => some (r.1, .cons key child r.2)
      | none => none
end

mutual
/-- The method `TreeNode::FindSimilar`: the vector `results` after the call, `none` when it does
not return (the `uint32_t` counter `dist` can never exceed `end` when `end` is `UINT32_MAX`). -/
def TreeNode.FindSimilar (metric : WString → WString → Nat) (data : WString) (tolerance : Nat) :
    TreeNode → List SearchResult → Option (List SearchResult)
  | .mk data_ priority_ childs_ max_dist_ min_dist_, results =>
    let my_distance := metric data data_
    let results :=
      if my_distance ≤ tolerance then results ++ [⟨data_, my_distance, priority_⟩] else results
    let start := if my_distance < tolerance then min_dist_ else max (my_distance - tolerance) min_dist_
    let end_ := min ((my_distance + tolerance) % UINT32_MOD) max_dist_
    if end_ = UINT32_MAX then none
    else
      (List.range' start (end_ + 1 - start)).foldlM
        (fun results dist => Childs.FindSimilarAt metric data tolerance dist childs_ results) results
/-- The loop body of `FindSimilar`: `childs_.find(dist)` and, when the key is present, the
recursive call on that child. -/
def Childs.FindSimilarAt (metric : WString → WString → Nat) (data : WString) (tolerance : Nat)
    (dist : Nat) : Childs → List SearchResult → Option (List SearchResult)
  | .nil, results => some results
  | .cons key child rest, results =>
    if key = dist then TreeNode.FindSimilar metric data tolerance child results
    else Childs.FindSimilarAt metric data tolerance dist rest results
end

/-- The comparator passed to `std::sort` in `BKTree::FindSimilar`. -/
def resultLess (_1 _2 : SearchResult) : Bool :=
  if _1.tolerance ≠ _2.tolerance then decide (_1.tolerance < _2.tolerance)
  else decide (_1.priority > _2.priority)

/-- The order `std::sort` establishes: `y` does not come before `x` under `resultLess`. -/
def resultLe (x y : SearchResult) : Prop := resultLess y x = false

instance : DecidableRel resultLe := fun x y => by unfold resultLe; infer_instance

/-- The call of `std::sort` with `resultLess`. The order of results that tie on both fields is
not fixed by `std::sort`; here it is the one of an insertion sort. -/
def sortResults (results : List SearchResult) : List SearchResult :=
  results.insertionSort resultLe

/-- A `BKTree`: the metric and the root (`none` for `nullptr`). -/
structure BKTree where
  metric_ : WString → WString → Nat
  root_ : Option TreeNode

namespace BKTree

/-- The constructor `BKTree()`: the uniform metric and no root. -/
def empty : BKTree := ⟨uniformMetric, none⟩

/-- The method `BKTree::Insert`: the returned flag and the tree after the call. -/
def Insert (t : BKTree) (data : WString) (priority : Nat) : Bool × BKTree :=
  match t.root_ with
  | some root =>
    ((root.Insert t.metric_ data priority).1, ⟨t.metric_, some (root.Insert t.metric_ data priority).2⟩)
  | none => (true, ⟨t.metric_, some (TreeNode.leaf data priority)⟩)

/-- The method `BKTree::FindSimilar`: the traversal from the root, then the sort; `none` when
the traversal does not return. -/
def FindSimilar (t : BKTree) (data : WString) (tolerance : Nat) : Option (List SearchResult) :=
  match t.root_ with
  | none => some []
  | some root => (root.FindSimilar t.metric_ data tolerance []).map sortResults

/-- A sequence of `Insert` calls: the flags returned, in order, and the final tree. -/
def insertAll (t : BKTree) : List (WString × Nat) → List Bool × BKTree
  | [] => ([], t)
  | wp :: rest =>
    ((t.Insert wp.1 wp.2).1 :: (insertAll (t.Insert wp.1 wp.2).2 rest).1,
      (insertAll (t.Insert wp.1 wp.2).2 rest).2)

end BKTree

/-! ## Views of a tree used to state its properties -/

mutual
/-- Every node of the subtree, the root first. -/
def TreeNode.nodes : TreeNode → List TreeNode
  | .mk d p cs mx mn => .mk d p cs mx mn :: Childs.nodes cs
/-- Every node below the children of a map. -/
def Childs.nodes : Childs → List TreeNode
  | .nil => []
  | .cons _ c rest => TreeNode.nodes c ++ Childs.nodes rest
end

/-- The entries of a children map as a list of (edge label, child). -/
def Childs.toList : Childs → List (Nat × TreeNode)
  | .nil => []
  | .cons k c rest => (k, c) :: Childs.toList rest

/-- The keys of a children map. -/
def Childs.keys (cs : Childs) : List Nat := cs.toList.map Prod.fst

/-- The words held in a subtree. -/
def TreeNode.words (n : TreeNode) : List WString := n.nodes.map TreeNode.data_

/-- The (word, priority) pair a node holds. -/
def entryOf (x : TreeNode) : WString × Nat := (x.data_, x.priority_)

/-- The (word, priority) pairs held in a subtree. -/
def TreeNode.entries (n : TreeNode) : List (WString × Nat) := n.nodes.map entryOf

/-- The (word, priority) pairs held below a children map. -/
def Childs.entries (cs : Childs) : List (WString × Nat) := cs.nodes.map entryOf

/-- The nodes of a tree. -/
def BKTree.nodes (t : BKTree) : List TreeNode :=
  match t.root_ with
  | none => []
  | some root => root.nodes

mutual
/-- The results a call of `FindSimilar` appends, in order, when it returns. -/
def TreeNode.found (metric : WString → WString → Nat) (data : WString) (tolerance : Nat) :
    TreeNode → List SearchResult
  | .mk data_ priority_ childs_ max_dist_ min_dist_ =>
    let my_distance := metric data data_
    let start := if my_distance < tolerance then min_dist_ else max (my_distance - tolerance) min_dist_
    let end_ := min ((my_distance + tolerance) % UINT32_MOD) max_dist_
    (if my_distance ≤ tolerance then [⟨data_, my_distance, priority_⟩] else []) ++
      (List.range' start (end_ + 1 - start)).flatMap
        (fun dist => Childs.foundAt metric data tolerance dist childs_)
/-- The results appended by one iteration of the loop over `dist`. -/
def Childs.foundAt (metric : WString → WString → Nat) (data : WString) (tolerance : Nat)
    (dist : Nat) : Childs → List SearchResult
  | .nil => []
  | .cons key child rest =>
    if key = dist then TreeNode.found metric data tolerance child
    else Childs.foundAt metric data tolerance dist rest
end

/-- The bound `start` of the loop over `dist` in `TreeNode::FindSimilar`, for the query
`data` and the tolerance. -/
def TreeNode.scanStart (metric : WString → WString → Nat) (data : WString) (tolerance : Nat) :
    TreeNode → Nat
  | .mk data_ _ _ _ min_dist_ =>
    let my_distance := metric data data_
    if my_distance < tolerance then min_dist_ else max (my_distance - tolerance) min_dist_

/-- The bound `end` of the loop over `dist` in `TreeNode::FindSimilar`, for the query `data`
and the tolerance. -/
def TreeNode.scanEnd (metric : WString → WString → Nat) (data : WString) (tolerance : Nat) :
    TreeNode → Nat
  | .mk data_ _ _ max_dist_ _ =>
    let my_distance := metric data data_
    min ((my_distance + tolerance) % UINT32_MOD) max_dist_

/-- The largest key of a children map, `0` when it is empty. -/
def Childs.maxKey : Childs → Nat
  | .nil => 0
  | .cons k _ rest => max (Childs.maxKey rest) k

/-- The smallest key of a children map, `UINT32_MAX` when it is empty. -/
def Childs.minKey : Childs → Nat
  | .nil => UINT32_MAX
  | .cons k _ rest => min (Childs.minKey rest) k

mutual
/-- The shape `Insert` maintains at a node and below: the bookkeeping of `max_dist_` and
`min_dist_`, and the invariant of its children map. -/
def TreeNode.Inv (metric : WString → WString → Nat) : TreeNode → Prop
  | .mk d _ cs mx mn => Childs.Inv metric d cs ∧ mx = Childs.maxKey cs ∧ mn = Childs.minKey cs
/-- The invariant of the children map of a node holding `d`: keys are non-zero and distinct,
and every word stored under the edge labelled `k` was routed there by `metric(word, d) = k`. -/
def Childs.Inv (metric : WString → WString → Nat) (d : WString) : Childs → Prop
  | .nil => True
  | .cons k c rest =>
    k ≠ 0 ∧ k ∉ Childs.keys rest ∧ (∀ n ∈ TreeNode.nodes c, metric n.data_ d = k) ∧
      TreeNode.Inv metric c ∧ Childs.Inv metric d rest
end

/-- The laws of a metric, on the words that satisfy `P`, with values that leave room below
`UINT32_MAX`. -/
structure MetricOn (P : WString → Prop) (metric : WString → WString → Nat) : Prop where
  zero_iff : ∀ a b, P a → P b → (metric a b = 0 ↔ a = b)
  symm : ∀ a b, P a → P b → metric a b = metric b a
  triangle : ∀ a b c, P a → P b → P c → metric a c ≤ metric a b + metric b c
  lt_max : ∀ a b, P a → P b → metric a b < UINT32_MAX

/-- A word short enough for every call of the uniform metric on it to return without a
wrapped addition: fewer than `2^32 - 1` characters. -/
def Short (w : WString) : Prop := w.length < UINT32_MAX

/-- The result `FindSimilar` emits for a node it accepts. -/
def SearchResult.ofNode (metric : WString → WString → Nat) (data : WString) (n : TreeNode) :
    SearchResult :=
  ⟨n.data_, metric data n.data_, n.priority_⟩

/-- The sum of the priorities listed for a word. -/
def prioOf (entries : List (WString × Nat)) (w : WString) : Nat :=
  ((entries.filter (fun e => decide (e.1 = w))).map Prod.snd).sum

/-- The words of a tree. -/
def BKTree.words (t : BKTree) : List WString := t.nodes.map TreeNode.data_

/-- The (word, priority) pairs of a tree. -/
def BKTree.entries (t : BKTree) : List (WString × Nat) := t.nodes.map entryOf

/-- The invariant of a tree: the node invariant at the root. -/
def BKTree.Inv (t : BKTree) : Prop :=
  match t.root_ with
  | none => True
  | some root => root.Inv t.metric_

/-- The state of a tree reached by `Insert` calls on words satisfying `P`: the invariant
holds, every stored word satisfies `P`, and no word is stored twice. -/
def BKTree.Good (P : WString → Prop) (t : BKTree) : Prop :=
  t.Inv ∧ (∀ w ∈ t.words, P w) ∧ t.words.Nodup

/-! ## `caches.h` -/

/-- The number of `size_t` values, `2^64`. -/
def SIZE_MOD : Nat := 18446744073709551616

/-- A `BloomCache`: the bit array `cache_` and the mask. -/
structure BloomCache where
  cache_ : List Bool
  mask_ : Nat
deriving DecidableEq, Repr

namespace BloomCache

/-- The constructor `BloomCache(bits)`: `cache_(1 << bits, false)`, `mask_((1 << bits) - 1)`.
The shift is computed in `int`, so it has a value, `2^bits`, only for `bits < 31`; for larger
widths no object is obtained. -/
def init (bits : Nat) : Option BloomCache :=
  if bits < 31 then some ⟨List.replicate (2 ^ bits) false, 2 ^ bits - 1⟩ else none

/-- The default `BloomCache()`, of width 16. -/
def default16 : BloomCache := ⟨List.replicate 65536 false, 65535⟩

/-- The first probe `(hash << 2) ^ hash`, in `size_t`. -/
def h1 (hash : Nat) : Nat := ((hash <<< 2) % SIZE_MOD) ^^^ hash

/-- The second probe `(hash >> 2) ^ hash`. -/
def h2 (hash : Nat) : Nat := (hash >>> 2) ^^^ hash

/-- The first probed position `h1 & mask_` for a value. -/
def pos1 {α : Type} (Hash : α → Nat) (c : BloomCache) (value : α) : Nat :=
  h1 (Hash value % SIZE_MOD) &&& c.mask_

/-- The second probed position `h2 & mask_` for a value. -/
def pos2 {α : Type} (Hash : α → Nat) (c : BloomCache) (value : α) : Nat :=
  h2 (Hash value % SIZE_MOD) &&& c.mask_

/-- The method `BloomCache::Check`. -/
def Check {α : Type} (Hash : α → Nat) (c : BloomCache) (value : α) : Bool :=
  c.cache_.getD (pos1 Hash c value) false && c.cache_.getD (pos2 Hash c value) false

/-- The method `BloomCache::Add`. -/
def Add {α : Type} (Hash : α → Nat) (c : BloomCache) (value : α) : BloomCache :=
  ⟨(c.cache_.set (pos1 Hash c value) true).set (pos2 Hash c value) true, c.mask_⟩

/-- The shape every constructed cache has and `Add` keeps: the array has `mask_ + 1` bits. -/
def WF (c : BloomCache) : Prop := c.cache_.length = c.mask_ + 1

end BloomCache

/-! ## `metric.h`: hashes and the weighted metric -/

/-- The functor `hashes::hash<wchar_t>`: the code point as a `size_t`. -/
def hashWChar (k : WChar) : Nat := k % SIZE_MOD

/-- The functor `hashes::hash<std::pair<wchar_t, wchar_t>>`: `(h1 << 2) ^ h2`. -/
def hashPair (k : WChar × WChar) : Nat :=
  ((hashWChar k.1 <<< 2) % SIZE_MOD) ^^^ hashWChar k.2

/-- The state of a `WeightedLevensteinMetric` object. The two `unordered_map`s are
association lists in which the newest entry for a key comes first. -/
structure WeightedLevensteinMetric where
  buffer_src : List Nat
  buffer_dst : List Nat
  default_insert_delete_ : Nat
  default_replace_ : Nat
  insert_delete_costs_ : List (WChar × Nat)
  replace_costs_ : List ((WChar × WChar) × Nat)
  is_case_sensitive_ : Bool
  insert_delete_cache_ : BloomCache
  replace_cache_ : BloomCache
deriving DecidableEq, Repr

/-- How a call of the weighted metric can fail to give a value: a character read beyond
the end of a string, or a loop that never ends. -/
inductive Fault where
  | outOfRange
  | noReturn
deriving DecidableEq, Repr

/-- Equality of two outcomes of a call is decidable. -/
instance decEqOutcome : DecidableEq (Except Fault Nat)
  | .ok a, .ok b =>
    if h : a = b then isTrue (by rw [h]) else isFalse (fun e => h (Except.ok.inj e))
  | .error a, .error b =>
    if h : a = b then isTrue (by rw [h]) else isFalse (fun e => h (Except.error.inj e))
  | .ok _, .error _ => isFalse (fun e => Except.noConfusion e)
  | .error _, .ok _ => isFalse (fun e => Except.noConfusion e)

/-- An element of a `custom_insert_delete` array. -/
structure InsertDeleteEntry where
  group : WString
  cost : Nat
deriving DecidableEq, Repr

/-- An element of a `custom_replace` array. -/
structure ReplaceEntry where
  first_group : WString
  second_group : WString
  cost : Nat
deriving DecidableEq, Repr

/-- A parsed metric configuration document: the `default` section and the two arrays. -/
structure MetricConfig where
  insert_delete : Nat
  replace : Nat
  case_sensitive : Option Bool
  custom_insert_delete : List InsertDeleteEntry
  custom_replace : List ReplaceEntry
deriving DecidableEq, Repr

/-- The reading `s[pos]` of a `const std::wstring&`: a character below the size, the null
character at the size, no defined value beyond it. -/
def charAt (s : WString) (pos : Nat) : Except Fault WChar :=
  if pos ≤ s.length then .ok (s.getD pos 0) else .error .outOfRange

namespace WeightedLevensteinMetric

/-- The constructor `WeightedLevensteinMetric()`: unit costs, case-sensitive, empty tables. -/
def init : WeightedLevensteinMetric :=
  ⟨[], [], 1, 1, [], [], true, BloomCache.default16, BloomCache.default16⟩

/-- The character a cost lookup works on: the argument, passed through `towlower` when the
metric is not case-sensitive. -/
def fold (towlower : WChar → WChar) (m : WeightedLevensteinMetric) (ch : WChar) : WChar :=
  if !m.is_case_sensitive_ then towlower ch else ch

/-- The method `get_insert_delete_cost`. -/
def get_insert_delete_cost (towlower : WChar → WChar) (m : WeightedLevensteinMetric)
    (ch : WChar) : Nat :=
  let ch := fold towlower m ch
  if !m.insert_delete_cache_.Check hashWChar ch then m.default_insert_delete_
  else
    match m.insert_delete_costs_.lookup ch with
    | some cost => cost
    | none => m.default_insert_delete_

/-- The method `get_replace_cost`. -/
def get_replace_cost (towlower : WChar → WChar) (m : WeightedLevensteinMetric)
    (first second : WChar) : Nat :=
  let first := fold towlower m first
  let second := fold towlower m second
  if first = second then 0
  else if !m.replace_cache_.Check hashPair (first, second) then m.default_replace_
  else
    match m.replace_costs_.lookup (first, second) with
    | some cost => cost
    | none => m.default_replace_

/-- The loader statements `insert_delete_costs_[elem] = cost; insert_delete_cache_.Add(elem);`. -/
def addInsertDelete (cost : Nat) (m : WeightedLevensteinMetric) (elem : WChar) :
    WeightedLevensteinMetric :=
  { m with
    insert_delete_costs_ := (elem, cost) :: m.insert_delete_costs_
    insert_delete_cache_ := m.insert_delete_cache_.Add hashWChar elem }

/-- The loader statements for one pair: both `(first, second)` and `(second, first)` get the
cost and are added to the cache. -/
def addReplace (cost : Nat) (first : WChar) (m : WeightedLevensteinMetric) (second : WChar) :
    WeightedLevensteinMetric :=
  { m with
    replace_costs_ := ((second, first), cost) :: ((first, second), cost) :: m.replace_costs_
    replace_cache_ :=
      (m.replace_cache_.Add hashPair (first, second)).Add hashPair (second, first) }

/-- The group of a configuration entry as the loader uses it: lower-cased when the metric is
not case-sensitive. -/
def lowered (towlower : WChar → WChar) (m : WeightedLevensteinMetric) (group : WString) :
    WString :=
  if !m.is_case_sensitive_ then group.map towlower else group

/-- The body of the loader's loop over `custom_insert_delete`. -/
def loadInsertDelete (towlower : WChar → WChar) (m : WeightedLevensteinMetric)
    (e : InsertDeleteEntry) : WeightedLevensteinMetric :=
  (lowered towlower m e.group).foldl (addInsertDelete e.cost) m

/-- The body of the loader's second loop, for an element of `custom_replace`. -/
def loadReplace (towlower : WChar → WChar) (m : WeightedLevensteinMetric) (e : ReplaceEntry) :
    WeightedLevensteinMetric :=
  (lowered towlower m e.first_group).foldl
    (fun m first => (lowered towlower m e.second_group).foldl (addReplace e.cost first) m) m

/-- The constructor `WeightedLevensteinMetric(config_file_name)` on a parsed document; `none`
when it throws. The second loop runs `index` up to `insert_delete_array->size()` and takes
`replace_array->getObject(index)`, which is null, and throws on use, beyond that array. -/
def load (towlower : WChar → WChar) (cfg : MetricConfig) : Option WeightedLevensteinMetric :=
  let m : WeightedLevensteinMetric :=
    { init with
      default_insert_delete_ := cfg.insert_delete
      default_replace_ := cfg.replace
      is_case_sensitive_ := cfg.case_sensitive.getD true }
  let m := cfg.custom_insert_delete.foldl (loadInsertDelete towlower) m
  (List.range cfg.custom_insert_delete.length).foldlM
    (fun m index =>
      match cfg.custom_replace[index]? with
      | some e => some (loadReplace towlower m e)
      | none => none) m

/-- The buffers after the conditional `resize` at the start of a call. -/
def grow (m : WeightedLevensteinMetric) (left : WString) : List Nat × List Nat :=
  if m.buffer_src.length < left.length + 1 then
    (LevensteinMetric.resize m.buffer_src (left.length + 1),
      LevensteinMetric.resize m.buffer_dst (left.length + 1))
  else (m.buffer_src, m.buffer_dst)

/-- The loop `for (uint32_t i = 0; i < left.size() + 1; ++i) buffer_src[i] = i;` for a string
of fewer than `2^32 - 1` characters. -/
def initRow (left : WString) (buffer_src : List Nat) : List Nat :=
  (List.range (left.length + 1)).foldl (fun b i => b.set i i) buffer_src

/-- The body of the inner loop at row `i`, column `j`, for given cost functions: the new
`buffer_dst`, or the fault of a character read. -/
def cell (insdel : WChar → Nat) (rep : WChar → WChar → Nat) (left right : WString) (i : Nat)
    (buffer_src buffer_dst : List Nat) (j : Nat) : Except Fault (List Nat) :=
  if j = 0 then
    .ok (buffer_dst.set j (i % UINT32_MOD))
  else do
    let l ← charAt left (i - 1)
    let r ← charAt right (j - 1)
    let substitution := (buffer_src.getD (j - 1) 0 + rep l r) % UINT32_MOD
    let right_insert := (buffer_src.getD j 0 + insdel r) % UINT32_MOD
    let left_insert := (buffer_dst.getD (j - 1) 0 + insdel l) % UINT32_MOD
    let buffer_dst := buffer_dst.set j (min right_insert left_insert)
    .ok (buffer_dst.set j (min (buffer_dst.getD j 0) substitution))

/-- The inner loop `for (size_t j = 0; j < left.size() + 1; ++j)` at row `i`. -/
def innerLoop (insdel : WChar → Nat) (rep : WChar → WChar → Nat) (left right : WString)
    (i : Nat) (buffer_src buffer_dst : List Nat) : Except Fault (List Nat) :=
  (List.range (left.length + 1)).foldlM (cell insdel rep left right i buffer_src) buffer_dst

/-- One iteration of the outer loop: the inner loop, then `buffer_dst.swap(buffer_src)`. -/
def rowStep (insdel : WChar → Nat) (rep : WChar → WChar → Nat) (left right : WString)
    (b : List Nat × List Nat) (i : Nat) : Except Fault (List Nat × List Nat) :=
  (innerLoop insdel rep left right i b.1 b.2).map (fun dst => (dst, b.1))

/-- The outer loop `for (size_t i = 1; i < right.size() + 1; ++i)`. -/
def rows (insdel : WChar → Nat) (rep : WChar → WChar → Nat) (left right : WString)
    (b : List Nat × List Nat) : Except Fault (List Nat × List Nat) :=
  (List.range' 1 right.length).foldlM (rowStep insdel rep left right) b

/-- The body of the inner loop when both character reads are in range: the new `buffer_dst`,
with `left[i - 1]` and `right[j - 1]` read by `getD`. -/
def cellValue (insdel : WChar → Nat) (rep : WChar → WChar → Nat) (left right : WString) (i : Nat)
    (buffer_src buffer_dst : List Nat) (j : Nat) : List Nat :=
  if j = 0 then
    buffer_dst.set j (i % UINT32_MOD)
  else
    let l := left.getD (i - 1) 0
    let r := right.getD (j - 1) 0
    let substitution := (buffer_src.getD (j - 1) 0 + rep l r) % UINT32_MOD
    let right_insert := (buffer_src.getD j 0 + insdel r) % UINT32_MOD
    let left_insert := (buffer_dst.getD (j - 1) 0 + insdel l) % UINT32_MOD
    let buffer_dst := buffer_dst.set j (min right_insert left_insert)
    buffer_dst.set j (min (buffer_dst.getD j 0) substitution)

/-- The inner loop at row `i` when every character read is in range. -/
def innerLoopValue (insdel : WChar → Nat) (rep : WChar → WChar → Nat) (left right : WString)
    (i : Nat) (buffer_src buffer_dst : List Nat) : List Nat :=
  (List.range (left.length + 1)).foldl (cellValue insdel rep left right i buffer_src) buffer_dst

/-- One iteration of the outer loop when every character read is in range. -/
def rowStepValue (insdel : WChar → Nat) (rep : WChar → WChar → Nat) (left right : WString)
    (b : List Nat × List Nat) (i : Nat) : List Nat × List Nat :=
  (innerLoopValue insdel rep left right i b.1 b.2, b.1)

/-- Row `i + 1` of the table the two loops fill, from row `i`: column `0` holds the row
number, column `j + 1` the minimum of the three sums of the loop body. -/
def wrow (insdel : WChar → Nat) (rep : WChar → WChar → Nat) (left right : WString)
    (prev : Nat → Nat) (i : Nat) : Nat → Nat
  | 0 => (i + 1) % UINT32_MOD
  | j + 1 =>
    min (min ((prev (j + 1) + insdel (right.getD j 0)) % UINT32_MOD)
        ((wrow insdel rep left right prev i j + insdel (left.getD i 0)) % UINT32_MOD))
      ((prev j + rep (left.getD i 0) (right.getD j 0)) % UINT32_MOD)

/-- The table the two loops fill: `wtable … i j` is what `buffer_src[j]` holds after `i`
iterations of the outer loop. Row `0` is `0, 1, 2, …`. -/
def wtable (insdel : WChar → Nat) (rep : WChar → WChar → Nat) (left right : WString) :
    Nat → Nat → Nat
  | 0 => fun j => j
  | i + 1 => wrow insdel rep left right (wtable insdel rep left right i) i

/-- The method `WeightedLevensteinMetric::operator()`: the returned distance and the state
left behind, or the fault. The initialisation loop counts with a `uint32_t` up to
`left.size() + 1`, which it cannot reach from `2^32` on. -/
def call (towlower : WChar → WChar) (m : WeightedLevensteinMetric)
    (left_input right_input : WString) : Except Fault (Nat × WeightedLevensteinMetric) :=
  let left := LevensteinMetric.pickLeft left_input right_input
  let right := LevensteinMetric.pickRight left_input right_input
  let b := grow m left
  if UINT32_MOD ≤ left.length + 1 then .error .noReturn
  else
    (rows (get_insert_delete_cost towlower m) (get_replace_cost towlower m) left right
      (initRow left b.1, b.2)).map
      (fun b => (b.1.getD left.length 0, { m with buffer_src := b.1, buffer_dst := b.2 }))

/-- The outcome of a call without the state: the distance or the fault. -/
def value (towlower : WChar → WChar) (m : WeightedLevensteinMetric) (a b : WString) :
    Except Fault Nat :=
  (call towlower m a b).map Prod.fst

/-- The state invariant of the buffers of a metric object: both rows have the same size. -/
def WF (m : WeightedLevensteinMetric) : Prop := m.buffer_src.length = m.buffer_dst.length

/-- The tables and caches as the loader leaves them: both caches have their constructed
shape and every key stored in a cost map was also added to the matching cache. -/
def Complete (m : WeightedLevensteinMetric) : Prop :=
  m.insert_delete_cache_.WF ∧ m.replace_cache_.WF ∧
  (∀ e ∈ m.insert_delete_costs_, m.insert_delete_cache_.Check hashWChar e.1 = true) ∧
  (∀ e ∈ m.replace_costs_, m.replace_cache_.Check hashPair e.1 = true)

/-- A replace table that holds `(f, s)` exactly when it holds `(s, f)`, at the same cost. -/
def SymmetricTable (m : WeightedLevensteinMetric) : Prop :=
  ∀ f s, m.replace_costs_.lookup (f, s) = m.replace_costs_.lookup (s, f)

/-- The same metric object with other contents of its two scratch rows. -/
def withBuffers (m : WeightedLevensteinMetric) (src dst : List Nat) : WeightedLevensteinMetric :=
  { m with buffer_src := src, buffer_dst := dst }

/-- The plain lookup of an insert/delete cost, without the cache: the table value of the
case-folded character, the default when the table has none. -/
def plainInsertDeleteCost (towlower : WChar → WChar) (m : WeightedLevensteinMetric)
    (ch : WChar) : Nat :=
  (m.insert_delete_costs_.lookup (fold towlower m ch)).getD m.default_insert_delete_

/-- The plain lookup of a replace cost, without the cache: `0` on characters equal after
case folding, else the table value of the folded pair, the default when the table has none. -/
def plainReplaceCost (towlower : WChar → WChar) (m : WeightedLevensteinMetric)
    (first second : WChar) : Nat :=
  if fold towlower m first = fold towlower m second then 0
  else (m.replace_costs_.lookup (fold towlower m first, fold towlower m second)).getD
    m.default_replace_

/-- The edit costs of a weighted metric as the description of the metric gives them:
inserting or deleting `c` costs `ins_del(c)`, substituting `x` by `y` costs `rep(x, y)`. -/
def editCost (towlower : WChar → WChar) (m : WeightedLevensteinMetric) :
    Levenshtein.Cost WChar WChar Nat where
  delete := plainInsertDeleteCost towlower m
  insert := plainInsertDeleteCost towlower m
  substitute := plainReplaceCost towlower m

/-- The minimum total cost of an edit sequence turning `a` into `b` under `editCost`. -/
def weightedRef (towlower : WChar → WChar) (m : WeightedLevensteinMetric) (a b : WString) : Nat :=
  levenshtein (editCost towlower m) a b

end WeightedLevensteinMetric

/-- A lower-casing of the ASCII letters, the part on which `towlower` and `Poco::toLower`
agree in every locale. -/
def asciiLower (c : WChar) : WChar := if 65 ≤ c ∧ c ≤ 90 then c + 32 else c

/-- A configuration document for examples: default costs `1` and `3`, case-insensitive, the
group `"ae"` at insert/delete cost `5`, and the replace groups `"e"`, `"i"` at cost `2`. -/
def sampleConfig : MetricConfig :=
  ⟨1, 3, some false, [⟨[97, 101], 5⟩], [⟨[101], [105], 2⟩]⟩

/-! ## `web_server.h`: the query driver -/

/-- The loop body of `CorrectorHTTPRequestsHandler::handleRequest` on a decoded request: the
candidate goes to `BKTree::FindSimilar` as it was received; the response carries the
candidate, the tolerance and the results. -/
def handleOne (dictionary : BKTree) (request : WString × Nat) :
    Option (WString × Nat × List SearchResult) :=
  (dictionary.FindSimilar request.1 request.2).map (fun results => (request.1, request.2, results))

/-- The method `CorrectorHTTPRequestsHandler::handleRequest` on a decoded batch: one response
per request, in order. -/
def handleRequest (dictionary : BKTree) (requests : List (WString × Nat)) :
    Option (List (WString × Nat × List SearchResult)) :=
  requests.mapM (handleOne dictionary)

/-! ## The reference distance: recursion equations and metric laws -/

@[simp] theorem levRef_nil_left (b : WString) : levRef [] b = b.length := rfl

@[simp] theorem levRef_nil_right (a : WString) : levRef a [] = a.length := by
  cases a <;> simp [levRef, levRow]

theorem levRef_cons_cons (x y : WChar) (xs ys : WString) :
    levRef (x :: xs) (y :: ys) =
      min (levRef xs (y :: ys) + 1) (min (levRef (x :: xs) ys + 1) (levRef xs ys + subst x y)) := by
  simp [levRef, levRow, subst]

theorem levRef_eq_levenshtein (a b : WString) :
    levRef a b = levenshtein Levenshtein.defaultCost a b := by
  induction a generalizing b with
  | nil =>
    induction b with
    | nil => simp
    | cons y ys ih =>
      rw [levenshtein_nil_cons, ← ih]
      simp [Levenshtein.defaultCost, Nat.add_comm]
  | cons x xs iha =>
    induction b with
    | nil =>
      rw [levenshtein_cons_nil, ← iha]
      simp [Levenshtein.defaultCost, Nat.add_comm]
    | cons y ys ihb =>
      rw [levRef_cons_cons, levenshtein_cons_cons, ← iha, ← iha, ← ihb]
      simp only [Levenshtein.defaultCost, subst]
      omega

theorem levRef_comm (a b : WString) : levRef a b = levRef b a := by
  induction a generalizing b with
  | nil => simp
  | cons x xs iha =>
    induction b with
    | nil => simp
    | cons y ys ihb =>
      rw [levRef_cons_cons, levRef_cons_cons, iha (y :: ys), ← ihb, iha ys]
      have : subst x y = subst y x := by
        unfold subst; by_cases h : x = y
        · simp [h]
        · have h2 : ¬ y = x := fun e => h e.symm
          simp [h, h2]
      omega

theorem levRef_cons_left_le (x : WChar) (a b : WString) : levRef (x :: a) b ≤ levRef a b + 1 := by
  cases b with
  | nil => simp
  | cons y ys => rw [levRef_cons_cons]; omega

theorem levRef_cons_right_le (y : WChar) (a b : WString) : levRef a (y :: b) ≤ levRef a b + 1 := by
  rw [levRef_comm a (y :: b), levRef_comm a b]; exact levRef_cons_left_le y b a

theorem levRef_le_max (a b : WString) : levRef a b ≤ max a.length b.length := by
  induction a generalizing b with
  | nil => simp
  | cons x xs iha =>
    cases b with
    | nil => simp
    | cons y ys =>
      have := iha ys
      rw [levRef_cons_cons]
      simp only [List.length_cons]
      unfold subst
      split <;> omega

theorem length_le_add_levRef (a b : WString) : b.length ≤ a.length + levRef a b := by
  induction a generalizing b with
  | nil => simp
  | cons x xs iha =>
    induction b with
    | nil => simp
    | cons y ys ihb =>
      have h1 := iha (y :: ys)
      have h2 := iha ys
      rw [levRef_cons_cons]
      simp only [List.length_cons] at *
      omega

theorem levRef_self (a : WString) : levRef a a = 0 := by
  induction a with
  | nil => rfl
  | cons x xs ih => rw [levRef_cons_cons, ih]; simp [subst]

theorem eq_of_levRef_eq_zero (a b : WString) (h : levRef a b = 0) : a = b := by
  induction a generalizing b with
  | nil =>
    simp at h; exact h.symm
  | cons x xs iha =>
    cases b with
    | nil => simp at h
    | cons y ys =>
      rw [levRef_cons_cons] at h
      have h3 : levRef xs ys + subst x y = 0 := by omega
      have h4 : levRef xs ys = 0 := by omega
      have h5 : subst x y = 0 := by omega
      have h6 : x = y := by
        unfold subst at h5; by_contra hne; simp [hne] at h5
      rw [iha ys h4, h6]

theorem levRef_eq_zero_iff (a b : WString) : levRef a b = 0 ↔ a = b :=
  ⟨eq_of_levRef_eq_zero a b, fun h => h ▸ levRef_self a⟩

theorem subst_triangle (x y z : WChar) : subst x z ≤ subst x y + subst y z := by
  unfold subst
  by_cases h1 : x = y <;> by_cases h2 : y = z <;> by_cases h3 : x = z <;> simp_all

theorem levRef_triangle (a b c : WString) : levRef a c ≤ levRef a b + levRef b c := by
  match a, b, c with
  | [], b, c =>
    have := length_le_add_levRef b c
    simpa using this
  | x :: a, [], c =>
    have h := levRef_le_max (x :: a) c
    simp only [levRef_nil_right, levRef_nil_left]
    omega
  | x :: a, y :: b, [] =>
    have h := length_le_add_levRef (y :: b) (x :: a)
    rw [levRef_comm (y :: b) (x :: a)] at h
    simpa [Nat.add_comm] using h
  | x :: a, y :: b, z :: c =>
    have h1 := levRef_triangle a (y :: b) (z :: c)
    have h2 := levRef_triangle (x :: a) b (z :: c)
    have h3 := levRef_triangle (x :: a) (y :: b) c
    have h4 := levRef_triangle (x :: a) b c
    have h5 := levRef_triangle a b (z :: c)
    have h6 := levRef_triangle a b c
    have l1 := levRef_cons_left_le x a (z :: c)
    have l2 := levRef_cons_right_le z (x :: a) c
    have e1 := levRef_cons_cons x y a b
    have e2 := levRef_cons_cons y z b c
    have e3 := levRef_cons_cons x z a c
    have st := subst_triangle x y z
    omega
termination_by a.length + b.length + c.length

theorem min_plus_transpose (a1 a2 a3 a4 a5 a6 a7 a8 a9 s t : Nat) :
    min (min (a1 + 1) (min (a2 + 1) (a3 + s)) + 1)
      (min (min (a4 + 1) (min (a5 + 1) (a6 + s)) + 1) (min (a7 + 1) (min (a8 + 1) (a9 + s)) + t)) =
    min (min (a1 + 1) (min (a4 + 1) (a7 + t)) + 1)
      (min (min (a2 + 1) (min (a5 + 1) (a8 + t)) + 1) (min (a3 + 1) (min (a6 + 1) (a9 + t)) + s)) := by
  simp only [← min_add_add_right]
  simp only [min_assoc, min_comm, min_left_comm, Nat.add_assoc, Nat.add_comm, Nat.add_left_comm]

/-- The recursion at the last characters: the form the row-by-row loop follows. -/
theorem levRef_concat_concat (xs ys : WString) (x y : WChar) :
    levRef (xs ++ [x]) (ys ++ [y]) =
      min (levRef xs (ys ++ [y]) + 1) (min (levRef (xs ++ [x]) ys + 1) (levRef xs ys + subst x y)) := by
  match xs, ys with
  | [], [] => simp [levRef_cons_cons]
  | [], y' :: ys =>
    have ih := levRef_concat_concat [] ys x y
    have e1 := levRef_cons_cons x y' [] (ys ++ [y])
    have e2 := levRef_cons_cons x y' [] ys
    simp only [List.nil_append, List.cons_append, levRef_nil_left, List.length_cons,
      List.length_append, List.length_nil] at ih e1 e2 ⊢
    omega
  | x' :: xs, [] =>
    have ih := levRef_concat_concat xs [] x y
    have e1 := levRef_cons_cons x' y (xs ++ [x]) []
    have e2 := levRef_cons_cons x' y xs []
    simp only [List.nil_append, List.cons_append, levRef_nil_right, List.length_cons,
      List.length_append, List.length_nil] at ih e1 e2 ⊢
    omega
  | x' :: xs, y' :: ys =>
    have i1 := levRef_concat_concat xs (y' :: ys) x y
    have i2 := levRef_concat_concat (x' :: xs) ys x y
    have i3 := levRef_concat_concat xs ys x y
    have e0 := levRef_cons_cons x' y' (xs ++ [x]) (ys ++ [y])
    have e1 := levRef_cons_cons x' y' xs (ys ++ [y])
    have e2 := levRef_cons_cons x' y' (xs ++ [x]) ys
    have e3 := levRef_cons_cons x' y' xs ys
    simp only [List.cons_append] at i1 i2 i3 e0 e1 e2 e3 ⊢
    rw [e1, e2, e3, e0, i1, i2, i3]
    exact min_plus_transpose _ _ _ _ _ _ _ _ _ _ _
termination_by xs.length + ys.length

/-! ## The two-row loop computes the reference distance -/

theorem getD_set_self (l : List Nat) (i a d : Nat) (h : i < l.length) :
    (l.set i a).getD i d = a := by
  simp [List.getD_eq_getElem?_getD, List.getElem?_set_self h]

theorem getD_set_ne (l : List Nat) (i j a d : Nat) (h : i ≠ j) :
    (l.set i a).getD j d = l.getD j d := by
  simp [List.getD_eq_getElem?_getD, List.getElem?_set_ne h]

theorem take_succ_getD (l : WString) (k : Nat) (h : k < l.length) :
    l.take (k + 1) = l.take k ++ [l.getD k 0] := by
  rw [List.take_succ, List.getD_eq_getElem?_getD, List.getElem?_eq_getElem h]
  rfl

theorem table_zero_col (left right : WString) (i : Nat) (hi : i ≤ right.length) :
    table left right i 0 = i := by
  simp [table, hi]

theorem table_zero_row (left right : WString) (j : Nat) (hj : j ≤ left.length) :
    table left right 0 j = j := by
  simp [table, hj]

theorem table_le (left right : WString) (i j : Nat) :
    table left right i j ≤ max left.length right.length := by
  have h := levRef_le_max (left.take j) (right.take i)
  simp only [List.length_take] at h
  unfold table
  omega

theorem table_succ_succ (left right : WString) (i j : Nat)
    (hi : i < right.length) (hj : j < left.length) :
    table left right (i + 1) (j + 1) =
      min (table left right (i + 1) j + 1)
        (min (table left right i (j + 1) + 1)
          (table left right i j + subst (left.getD j 0) (right.getD i 0))) := by
  unfold table
  rw [take_succ_getD left j hj, take_succ_getD right i hi]
  exact levRef_concat_concat _ _ _ _

namespace LevensteinMetric

theorem initRow_aux (b : List Nat) (k : Nat) (hk : k ≤ b.length) :
    ((List.range k).foldl (fun b i => b.set i i) b).length = b.length ∧
    (∀ j, j < k → ((List.range k).foldl (fun b i => b.set i i) b).getD j 0 = j) ∧
    (∀ j, k ≤ j → ((List.range k).foldl (fun b i => b.set i i) b).getD j 0 = b.getD j 0) := by
  induction k with
  | zero => simp
  | succ k ih =>
    obtain ⟨h1, h2, h3⟩ := ih (by omega)
    rw [List.range_succ, List.foldl_append]
    simp only [List.foldl_cons, List.foldl_nil, List.length_set]
    refine ⟨h1, ?_, ?_⟩
    · intro j hj
      by_cases hjk : j = k
      · subst hjk; exact getD_set_self _ _ _ _ (by omega)
      · rw [getD_set_ne _ _ _ _ _ (fun e => hjk e.symm)]; exact h2 j (by omega)
    · intro j hj
      rw [getD_set_ne _ _ _ _ _ (by omega)]; exact h3 j (by omega)

theorem initRow_length (b : List Nat) : (initRow b).length = b.length :=
  (initRow_aux b b.length (Nat.le_refl _)).1

theorem initRow_getD (b : List Nat) (j : Nat) (hj : j < b.length) : (initRow b).getD j 0 = j :=
  (initRow_aux b b.length (Nat.le_refl _)).2.1 j hj

theorem cell_length (left right : WString) (i j : Nat) (src dst : List Nat) :
    (cell left right i src dst j).length = dst.length := by
  unfold cell; split <;> simp

/-- The inner loop up to column `k`: the columns below `k` hold row `i + 1` of the table. -/
theorem innerLoop_aux (left right : WString) (i : Nat) (src dst : List Nat)
    (hl : left.length < UINT32_MAX) (hr : right.length < UINT32_MAX)
    (hi : i < right.length)
    (hsrc : ∀ j, j ≤ left.length → src.getD j 0 = table left right i j)
    (k : Nat) (hk : k ≤ left.length + 1) (hlen : left.length < dst.length) :
    ((List.range k).foldl (cell left right (i + 1) src) dst).length = dst.length ∧
    ∀ j, j < k → ((List.range k).foldl (cell left right (i + 1) src) dst).getD j 0 =
      table left right (i + 1) j := by
  induction k with
  | zero => simp
  | succ k ih =>
    obtain ⟨h1, h2⟩ := ih (by omega)
    rw [List.range_succ, List.foldl_append]
    simp only [List.foldl_cons, List.foldl_nil]
    generalize (List.range k).foldl (cell left right (i + 1) src) dst = d at h1 h2 ⊢
    refine ⟨by rw [cell_length]; exact h1, ?_⟩
    intro j hj
    unfold cell
    by_cases hk0 : k = 0
    · subst hk0
      have hj0 : j = 0 := by omega
      subst hj0
      simp only [if_true]
      rw [getD_set_self _ _ _ _ (by omega), table_zero_col _ _ _ (by omega)]
      apply Nat.mod_eq_of_lt
      unfold UINT32_MOD; unfold UINT32_MAX at hr; omega
    · simp only [hk0, if_false]
      by_cases hjk : j = k
      · subst hjk
        obtain ⟨k', rfl⟩ : ∃ k', j = k' + 1 := ⟨j - 1, by omega⟩
        rw [getD_set_self _ _ _ _ (by simp; omega), getD_set_self _ _ _ _ (by omega)]
        simp only [Nat.add_sub_cancel]
        rw [h2 k' (by omega), hsrc (k' + 1) (by omega), hsrc k' (by omega),
          table_succ_succ left right i k' hi (by omega)]
        have b1 := table_le left right (i + 1) k'
        have b2 := table_le left right i (k' + 1)
        have b3 := table_le left right i k'
        have hs : (if left.getD k' 0 = right.getD i 0 then 0 else 1) =
            subst (left.getD k' 0) (right.getD i 0) := rfl
        rw [hs]
        have hs1 : subst (left.getD k' 0) (right.getD i 0) ≤ 1 := by
          unfold subst; split <;> omega
        unfold UINT32_MAX at hl hr
        unfold UINT32_MOD
        rw [Nat.mod_eq_of_lt (by omega), Nat.mod_eq_of_lt (by omega), Nat.mod_eq_of_lt (by omega)]
        omega
      · rw [getD_set_ne _ _ _ _ _ (fun e => hjk e.symm), getD_set_ne _ _ _ _ _ (fun e => hjk e.symm)]
        exact h2 j (by omega)

theorem innerLoop_spec (left right : WString) (i : Nat) (src dst : List Nat)
    (hl : left.length < UINT32_MAX) (hr : right.length < UINT32_MAX)
    (hi : i < right.length)
    (hsrc : ∀ j, j ≤ left.length → src.getD j 0 = table left right i j)
    (hlen : left.length < dst.length) :
    (innerLoop left right (i + 1) src dst).length = dst.length ∧
    ∀ j, j ≤ left.length → (innerLoop left right (i + 1) src dst).getD j 0 =
      table left right (i + 1) j := by
  obtain ⟨h1, h2⟩ := innerLoop_aux left right i src dst hl hr hi hsrc (left.length + 1)
    (Nat.le_refl _) hlen
  exact ⟨h1, fun j hj => h2 j (by omega)⟩

/-- The outer loop up to row `k`: `buffer_src` holds row `k` of the table. -/
theorem rows_aux (left right : WString) (b : List Nat × List Nat)
    (hl : left.length < UINT32_MAX) (hr : right.length < UINT32_MAX)
    (hlen1 : left.length < b.1.length) (hlen2 : b.2.length = b.1.length)
    (hsrc : ∀ j, j ≤ left.length → b.1.getD j 0 = j)
    (k : Nat) (hk : k ≤ right.length) :
    (((List.range' 1 k).foldl (rowStep left right) b).1.length = b.1.length ∧
     ((List.range' 1 k).foldl (rowStep left right) b).2.length = b.1.length) ∧
    ∀ j, j ≤ left.length → ((List.range' 1 k).foldl (rowStep left right) b).1.getD j 0 =
      table left right k j := by
  induction k with
  | zero =>
    simp only [List.range'_zero, List.foldl_nil]
    exact ⟨⟨trivial, hlen2⟩, fun j hj => by rw [hsrc j hj, table_zero_row _ _ _ hj]⟩
  | succ k ih =>
    obtain ⟨⟨h1, h2⟩, h3⟩ := ih (by omega)
    rw [List.range'_1_concat, List.foldl_append]
    simp only [List.foldl_cons, List.foldl_nil]
    generalize (List.range' 1 k).foldl (rowStep left right) b = p at h1 h2 h3 ⊢
    unfold rowStep
    simp only [Nat.add_comm 1 k]
    obtain ⟨g1, g2⟩ := innerLoop_spec left right k p.1 p.2 hl hr (by omega) h3 (by omega)
    exact ⟨⟨by omega, h1⟩, g2⟩

theorem rows_spec (left right : WString) (b : List Nat × List Nat)
    (hl : left.length < UINT32_MAX) (hr : right.length < UINT32_MAX)
    (hlen1 : left.length < b.1.length) (hlen2 : b.2.length = b.1.length)
    (hsrc : ∀ j, j ≤ left.length → b.1.getD j 0 = j) :
    ((rows left right b).1.length = b.1.length ∧ (rows left right b).2.length = b.1.length) ∧
    (rows left right b).1.getD left.length 0 = levRef left right := by
  obtain ⟨h1, h2⟩ := rows_aux left right b hl hr hlen1 hlen2 hsrc right.length (Nat.le_refl _)
  refine ⟨h1, ?_⟩
  have := h2 left.length (Nat.le_refl _)
  simpa [table, rows] using this

theorem fresh_WF : fresh.WF := by
  unfold WF fresh UINT32_MOD; simp

theorem resize_length (v : List Nat) (n : Nat) : (resize v n).length = n := by
  unfold resize; simp; omega

theorem pick_levRef (a b : WString) : levRef (pickLeft a b) (pickRight a b) = levRef a b := by
  unfold pickLeft pickRight
  by_cases h : a.length < b.length
  · have h2 : ¬ a.length ≥ b.length := by omega
    simp [h, h2]
  · have h2 : a.length ≥ b.length := by omega
    simp only [h, h2, if_true, if_false]
    exact levRef_comm b a

theorem pickLeft_length (a b : WString) : (pickLeft a b).length = min a.length b.length := by
  unfold pickLeft; split <;> omega

theorem pickRight_length (a b : WString) : (pickRight a b).length = max a.length b.length := by
  unfold pickRight; split <;> omega

theorem grow_length (m : LevensteinMetric) (left : WString) (hm : m.WF) :
    (grow m left).1.length = max m.buffer_src.length (left.length + 1) ∧
    (grow m left).2.length = (grow m left).1.length := by
  unfold grow
  split
  · next h => simp only [resize_length]; exact ⟨by omega, trivial⟩
  · next h => exact ⟨by simp only []; omega, hm.1.symm⟩

/-- On strings shorter than `2^32 - 1` a call returns the reference distance and leaves
a well-formed state, whatever the buffers held before. -/
theorem call_eq (m : LevensteinMetric) (a b : WString) (hm : m.WF)
    (ha : a.length < UINT32_MAX) (hb : b.length < UINT32_MAX) :
    ∃ m', m.call a b = some (levRef a b, m') ∧ m'.WF := by
  have hl : (pickLeft a b).length < UINT32_MAX := by rw [pickLeft_length]; omega
  have hr : (pickRight a b).length < UINT32_MAX := by rw [pickRight_length]; omega
  obtain ⟨g1, g2⟩ := grow_length m (pickLeft a b) hm
  have hlt : (grow m (pickLeft a b)).1.length < UINT32_MOD := by
    have := hm.2
    unfold UINT32_MAX at hl; unfold UINT32_MOD at this ⊢; omega
  obtain ⟨⟨r1, r2⟩, r3⟩ := rows_spec (pickLeft a b) (pickRight a b)
    (initRow (grow m (pickLeft a b)).1, (grow m (pickLeft a b)).2) hl hr
    (by simp only [initRow_length]; omega) (by simp only [initRow_length]; exact g2)
    (fun j hj => initRow_getD _ j (by omega))
  simp only [initRow_length] at r1 r2
  refine ⟨⟨(rows (pickLeft a b) (pickRight a b)
    (initRow (grow m (pickLeft a b)).1, (grow m (pickLeft a b)).2)).1,
    (rows (pickLeft a b) (pickRight a b)
    (initRow (grow m (pickLeft a b)).1, (grow m (pickLeft a b)).2)).2⟩, ?_, ?_⟩
  · unfold call
    simp only [Nat.not_le.mpr hlt, if_false]
    rw [r3, pick_levRef]
  · exact ⟨by simp only [r1, r2], by simp only [r1]; exact hlt⟩

end LevensteinMetric

theorem uniformMetric_eq_levRef (a b : WString)
    (ha : a.length < UINT32_MAX) (hb : b.length < UINT32_MAX) :
    uniformMetric a b = levRef a b := by
  obtain ⟨m', h, _⟩ := LevensteinMetric.call_eq LevensteinMetric.fresh a b
    LevensteinMetric.fresh_WF ha hb
  unfold uniformMetric
  rw [h]

/-- C1: on strings shorter than `2^32 - 1` characters, so that no 32-bit addition wraps,
`LevensteinMetric::operator()` returns, from any state of its two buffers, the classic
Levenshtein distance: the value of the standard recursion `levRef` (delete, insert or
substitute one character), which is also the `levenshtein` of the library at unit costs. -/
theorem C1_operator_eq_classic_levenshtein (m : LevensteinMetric) (a b : WString)
    (hm : m.WF) (ha : a.length < UINT32_MAX) (hb : b.length < UINT32_MAX) :
    (m.call a b).map Prod.fst = some (levRef a b) ∧
      levRef a b = levenshtein Levenshtein.defaultCost a b := by
  obtain ⟨m', h, _⟩ := LevensteinMetric.call_eq m a b hm ha hb
  rw [h]
  exact ⟨rfl, levRef_eq_levenshtein a b⟩

theorem C1_operator_eq_classic_levenshtein_witness :
    LevensteinMetric.WF ⟨[7, 7, 7, 7, 7], [9, 9, 9, 9, 9]⟩ ∧
    [107, 105, 116].length < UINT32_MAX ∧ [115, 105, 116, 116].length < UINT32_MAX ∧
    (LevensteinMetric.call ⟨[7, 7, 7, 7, 7], [9, 9, 9, 9, 9]⟩ [107, 105, 116]
        [115, 105, 116, 116]).map Prod.fst = some (levRef [107, 105, 116] [115, 105, 116, 116]) ∧
      levRef [107, 105, 116] [115, 105, 116, 116] =
        levenshtein Levenshtein.defaultCost [107, 105, 116] [115, 105, 116, 116] :=
  ⟨by unfold LevensteinMetric.WF UINT32_MOD; decide, by unfold UINT32_MAX; decide,
    by unfold UINT32_MAX; decide,
    C1_operator_eq_classic_levenshtein ⟨[7, 7, 7, 7, 7], [9, 9, 9, 9, 9]⟩ [107, 105, 116]
      [115, 105, 116, 116] (by unfold LevensteinMetric.WF UINT32_MOD; decide)
      (by unfold UINT32_MAX; decide) (by unfold UINT32_MAX; decide)⟩

namespace LevensteinMetric

/-! ## The result of a call does not depend on the buffers -/

/-- The inner loop up to column `k` on two pairs of rows: when the source rows agree on the
columns up to `left.size()`, so do the columns below `k` of the two results. -/
theorem innerLoop_agree_aux (left right : WString) (i : Nat) (s1 d1 s2 d2 : List Nat)
    (hs : ∀ j, j ≤ left.length → s1.getD j 0 = s2.getD j 0)
    (k : Nat) (hk : k ≤ left.length + 1)
    (hl1 : left.length < d1.length) (hl2 : left.length < d2.length) :
    ((List.range k).foldl (cell left right i s1) d1).length = d1.length ∧
    ((List.range k).foldl (cell left right i s2) d2).length = d2.length ∧
    ∀ j, j < k → ((List.range k).foldl (cell left right i s1) d1).getD j 0 =
      ((List.range k).foldl (cell left right i s2) d2).getD j 0 := by
  induction k with
  | zero => simp
  | succ k ih =>
    obtain ⟨h1, h2, h3⟩ := ih (by omega)
    rw [List.range_succ, List.foldl_append, List.foldl_append]
    simp only [List.foldl_cons, List.foldl_nil]
    generalize (List.range k).foldl (cell left right i s1) d1 = e1 at h1 h3 ⊢
    generalize (List.range k).foldl (cell left right i s2) d2 = e2 at h2 h3 ⊢
    refine ⟨by rw [cell_length]; exact h1, by rw [cell_length]; exact h2, ?_⟩
    intro j hj
    unfold cell
    by_cases hk0 : k = 0
    · subst hk0
      have hj0 : j = 0 := by omega
      subst hj0
      simp only [if_true]
      rw [getD_set_self _ _ _ _ (by omega), getD_set_self _ _ _ _ (by omega)]
    · simp only [hk0, if_false]
      by_cases hjk : j = k
      · subst hjk
        rw [getD_set_self _ _ _ _ (by simp; omega), getD_set_self _ _ _ _ (by omega),
          getD_set_self _ _ _ _ (by simp; omega), getD_set_self _ _ _ _ (by omega),
          h3 (j - 1) (by omega), hs j (by omega), hs (j - 1) (by omega)]
      · rw [getD_set_ne _ _ _ _ _ (fun e => hjk e.symm),
          getD_set_ne _ _ _ _ _ (fun e => hjk e.symm),
          getD_set_ne _ _ _ _ _ (fun e => hjk e.symm),
          getD_set_ne _ _ _ _ _ (fun e => hjk e.symm)]
        exact h3 j (by omega)

/-- The outer loop on two pairs of rows that are long enough and whose source rows agree on
the columns up to `left.size()`: the final source rows agree there too. -/
theorem rows_agree_aux (left right : WString) (rs : List Nat) :
    ∀ (b1 b2 : List Nat × List Nat),
      left.length < b1.1.length → left.length < b1.2.length →
      left.length < b2.1.length → left.length < b2.2.length →
      (∀ j, j ≤ left.length → b1.1.getD j 0 = b2.1.getD j 0) →
      ∀ j, j ≤ left.length →
        (rs.foldl (rowStep left right) b1).1.getD j 0 =
          (rs.foldl (rowStep left right) b2).1.getD j 0 := by
  induction rs with
  | nil => intro b1 b2 _ _ _ _ hs j hj; exact hs j hj
  | cons i rs ih =>
    intro b1 b2 l1 l2 l3 l4 hs j hj
    simp only [List.foldl_cons]
    obtain ⟨g1, g2, g3⟩ := innerLoop_agree_aux left right i b1.1 b1.2 b2.1 b2.2 hs
      (left.length + 1) (Nat.le_refl _) l2 l4
    apply ih (rowStep left right b1 i) (rowStep left right b2 i)
    · show left.length < (innerLoop left right i b1.1 b1.2).length
      unfold innerLoop; omega
    · exact l1
    · show left.length < (innerLoop left right i b2.1 b2.2).length
      unfold innerLoop; omega
    · exact l3
    · intro j' hj'
      exact g3 j' (by omega)
    · exact hj

/-- The outcome of a call is the same from any two well-formed states of the buffers. -/
theorem call_state_irrelevant (m1 m2 : LevensteinMetric) (a b : WString)
    (h1 : m1.WF) (h2 : m2.WF) :
    (m1.call a b).map Prod.fst = (m2.call a b).map Prod.fst := by
  obtain ⟨g1, g1'⟩ := grow_length m1 (pickLeft a b) h1
  obtain ⟨g2, g2'⟩ := grow_length m2 (pickLeft a b) h2
  have b1 := h1.2
  have b2 := h2.2
  by_cases hlong : UINT32_MOD ≤ (pickLeft a b).length + 1
  · have e1 : UINT32_MOD ≤ (grow m1 (pickLeft a b)).1.length := by omega
    have e2 : UINT32_MOD ≤ (grow m2 (pickLeft a b)).1.length := by omega
    unfold call
    simp only [e1, e2, if_true, Option.map_none']
  · have e1 : ¬ UINT32_MOD ≤ (grow m1 (pickLeft a b)).1.length := by omega
    have e2 : ¬ UINT32_MOD ≤ (grow m2 (pickLeft a b)).1.length := by omega
    unfold call
    simp only [e1, e2, if_false, Option.map_some']
    congr 1
    apply rows_agree_aux (pickLeft a b) (pickRight a b) _
      (initRow (grow m1 (pickLeft a b)).1, (grow m1 (pickLeft a b)).2)
      (initRow (grow m2 (pickLeft a b)).1, (grow m2 (pickLeft a b)).2)
    · simp only [initRow_length]; omega
    · show (pickLeft a b).length < (grow m1 (pickLeft a b)).2.length
      omega
    · simp only [initRow_length]; omega
    · show (pickLeft a b).length < (grow m2 (pickLeft a b)).2.length
      omega
    · intro j hj
      show (initRow (grow m1 (pickLeft a b)).1).getD j 0 =
        (initRow (grow m2 (pickLeft a b)).1).getD j 0
      rw [initRow_getD _ j (by omega), initRow_getD _ j (by omega)]
    · exact Nat.le_refl _

theorem innerLoop_length (left right : WString) (i : Nat) (src dst : List Nat) :
    (innerLoop left right i src dst).length = dst.length := by
  unfold innerLoop
  generalize List.range (left.length + 1) = js
  induction js generalizing dst with
  | nil => rfl
  | cons j js ih => rw [List.foldl_cons, ih, cell_length]

theorem rows_length_aux (left right : WString) (n : Nat) (rs : List Nat) :
    ∀ (b : List Nat × List Nat), b.1.length = n → b.2.length = n →
      (rs.foldl (rowStep left right) b).1.length = n ∧
      (rs.foldl (rowStep left right) b).2.length = n := by
  induction rs with
  | nil => intro b h1 h2; exact ⟨h1, h2⟩
  | cons i rs ih =>
    intro b h1 h2
    rw [List.foldl_cons]
    exact ih (rowStep left right b i)
      (by show (innerLoop left right i b.1 b.2).length = n; rw [innerLoop_length]; exact h2) h1

/-- Every call that returns leaves a well-formed state: the states a metric object can
reach from `fresh` are well-formed. -/
theorem call_WF (m : LevensteinMetric) (a b : WString) (hm : m.WF)
    (r : Nat × LevensteinMetric) (h : m.call a b = some r) : r.2.WF := by
  obtain ⟨_, g2⟩ := grow_length m (pickLeft a b) hm
  unfold call at h
  by_cases hlong : UINT32_MOD ≤ (grow m (pickLeft a b)).1.length
  · simp only [hlong, if_true] at h
    exact Option.noConfusion h
  · simp only [hlong, if_false, Option.some.injEq] at h
    obtain ⟨r1, r2⟩ := rows_length_aux (pickLeft a b) (pickRight a b)
      (grow m (pickLeft a b)).1.length (List.range' 1 (pickRight a b).length)
      (initRow (grow m (pickLeft a b)).1, (grow m (pickLeft a b)).2)
      (initRow_length _) g2
    rw [← h]
    exact ⟨by show (rows _ _ _).1.length = (rows _ _ _).2.length
              unfold rows; rw [r1, r2],
      by show (rows _ _ _).1.length < UINT32_MOD
         unfold rows; rw [r1]; omega⟩

end LevensteinMetric

/-- The value `uniformMetric` is the distance any returning call gives, whatever
well-formed state the buffers were in. -/
theorem uniformMetric_of_call (m : LevensteinMetric) (a b : WString) (hm : m.WF)
    (r : Nat × LevensteinMetric) (h : m.call a b = some r) : uniformMetric a b = r.1 := by
  have e := LevensteinMetric.call_state_irrelevant LevensteinMetric.fresh m a b
    LevensteinMetric.fresh_WF hm
  rw [h] at e
  unfold uniformMetric
  cases hf : LevensteinMetric.call LevensteinMetric.fresh a b with
  | none => rw [hf] at e; exact Option.noConfusion e
  | some r' =>
    rw [hf] at e
    simp only [Option.map_some', Option.some.injEq] at e
    exact e

namespace LevensteinMetric

theorem pickLeft_swap (a b : WString) (h : a.length ≠ b.length) : pickLeft a b = pickLeft b a := by
  unfold pickLeft
  by_cases h1 : a.length < b.length
  · have h2 : ¬ b.length < a.length := by omega
    simp [h1, h2]
  · have h2 : b.length < a.length := by omega
    simp [h1, h2]

theorem pickRight_swap (a b : WString) (h : a.length ≠ b.length) :
    pickRight a b = pickRight b a := by
  unfold pickRight
  by_cases h1 : a.length ≥ b.length
  · have h2 : ¬ b.length ≥ a.length := by omega
    simp [h1, h2]
  · have h2 : b.length ≥ a.length := by omega
    simp [h1, h2]

/-- A call whose inner string has `2^32 - 1` or more characters does not return. -/
theorem call_eq_none (m : LevensteinMetric) (a b : WString) (hm : m.WF)
    (h : UINT32_MAX ≤ (pickLeft a b).length) : m.call a b = none := by
  obtain ⟨g1, _⟩ := grow_length m (pickLeft a b) hm
  have hge : UINT32_MOD ≤ (grow m (pickLeft a b)).1.length := by
    unfold UINT32_MAX at h; unfold UINT32_MOD; omega
  unfold call
  simp only [hge, if_true]

end LevensteinMetric

/-- On short words the function computed by a `LevensteinMetric` object is a metric. -/
theorem MetricOn_uniformMetric : MetricOn Short uniformMetric where
  zero_iff := fun a b ha hb => by
    rw [uniformMetric_eq_levRef a b ha hb]; exact levRef_eq_zero_iff a b
  symm := fun a b ha hb => by
    rw [uniformMetric_eq_levRef a b ha hb, uniformMetric_eq_levRef b a hb ha]
    exact levRef_comm a b
  triangle := fun a b c ha hb hc => by
    rw [uniformMetric_eq_levRef a c ha hc, uniformMetric_eq_levRef a b ha hb,
      uniformMetric_eq_levRef b c hb hc]
    exact levRef_triangle a b c
  lt_max := fun a b ha hb => by
    rw [uniformMetric_eq_levRef a b ha hb]
    have h := levRef_le_max a b
    unfold Short at ha hb
    omega

/-- C9: the triangle inequality of the uniform metric. On strings shorter than `2^32 - 1`
characters the three calls of `LevensteinMetric::operator()`, each from any state of the
buffers, return distances with `d(a, c) ≤ d(a, b) + d(b, c)`. -/
theorem C9_uniform_triangle_inequality (m1 m2 m3 : LevensteinMetric) (a b c : WString)
    (h1 : m1.WF) (h2 : m2.WF) (h3 : m3.WF)
    (ha : a.length < UINT32_MAX) (hb : b.length < UINT32_MAX) (hc : c.length < UINT32_MAX) :
    ∃ dac dab dbc, (m1.call a c).map Prod.fst = some dac ∧
      (m2.call a b).map Prod.fst = some dab ∧ (m3.call b c).map Prod.fst = some dbc ∧
      dac ≤ dab + dbc := by
  obtain ⟨x1, e1, _⟩ := LevensteinMetric.call_eq m1 a c h1 ha hc
  obtain ⟨x2, e2, _⟩ := LevensteinMetric.call_eq m2 a b h2 ha hb
  obtain ⟨x3, e3, _⟩ := LevensteinMetric.call_eq m3 b c h3 hb hc
  refine ⟨levRef a c, levRef a b, levRef b c, ?_, ?_, ?_, levRef_triangle a b c⟩
  · rw [e1]; rfl
  · rw [e2]; rfl
  · rw [e3]; rfl

theorem C9_uniform_triangle_inequality_witness :
    (LevensteinMetric.fresh.WF ∧ LevensteinMetric.WF ⟨[3, 2, 3, 3], [2, 2, 2, 3]⟩ ∧
      LevensteinMetric.WF ⟨[0], [0]⟩) ∧
    ([99, 97, 116].length < UINT32_MAX ∧ [99, 111, 116].length < UINT32_MAX ∧
      [100, 111, 103].length < UINT32_MAX) ∧
    ∃ dac dab dbc,
      (LevensteinMetric.call LevensteinMetric.fresh [99, 97, 116] [100, 111, 103]).map Prod.fst =
        some dac ∧
      (LevensteinMetric.call ⟨[3, 2, 3, 3], [2, 2, 2, 3]⟩ [99, 97, 116] [99, 111, 116]).map
        Prod.fst = some dab ∧
      (LevensteinMetric.call ⟨[0], [0]⟩ [99, 111, 116] [100, 111, 103]).map Prod.fst = some dbc ∧
      dac ≤ dab + dbc :=
  ⟨⟨by unfold LevensteinMetric.WF LevensteinMetric.fresh UINT32_MOD; decide,
      by unfold LevensteinMetric.WF UINT32_MOD; decide,
      by unfold LevensteinMetric.WF UINT32_MOD; decide⟩,
    ⟨by unfold UINT32_MAX; decide, by unfold UINT32_MAX; decide, by unfold UINT32_MAX; decide⟩,
    C9_uniform_triangle_inequality LevensteinMetric.fresh ⟨[3, 2, 3, 3], [2, 2, 2, 3]⟩ ⟨[0], [0]⟩
      [99, 97, 116] [99, 111, 116] [100, 111, 103]
      (by unfold LevensteinMetric.WF LevensteinMetric.fresh UINT32_MOD; decide)
      (by unfold LevensteinMetric.WF UINT32_MOD; decide)
      (by unfold LevensteinMetric.WF UINT32_MOD; decide)
      (by unfold UINT32_MAX; decide) (by unfold UINT32_MAX; decide)
      (by unfold UINT32_MAX; decide)⟩

/-- C10: the uniform metric is symmetric. For all strings `a` and `b`, of any lengths, and
from any two states of the buffers, `LevensteinMetric::operator()` gives the same outcome on
`(a, b)` and on `(b, a)`: the same distance, or no return on either. With equal lengths the
two calls exchange the inner and the outer string. -/
theorem C10_uniform_symmetric (m1 m2 : LevensteinMetric) (a b : WString)
    (h1 : m1.WF) (h2 : m2.WF) :
    (m1.call a b).map Prod.fst = (m2.call b a).map Prod.fst := by
  by_cases hne : a.length = b.length
  · by_cases hlt : a.length < UINT32_MAX
    · obtain ⟨x1, e1, _⟩ := LevensteinMetric.call_eq m1 a b h1 hlt (by omega)
      obtain ⟨x2, e2, _⟩ := LevensteinMetric.call_eq m2 b a h2 (by omega) hlt
      rw [e1, e2, levRef_comm a b]; rfl
    · rw [LevensteinMetric.call_eq_none m1 a b h1
          (by rw [LevensteinMetric.pickLeft_length]; omega),
        LevensteinMetric.call_eq_none m2 b a h2
          (by rw [LevensteinMetric.pickLeft_length]; omega)]
  · have hswap : m2.call b a = m2.call a b := by
      unfold LevensteinMetric.call
      rw [LevensteinMetric.pickLeft_swap a b hne, LevensteinMetric.pickRight_swap a b hne]
    rw [hswap]
    exact LevensteinMetric.call_state_irrelevant m1 m2 a b h1 h2

theorem C10_uniform_symmetric_witness :
    LevensteinMetric.WF ⟨[5, 5], [6, 6]⟩ ∧ LevensteinMetric.fresh.WF ∧
    (LevensteinMetric.call ⟨[5, 5], [6, 6]⟩ [97, 98, 99] [98, 99, 100]).map Prod.fst =
      (LevensteinMetric.call LevensteinMetric.fresh [98, 99, 100] [97, 98, 99]).map Prod.fst :=
  ⟨by unfold LevensteinMetric.WF UINT32_MOD; decide,
    by unfold LevensteinMetric.WF LevensteinMetric.fresh UINT32_MOD; decide,
    C10_uniform_symmetric ⟨[5, 5], [6, 6]⟩ LevensteinMetric.fresh [97, 98, 99] [98, 99, 100]
      (by unfold LevensteinMetric.WF UINT32_MOD; decide)
      (by unfold LevensteinMetric.WF LevensteinMetric.fresh UINT32_MOD; decide)⟩

/-! ## Trees: unfolding lemmas and the joint induction principle -/

/-- A joint induction principle for nodes and children maps. -/
theorem TreeNode.induction {P : TreeNode → Prop} {Q : Childs → Prop}
    (hmk : ∀ d p cs mx mn, Q cs → P (.mk d p cs mx mn))
    (hnil : Q .nil)
    (hcons : ∀ k c rest, P c → Q rest → Q (.cons k c rest)) :
    (∀ n, P n) ∧ (∀ cs, Q cs) :=
  ⟨fun n => TreeNode.rec (motive_1 := P) (motive_2 := Q) hmk hnil hcons n,
   fun cs => Childs.rec (motive_1 := P) (motive_2 := Q) hmk hnil hcons cs⟩

@[simp] theorem TreeNode.nodes_mk (d : WString) (p : Nat) (cs : Childs) (mx mn : Nat) :
    (TreeNode.mk d p cs mx mn).nodes = TreeNode.mk d p cs mx mn :: cs.nodes := by
  simp [TreeNode.nodes]

@[simp] theorem Childs.nodes_nil : Childs.nil.nodes = [] := by
  simp [Childs.nodes]

@[simp] theorem Childs.nodes_cons (k : Nat) (c : TreeNode) (rest : Childs) :
    (Childs.cons k c rest).nodes = c.nodes ++ rest.nodes := by
  simp [Childs.nodes]

@[simp] theorem TreeNode.nodes_leaf (w : WString) (p : Nat) :
    (TreeNode.leaf w p).nodes = [TreeNode.leaf w p] := by
  simp [TreeNode.leaf]

@[simp] theorem Childs.keys_nil : Childs.nil.keys = [] := rfl

@[simp] theorem Childs.keys_cons (k : Nat) (c : TreeNode) (rest : Childs) :
    (Childs.cons k c rest).keys = k :: rest.keys := rfl

theorem TreeNode.mem_nodes_self (n : TreeNode) : n ∈ n.nodes := by
  cases n; simp

theorem Childs.mem_nodes_of_mem_toList (cs : Childs) (k : Nat) (c x : TreeNode)
    (h : (k, c) ∈ cs.toList) (hx : x ∈ c.nodes) : x ∈ cs.nodes := by
  have key := (TreeNode.induction (P := fun _ => True)
    (Q := fun cs => (k, c) ∈ cs.toList → x ∈ cs.nodes)
    (fun _ _ _ _ _ _ => trivial) (by simp [Childs.toList]) ?_).2 cs h
  · exact key
  · intro k' c' rest _ ih hmem
    simp only [Childs.toList, List.mem_cons, Prod.mk.injEq] at hmem
    simp only [Childs.nodes_cons, List.mem_append]
    rcases hmem with ⟨_, rfl⟩ | hmem
    · exact Or.inl hx
    · exact Or.inr (ih hmem)

/-! ## `FindSimilar`: what a returning call appends -/

theorem foldlM_append_of_some {α β : Type} (f : List β → α → Option (List β)) (g : α → List β)
    (ds : List α) (h : ∀ d ∈ ds, ∀ acc res, f acc d = some res → res = acc ++ g d) :
    ∀ acc res, ds.foldlM f acc = some res → res = acc ++ ds.flatMap g := by
  induction ds with
  | nil => intro acc res hres; simp at hres; simp [hres]
  | cons d ds ih =>
    intro acc res hres
    rw [List.foldlM_cons] at hres
    cases hf : f acc d with
    | none => rw [hf] at hres; simp at hres
    | some r =>
      rw [hf] at hres
      have h1 := h d (List.mem_cons_self _ _) acc r hf
      have h2 := ih (fun d' hd' => h d' (List.mem_cons_of_mem _ hd')) r res hres
      rw [h2, h1]; simp

theorem foldlM_append_some {α β : Type} (f : List β → α → Option (List β)) (g : α → List β)
    (ds : List α) (h : ∀ d ∈ ds, ∀ acc, f acc d = some (acc ++ g d)) :
    ∀ acc, ds.foldlM f acc = some (acc ++ ds.flatMap g) := by
  induction ds with
  | nil => intro acc; simp
  | cons d ds ih =>
    intro acc
    rw [List.foldlM_cons, h d (List.mem_cons_self _ _) acc]
    simp only [Option.some_bind, Option.bind_eq_bind]
    rw [ih (fun d' hd' => h d' (List.mem_cons_of_mem _ hd'))]
    simp

/-- Whatever `FindSimilar` returns is the vector it was given followed by `found`. -/
theorem FindSimilar_eq_found (metric : WString → WString → Nat) (data : WString) (tolerance : Nat) :
    (∀ n acc res, TreeNode.FindSimilar metric data tolerance n acc = some res →
      res = acc ++ TreeNode.found metric data tolerance n) ∧
    (∀ cs dist acc res, Childs.FindSimilarAt metric data tolerance dist cs acc = some res →
      res = acc ++ Childs.foundAt metric data tolerance dist cs) := by
  apply TreeNode.induction
    (P := fun n => ∀ acc res, TreeNode.FindSimilar metric data tolerance n acc = some res →
      res = acc ++ TreeNode.found metric data tolerance n)
    (Q := fun cs => ∀ dist acc res,
      Childs.FindSimilarAt metric data tolerance dist cs acc = some res →
      res = acc ++ Childs.foundAt metric data tolerance dist cs)
  · intro d p cs mx mn ih acc res h
    simp only [TreeNode.FindSimilar] at h
    split at h
    · simp at h
    · have := foldlM_append_of_some _ (fun dist => Childs.foundAt metric data tolerance dist cs) _
        (fun dist _ acc res hr => ih dist acc res hr) _ _ h
      rw [this]
      simp only [TreeNode.found]
      split <;> simp
  · intro dist acc res h
    simp only [Childs.FindSimilarAt] at h
    simp [Childs.foundAt]; simpa using h.symm
  · intro k c rest ihc ihr dist acc res h
    simp only [Childs.FindSimilarAt] at h
    simp only [Childs.foundAt]
    split at h
    · next hk => simp only [hk, if_true]; exact ihc acc res h
    · next hk => simp only [hk, if_false]; exact ihr dist acc res h

/-- When no node has `max_dist_ = UINT32_MAX`, every loop over `dist` ends and `FindSimilar`
returns. -/
theorem FindSimilar_some (metric : WString → WString → Nat) (data : WString) (tolerance : Nat) :
    (∀ n, (∀ x ∈ n.nodes, x.max_dist_ < UINT32_MAX) → ∀ acc,
      TreeNode.FindSimilar metric data tolerance n acc =
        some (acc ++ TreeNode.found metric data tolerance n)) ∧
    (∀ cs, (∀ x ∈ cs.nodes, x.max_dist_ < UINT32_MAX) → ∀ dist acc,
      Childs.FindSimilarAt metric data tolerance dist cs acc =
        some (acc ++ Childs.foundAt metric data tolerance dist cs)) := by
  apply TreeNode.induction
    (P := fun n => (∀ x ∈ n.nodes, x.max_dist_ < UINT32_MAX) → ∀ acc,
      TreeNode.FindSimilar metric data tolerance n acc =
        some (acc ++ TreeNode.found metric data tolerance n))
    (Q := fun cs => (∀ x ∈ cs.nodes, x.max_dist_ < UINT32_MAX) → ∀ dist acc,
      Childs.FindSimilarAt metric data tolerance dist cs acc =
        some (acc ++ Childs.foundAt metric data tolerance dist cs))
  · intro d p cs mx mn ih hb acc
    have hmx : mx < UINT32_MAX := hb _ (TreeNode.mem_nodes_self _)
    have hcs : ∀ x ∈ cs.nodes, x.max_dist_ < UINT32_MAX := fun x hx => hb x (by simp [hx])
    simp only [TreeNode.FindSimilar, TreeNode.found]
    have hne : ¬ (min ((metric data d + tolerance) % UINT32_MOD) mx = UINT32_MAX) := by omega
    simp only [hne, if_false]
    rw [foldlM_append_some _ (fun dist => Childs.foundAt metric data tolerance dist cs) _
      (fun dist _ acc => ih hcs dist acc)]
    split <;> simp
  · intro _ dist acc
    simp [Childs.FindSimilarAt, Childs.foundAt]
  · intro k c rest ihc ihr hb dist acc
    simp only [Childs.FindSimilarAt, Childs.foundAt]
    split
    · exact ihc (fun x hx => hb x (by simp [hx])) acc
    · exact ihr (fun x hx => hb x (by simp [hx])) dist acc

/-- Every result appended comes from a node of the subtree whose word is within the
tolerance, and carries that node's word, distance and priority. -/
theorem found_sound (metric : WString → WString → Nat) (data : WString) (tolerance : Nat) :
    (∀ n, ∀ x ∈ TreeNode.found metric data tolerance n,
      ∃ m ∈ n.nodes, x = SearchResult.ofNode metric data m ∧ metric data m.data_ ≤ tolerance) ∧
    (∀ cs dist, ∀ x ∈ Childs.foundAt metric data tolerance dist cs,
      ∃ m ∈ cs.nodes, x = SearchResult.ofNode metric data m ∧ metric data m.data_ ≤ tolerance) := by
  apply TreeNode.induction
    (P := fun n => ∀ x ∈ TreeNode.found metric data tolerance n,
      ∃ m ∈ n.nodes, x = SearchResult.ofNode metric data m ∧ metric data m.data_ ≤ tolerance)
    (Q := fun cs => ∀ dist, ∀ x ∈ Childs.foundAt metric data tolerance dist cs,
      ∃ m ∈ cs.nodes, x = SearchResult.ofNode metric data m ∧ metric data m.data_ ≤ tolerance)
  · intro d p cs mx mn ih x hx
    simp only [TreeNode.found, List.mem_append, List.mem_flatMap] at hx
    rcases hx with hx | ⟨dist, _, hx⟩
    · split at hx
      · next hle =>
        simp only [List.mem_singleton] at hx
        exact ⟨_, TreeNode.mem_nodes_self _, by rw [hx]; rfl, hle⟩
      · simp at hx
    · obtain ⟨m, hm, h1, h2⟩ := ih dist x hx
      exact ⟨m, by simp [hm], h1, h2⟩
  · intro dist x hx
    simp [Childs.foundAt] at hx
  · intro k c rest ihc ihr dist x hx
    simp only [Childs.foundAt] at hx
    split at hx
    · obtain ⟨m, hm, h1, h2⟩ := ihc x hx
      exact ⟨m, by simp [hm], h1, h2⟩
    · obtain ⟨m, hm, h1, h2⟩ := ihr dist x hx
      exact ⟨m, by simp [hm], h1, h2⟩

/-! ## `BKTree::FindSimilar`: soundness of the results and their order -/

theorem resultLe_iff (x y : SearchResult) :
    resultLe x y ↔
      x.tolerance < y.tolerance ∨ (x.tolerance = y.tolerance ∧ x.priority ≥ y.priority) := by
  unfold resultLe resultLess
  by_cases h : y.tolerance = x.tolerance
  · simp only [h, ne_eq, not_true_eq_false, if_false, decide_eq_false_iff_not]
    constructor
    · intro h1; right; exact ⟨trivial, by omega⟩
    · intro h1; omega
  · simp only [ne_eq, h, not_false_eq_true, if_true, decide_eq_false_iff_not]
    constructor
    · intro h1; left; omega
    · intro h1; omega

theorem resultLe_total (x y : SearchResult) : resultLe x y ∨ resultLe y x := by
  rw [resultLe_iff, resultLe_iff]; omega

theorem resultLe_trans (x y z : SearchResult) (h1 : resultLe x y) (h2 : resultLe y z) :
    resultLe x z := by
  rw [resultLe_iff] at *; omega

theorem sortResults_perm (l : List SearchResult) : (sortResults l).Perm l :=
  List.perm_insertionSort resultLe l

theorem sortResults_sorted (l : List SearchResult) : (sortResults l).Pairwise resultLe := by
  haveI : IsTotal SearchResult resultLe := ⟨resultLe_total⟩
  haveI : IsTrans SearchResult resultLe := ⟨resultLe_trans⟩
  exact List.sorted_insertionSort resultLe l

/-- C3: for every metric and every tree, each result `(r, d, p)` of a returning call of
`BKTree::FindSimilar(q, t)` has `d ≤ t` and `d = metric(q, r)`, and `r` is the word of a node
of the tree whose accumulated priority is `p`. -/
theorem C3_results_within_tolerance (t : BKTree) (q : WString) (tol : Nat)
    (res : List SearchResult) (h : t.FindSimilar q tol = some res) :
    ∀ x ∈ res, x.tolerance ≤ tol ∧ x.tolerance = t.metric_ q x.result ∧
      ∃ n ∈ t.nodes, n.data_ = x.result ∧ n.priority_ = x.priority := by
  intro x hx
  unfold BKTree.FindSimilar at h
  cases hroot : t.root_ with
  | none =>
    rw [hroot] at h
    simp only [Option.some.injEq] at h
    rw [← h] at hx; simp at hx
  | some root =>
    rw [hroot] at h
    simp only [Option.map_eq_some'] at h
    obtain ⟨acc, hacc, hres⟩ := h
    have e := (FindSimilar_eq_found t.metric_ q tol).1 root [] acc hacc
    simp only [List.nil_append] at e
    have hx2 : x ∈ TreeNode.found t.metric_ q tol root := by
      rw [← e]
      exact (sortResults_perm acc).mem_iff.mp (by rw [hres]; exact hx)
    obtain ⟨m, hm, hxm, hle⟩ := (found_sound t.metric_ q tol).1 root x hx2
    subst hxm
    refine ⟨hle, rfl, m, ?_, rfl, rfl⟩
    unfold BKTree.nodes; rw [hroot]; exact hm

theorem C3_results_within_tolerance_witness :
    (BKTree.insertAll BKTree.empty
        [([99, 97, 116], 5), ([99, 97, 114], 3), ([98, 97, 116], 2)]).2.FindSimilar
      [99, 97, 116] 1 =
      some [⟨[99, 97, 116], 0, 5⟩, ⟨[99, 97, 114], 1, 3⟩, ⟨[98, 97, 116], 1, 2⟩] ∧
    ∀ x ∈ [(⟨[99, 97, 116], 0, 5⟩ : SearchResult), ⟨[99, 97, 114], 1, 3⟩, ⟨[98, 97, 116], 1, 2⟩],
      x.tolerance ≤ 1 ∧
      x.tolerance = (BKTree.insertAll BKTree.empty
        [([99, 97, 116], 5), ([99, 97, 114], 3), ([98, 97, 116], 2)]).2.metric_
          [99, 97, 116] x.result ∧
      ∃ n ∈ (BKTree.insertAll BKTree.empty
        [([99, 97, 116], 5), ([99, 97, 114], 3), ([98, 97, 116], 2)]).2.nodes,
        n.data_ = x.result ∧ n.priority_ = x.priority :=
  ⟨by decide, C3_results_within_tolerance
    (BKTree.insertAll BKTree.empty [([99, 97, 116], 5), ([99, 97, 114], 3), ([98, 97, 116], 2)]).2
    [99, 97, 116] 1 _ (by decide)⟩

/-- C5: the list a returning call of `BKTree::FindSimilar(q, t)` gives is a permutation of
the results accumulated by the recursive traversal (empty for a tree without root), and it
is sorted by distance ascending, then priority descending: any two results in list order,
and so any two consecutive ones, have `x.tolerance < y.tolerance`, or equal tolerances and
`x.priority ≥ y.priority`. -/
theorem C5_results_sorted_permutation (t : BKTree) (q : WString) (tol : Nat)
    (res : List SearchResult) (h : t.FindSimilar q tol = some res) :
    (t.root_ = none → res = []) ∧
    (∀ root, t.root_ = some root →
      ∃ acc, root.FindSimilar t.metric_ q tol [] = some acc ∧ res.Perm acc) ∧
    res.Pairwise (fun x y =>
      x.tolerance < y.tolerance ∨ (x.tolerance = y.tolerance ∧ x.priority ≥ y.priority)) ∧
    res.Chain' (fun x y =>
      x.tolerance < y.tolerance ∨ (x.tolerance = y.tolerance ∧ x.priority ≥ y.priority)) := by
  have hsorted : res.Pairwise (fun x y =>
      x.tolerance < y.tolerance ∨ (x.tolerance = y.tolerance ∧ x.priority ≥ y.priority)) := by
    unfold BKTree.FindSimilar at h
    cases hroot : t.root_ with
    | none =>
      rw [hroot] at h
      simp only [Option.some.injEq] at h
      rw [← h]; exact List.Pairwise.nil
    | some root =>
      rw [hroot] at h
      simp only [Option.map_eq_some'] at h
      obtain ⟨acc, _, hres⟩ := h
      rw [← hres]
      exact (sortResults_sorted acc).imp (fun {a b} hab => (resultLe_iff a b).mp hab)
  refine ⟨?_, ?_, hsorted, hsorted.chain'⟩
  · intro hroot
    unfold BKTree.FindSimilar at h
    rw [hroot] at h
    simp only [Option.some.injEq] at h
    exact h.symm
  · intro root hroot
    unfold BKTree.FindSimilar at h
    rw [hroot] at h
    simp only [Option.map_eq_some'] at h
    obtain ⟨acc, hacc, hres⟩ := h
    exact ⟨acc, hacc, by rw [← hres]; exact sortResults_perm acc⟩

theorem C5_results_sorted_permutation_witness :
    (BKTree.insertAll BKTree.empty
        [([98, 97, 116], 2), ([99, 97, 116], 5), ([99, 97, 114], 3)]).2.FindSimilar
      [99, 97, 116] 1 =
      some [⟨[99, 97, 116], 0, 5⟩, ⟨[99, 97, 114], 1, 3⟩, ⟨[98, 97, 116], 1, 2⟩] ∧
    ((BKTree.insertAll BKTree.empty
        [([98, 97, 116], 2), ([99, 97, 116], 5), ([99, 97, 114], 3)]).2.root_ = none →
      [(⟨[99, 97, 116], 0, 5⟩ : SearchResult), ⟨[99, 97, 114], 1, 3⟩, ⟨[98, 97, 116], 1, 2⟩] = []) ∧
    (∀ root, (BKTree.insertAll BKTree.empty
        [([98, 97, 116], 2), ([99, 97, 116], 5), ([99, 97, 114], 3)]).2.root_ = some root →
      ∃ acc, root.FindSimilar (BKTree.insertAll BKTree.empty
        [([98, 97, 116], 2), ([99, 97, 116], 5), ([99, 97, 114], 3)]).2.metric_
          [99, 97, 116] 1 [] = some acc ∧
        [(⟨[99, 97, 116], 0, 5⟩ : SearchResult), ⟨[99, 97, 114], 1, 3⟩,
          ⟨[98, 97, 116], 1, 2⟩].Perm acc) ∧
    [(⟨[99, 97, 116], 0, 5⟩ : SearchResult), ⟨[99, 97, 114], 1, 3⟩, ⟨[98, 97, 116], 1, 2⟩].Pairwise
      (fun x y =>
        x.tolerance < y.tolerance ∨ (x.tolerance = y.tolerance ∧ x.priority ≥ y.priority)) ∧
    [(⟨[99, 97, 116], 0, 5⟩ : SearchResult), ⟨[99, 97, 114], 1, 3⟩, ⟨[98, 97, 116], 1, 2⟩].Chain'
      (fun x y =>
        x.tolerance < y.tolerance ∨ (x.tolerance = y.tolerance ∧ x.priority ≥ y.priority)) :=
  ⟨by decide, C5_results_sorted_permutation
    (BKTree.insertAll BKTree.empty [([98, 97, 116], 2), ([99, 97, 116], 5), ([99, 97, 114], 3)]).2
    [99, 97, 116] 1 _ (by decide)⟩

/-! ## `Insert`: what one call does to a tree -/

@[simp] theorem TreeNode.entries_mk (d : WString) (p : Nat) (cs : Childs) (mx mn : Nat) :
    (TreeNode.mk d p cs mx mn).entries = (d, p) :: cs.entries := by
  simp [TreeNode.entries, Childs.entries, entryOf, TreeNode.data_, TreeNode.priority_]

@[simp] theorem Childs.entries_nil : Childs.nil.entries = [] := by
  simp [Childs.entries]

@[simp] theorem Childs.entries_cons (k : Nat) (c : TreeNode) (rest : Childs) :
    (Childs.cons k c rest).entries = c.entries ++ rest.entries := by
  simp [Childs.entries, TreeNode.entries]

@[simp] theorem TreeNode.entries_leaf (w : WString) (p : Nat) :
    (TreeNode.leaf w p).entries = [(w, p)] := by
  simp [TreeNode.leaf]

theorem TreeNode.words_eq_entries (n : TreeNode) : n.words = n.entries.map Prod.fst := by
  simp [TreeNode.words, TreeNode.entries, entryOf, Function.comp_def]

/-- The key looked up by `Insert` is absent exactly when `InsertAt` gives `none`. -/
theorem InsertAt_eq_none_iff (metric : WString → WString → Nat) (w : WString) (p dist : Nat)
    (cs : Childs) : Childs.InsertAt metric w p dist cs = none ↔ dist ∉ cs.keys := by
  refine (TreeNode.induction (P := fun _ => True)
    (Q := fun cs => Childs.InsertAt metric w p dist cs = none ↔ dist ∉ cs.keys)
    (fun _ _ _ _ _ _ => trivial) (by simp [Childs.InsertAt]) ?_).2 cs
  intro k c rest _ ih
  simp only [Childs.InsertAt, Childs.keys_cons, List.mem_cons, not_or]
  by_cases hk : k = dist
  · simp [hk]
  · simp only [hk, if_false]
    have hk2 : ¬ dist = k := fun e => hk e.symm
    cases h : Childs.InsertAt metric w p dist rest with
    | none => simp only [true_iff]; exact ⟨hk2, ih.mp h⟩
    | some r =>
      constructor
      · intro hc; exact Option.noConfusion hc
      · intro hc
        rw [ih.mpr hc.2] at h
        exact Option.noConfusion h

/-- A recursive insertion below a children map keeps its keys. -/
theorem InsertAt_keys (metric : WString → WString → Nat) (w : WString) (p dist : Nat)
    (cs : Childs) :
    ∀ r, Childs.InsertAt metric w p dist cs = some r →
      r.2.keys = cs.keys ∧ r.2.maxKey = cs.maxKey ∧ r.2.minKey = cs.minKey := by
  refine (TreeNode.induction (P := fun _ => True)
    (Q := fun cs => ∀ r, Childs.InsertAt metric w p dist cs = some r →
      r.2.keys = cs.keys ∧ r.2.maxKey = cs.maxKey ∧ r.2.minKey = cs.minKey)
    (fun _ _ _ _ _ _ => trivial) (by simp [Childs.InsertAt]) ?_).2 cs
  intro k c rest _ ih r hr
  simp only [Childs.InsertAt] at hr
  split at hr
  · simp only [Option.some.injEq] at hr
    subst hr
    simp [Childs.maxKey, Childs.minKey]
  · cases h : Childs.InsertAt metric w p dist rest with
    | none => rw [h] at hr; exact Option.noConfusion hr
    | some r' =>
      rw [h] at hr
      simp only [Option.some.injEq] at hr
      subst hr
      obtain ⟨h1, h2, h3⟩ := ih r' h
      simp [Childs.maxKey, Childs.minKey, h1, h2, h3]

/-- One `Insert` either adds the entry `(w, p)` and returns `true`, or adds `p` to the priority
of one entry whose word is at distance `0` from `w` and returns `false`. -/
theorem Insert_entries (metric : WString → WString → Nat) (w : WString) (p : Nat) :
    (∀ n, ((TreeNode.Insert metric w p n).1 = true ∧
        (TreeNode.Insert metric w p n).2.entries.Perm ((w, p) :: n.entries)) ∨
      ((TreeNode.Insert metric w p n).1 = false ∧ ∃ x px l, metric w x = 0 ∧
        n.entries.Perm ((x, px) :: l) ∧
        (TreeNode.Insert metric w p n).2.entries.Perm ((x, (px + p) % UINT32_MOD) :: l))) ∧
    (∀ cs dist r, Childs.InsertAt metric w p dist cs = some r →
      (r.1 = true ∧ r.2.entries.Perm ((w, p) :: cs.entries)) ∨
      (r.1 = false ∧ ∃ x px l, metric w x = 0 ∧ cs.entries.Perm ((x, px) :: l) ∧
        r.2.entries.Perm ((x, (px + p) % UINT32_MOD) :: l))) := by
  apply TreeNode.induction
    (P := fun n => ((TreeNode.Insert metric w p n).1 = true ∧
        (TreeNode.Insert metric w p n).2.entries.Perm ((w, p) :: n.entries)) ∨
      ((TreeNode.Insert metric w p n).1 = false ∧ ∃ x px l, metric w x = 0 ∧
        n.entries.Perm ((x, px) :: l) ∧
        (TreeNode.Insert metric w p n).2.entries.Perm ((x, (px + p) % UINT32_MOD) :: l)))
    (Q := fun cs => ∀ dist r, Childs.InsertAt metric w p dist cs = some r →
      (r.1 = true ∧ r.2.entries.Perm ((w, p) :: cs.entries)) ∨
      (r.1 = false ∧ ∃ x px l, metric w x = 0 ∧ cs.entries.Perm ((x, px) :: l) ∧
        r.2.entries.Perm ((x, (px + p) % UINT32_MOD) :: l)))
  · intro d pr cs mx mn ih
    simp only [TreeNode.Insert]
    by_cases h0 : metric w d = 0
    · simp only [h0, ne_eq, not_true_eq_false, if_false]
      right
      exact ⟨trivial, d, pr, cs.entries, h0, by simp, by simp⟩
    · simp only [ne_eq, h0, not_false_eq_true, if_true]
      cases h : Childs.InsertAt metric w p (metric w d) cs with
      | none =>
        left
        simp only [TreeNode.entries_mk, Childs.entries_cons, TreeNode.entries_leaf,
          List.singleton_append, true_and]
        exact List.Perm.swap _ _ _
      | some r =>
        simp only [TreeNode.entries_mk]
        rcases ih _ r h with ⟨h1, h2⟩ | ⟨h1, x, px, l, h2, h3, h4⟩
        · left
          exact ⟨h1, ((List.Perm.cons _ h2).trans (List.Perm.swap _ _ _))⟩
        · right
          exact ⟨h1, x, px, (d, pr) :: l, h2,
            (List.Perm.cons _ h3).trans (List.Perm.swap _ _ _),
            (List.Perm.cons _ h4).trans (List.Perm.swap _ _ _)⟩
  · intro dist r h
    simp [Childs.InsertAt] at h
  · intro k c rest ihc ihr dist r h
    simp only [Childs.InsertAt] at h
    split at h
    · simp only [Option.some.injEq] at h
      subst h
      simp only [Childs.entries_cons]
      rcases ihc with ⟨h1, h2⟩ | ⟨h1, x, px, l, h2, h3, h4⟩
      · left
        exact ⟨h1, by simpa using h2.append_right rest.entries⟩
      · right
        exact ⟨h1, x, px, l ++ rest.entries, h2,
          by simpa using h3.append_right rest.entries,
          by simpa using h4.append_right rest.entries⟩
    · cases h' : Childs.InsertAt metric w p dist rest with
      | none => rw [h'] at h; exact Option.noConfusion h
      | some r' =>
        rw [h'] at h
        simp only [Option.some.injEq] at h
        subst h
        simp only [Childs.entries_cons]
        rcases ihr dist r' h' with ⟨h1, h2⟩ | ⟨h1, x, px, l, h2, h3, h4⟩
        · left
          exact ⟨h1, (h2.append_left c.entries).trans List.perm_middle⟩
        · right
          exact ⟨h1, x, px, c.entries ++ l, h2,
            (h3.append_left c.entries).trans List.perm_middle,
            (h4.append_left c.entries).trans List.perm_middle⟩

theorem mem_entries_of_mem_nodes (l : List TreeNode) (x : TreeNode) (h : x ∈ l) :
    (x.data_, x.priority_) ∈ l.map entryOf :=
  List.mem_map.mpr ⟨x, h, rfl⟩

theorem fst_mem_words_of_mem_entries (l : List TreeNode) (e : WString × Nat)
    (h : e ∈ l.map entryOf) : e.1 ∈ l.map TreeNode.data_ := by
  obtain ⟨x, hx, rfl⟩ := List.mem_map.mp h
  exact List.mem_map.mpr ⟨x, hx, rfl⟩

/-- After `Insert(w, p)` every stored word is `w` or was stored before. -/
theorem Insert_words_subset (metric : WString → WString → Nat) (w : WString) (p : Nat)
    (n : TreeNode) :
    ∀ x ∈ (TreeNode.Insert metric w p n).2.nodes, x.data_ = w ∨ x.data_ ∈ n.words := by
  intro x hx
  have hx' : (x.data_, x.priority_) ∈ (TreeNode.Insert metric w p n).2.entries :=
    mem_entries_of_mem_nodes _ x hx
  rcases (Insert_entries metric w p).1 n with ⟨_, h2⟩ | ⟨_, y, py, l, _, h3, h4⟩
  · have := h2.mem_iff.mp hx'
    simp only [List.mem_cons, Prod.mk.injEq] at this
    rcases this with ⟨h, _⟩ | h
    · exact Or.inl h
    · exact Or.inr (fst_mem_words_of_mem_entries _ _ h)
  · right
    have := h4.mem_iff.mp hx'
    simp only [List.mem_cons, Prod.mk.injEq] at this
    rcases this with ⟨h, _⟩ | h
    · rw [h]
      exact fst_mem_words_of_mem_entries _ (y, py) (h3.mem_iff.mpr (List.mem_cons_self _ _))
    · exact fst_mem_words_of_mem_entries _ _ (h3.mem_iff.mpr (List.mem_cons_of_mem _ h))

/-- Under the invariant, a word stored below a children map is at a distance from the
parent word that is one of the keys, and not zero. -/
theorem Childs.Inv_key_of_mem (metric : WString → WString → Nat) (d : WString) (cs : Childs) :
    Childs.Inv metric d cs → ∀ x ∈ cs.nodes,
      metric x.data_ d ∈ cs.keys ∧ metric x.data_ d ≠ 0 := by
  refine (TreeNode.induction (P := fun _ => True)
    (Q := fun cs => Childs.Inv metric d cs → ∀ x ∈ cs.nodes,
      metric x.data_ d ∈ cs.keys ∧ metric x.data_ d ≠ 0)
    (fun _ _ _ _ _ _ => trivial) (by simp) ?_).2 cs
  intro k c rest _ ih hinv x hx
  simp only [Childs.Inv] at hinv
  obtain ⟨hk0, _, hc, _, hrest⟩ := hinv
  simp only [Childs.nodes_cons, List.mem_append] at hx
  rcases hx with hx | hx
  · rw [hc x hx]; exact ⟨by simp, hk0⟩
  · obtain ⟨h1, h2⟩ := ih hrest x hx
    exact ⟨by simp [h1], h2⟩

/-- The invariant is maintained by `Insert`, for any metric. -/
theorem Insert_Inv (metric : WString → WString → Nat) (w : WString) (p : Nat) :
    (∀ n, TreeNode.Inv metric n → TreeNode.Inv metric (TreeNode.Insert metric w p n).2) ∧
    (∀ cs d r, Childs.Inv metric d cs → Childs.InsertAt metric w p (metric w d) cs = some r →
      Childs.Inv metric d r.2) := by
  apply TreeNode.induction
    (P := fun n => TreeNode.Inv metric n → TreeNode.Inv metric (TreeNode.Insert metric w p n).2)
    (Q := fun cs => ∀ d r, Childs.Inv metric d cs →
      Childs.InsertAt metric w p (metric w d) cs = some r → Childs.Inv metric d r.2)
  · intro d pr cs mx mn ih hinv
    simp only [TreeNode.Inv] at hinv
    obtain ⟨hcs, hmx, hmn⟩ := hinv
    simp only [TreeNode.Insert]
    by_cases h0 : metric w d = 0
    · simp only [h0, ne_eq, not_true_eq_false, if_false, TreeNode.Inv]
      exact ⟨hcs, hmx, hmn⟩
    · simp only [ne_eq, h0, not_false_eq_true, if_true]
      cases h : Childs.InsertAt metric w p (metric w d) cs with
      | none =>
        simp only [TreeNode.Inv, Childs.Inv, Childs.maxKey, Childs.minKey, hmx, hmn]
        refine ⟨⟨h0, (InsertAt_eq_none_iff metric w p _ cs).mp h, ?_, ?_, hcs⟩, trivial, trivial⟩
        · intro x hx
          simp only [TreeNode.nodes_leaf, List.mem_singleton] at hx
          rw [hx]; rfl
        · simp [TreeNode.leaf, TreeNode.Inv, Childs.Inv, Childs.maxKey, Childs.minKey]
      | some r =>
        obtain ⟨_, h2, h3⟩ := InsertAt_keys metric w p _ cs r h
        simp only [TreeNode.Inv]
        exact ⟨ih d r hcs h, by rw [h2]; exact hmx, by rw [h3]; exact hmn⟩
  · intro d r _ h
    simp [Childs.InsertAt] at h
  · intro k c rest ihc ihr d r hinv h
    simp only [Childs.Inv] at hinv
    obtain ⟨hk0, hk, hc, hcinv, hrest⟩ := hinv
    simp only [Childs.InsertAt] at h
    split at h
    · next hkd =>
      simp only [Option.some.injEq] at h
      subst h
      simp only [Childs.Inv]
      refine ⟨hk0, hk, ?_, ihc hcinv, hrest⟩
      intro x hx
      rcases Insert_words_subset metric w p c x hx with h1 | h1
      · rw [h1, hkd]
      · obtain ⟨y, hy, hyx⟩ := List.mem_map.mp h1
        rw [← hyx]; exact hc y hy
    · cases h' : Childs.InsertAt metric w p (metric w d) rest with
      | none => rw [h'] at h; exact Option.noConfusion h
      | some r' =>
        rw [h'] at h
        simp only [Option.some.injEq] at h
        subst h
        simp only [Childs.Inv]
        obtain ⟨h1, _, _⟩ := InsertAt_keys metric w p _ rest r' h'
        exact ⟨hk0, by rw [h1]; exact hk, hc, hcinv, ihr d r' hrest h'⟩

/-- Under the invariant, inserting a word that is already stored returns `false`. -/
theorem Insert_of_mem (metric : WString → WString → Nat) (w : WString) (p : Nat)
    (hw : metric w w = 0) :
    (∀ n, TreeNode.Inv metric n → w ∈ n.words → (TreeNode.Insert metric w p n).1 = false) ∧
    (∀ cs d, Childs.Inv metric d cs → w ∈ cs.nodes.map TreeNode.data_ →
      ∃ r, Childs.InsertAt metric w p (metric w d) cs = some r ∧ r.1 = false) := by
  apply TreeNode.induction
    (P := fun n => TreeNode.Inv metric n → w ∈ n.words →
      (TreeNode.Insert metric w p n).1 = false)
    (Q := fun cs => ∀ d, Childs.Inv metric d cs → w ∈ cs.nodes.map TreeNode.data_ →
      ∃ r, Childs.InsertAt metric w p (metric w d) cs = some r ∧ r.1 = false)
  · intro d pr cs mx mn ih hinv hmem
    simp only [TreeNode.Inv] at hinv
    simp only [TreeNode.Insert]
    by_cases h0 : metric w d = 0
    · simp only [h0, ne_eq, not_true_eq_false, if_false]
    · simp only [ne_eq, h0, not_false_eq_true, if_true]
      have hne : w ≠ d := fun e => h0 (by rw [← e]; exact hw)
      simp only [TreeNode.words, TreeNode.nodes_mk, List.map_cons, List.mem_cons,
        TreeNode.data_] at hmem
      rcases hmem with hmem | hmem
      · exact absurd hmem hne
      · obtain ⟨r, hr, hr1⟩ := ih d hinv.1 hmem
        rw [hr]; exact hr1
  · intro d _ hmem
    simp at hmem
  · intro k c rest ihc ihr d hinv hmem
    have hkey := Childs.Inv_key_of_mem metric d _ hinv
    simp only [Childs.Inv] at hinv
    obtain ⟨hk0, hk, hc, hcinv, hrest⟩ := hinv
    simp only [Childs.nodes_cons, List.map_append, List.mem_append] at hmem
    simp only [Childs.InsertAt]
    by_cases hkd : k = metric w d
    · simp only [hkd, if_true]
      refine ⟨_, rfl, ?_⟩
      apply ihc hcinv
      rcases hmem with hmem | hmem
      · exact hmem
      · obtain ⟨y, hy, hyw⟩ := List.mem_map.mp hmem
        have := (Childs.Inv_key_of_mem metric d rest hrest y hy).1
        rw [hyw, ← hkd] at this
        exact absurd this hk
    · simp only [hkd, if_false]
      have hmem' : w ∈ rest.nodes.map TreeNode.data_ := by
        rcases hmem with hmem | hmem
        · obtain ⟨y, hy, hyw⟩ := List.mem_map.mp hmem
          have := hc y hy
          rw [hyw] at this
          exact absurd this.symm hkd
        · exact hmem
      obtain ⟨r, hr, hr1⟩ := ihr d hrest hmem'
      rw [hr]
      exact ⟨_, rfl, hr1⟩

/-! ## Inserting a word twice -/

theorem Insert_leaf_self (metric : WString → WString → Nat) (w : WString) (p1 p2 : Nat)
    (hw : metric w w = 0) :
    (TreeNode.Insert metric w p2 (TreeNode.leaf w p1)).2 =
      TreeNode.leaf w ((p1 + p2) % UINT32_MOD) := by
  simp [TreeNode.leaf, TreeNode.Insert, hw]

/-- For a metric with `metric w w = 0`, `Insert(w, p1)` followed by `Insert(w, p2)` leaves
the node that the single call `Insert(w, p1 + p2)` leaves (the sum taken in `uint32_t`). -/
theorem Insert_twice (metric : WString → WString → Nat) (w : WString) (p1 p2 : Nat)
    (hw : metric w w = 0) :
    (∀ n, (TreeNode.Insert metric w p2 (TreeNode.Insert metric w p1 n).2).2 =
      (TreeNode.Insert metric w ((p1 + p2) % UINT32_MOD) n).2) ∧
    (∀ cs dist r1, Childs.InsertAt metric w p1 dist cs = some r1 →
      ∃ r2 r12, Childs.InsertAt metric w p2 dist r1.2 = some r2 ∧
        Childs.InsertAt metric w ((p1 + p2) % UINT32_MOD) dist cs = some r12 ∧ r2.2 = r12.2) := by
  apply TreeNode.induction
    (P := fun n => (TreeNode.Insert metric w p2 (TreeNode.Insert metric w p1 n).2).2 =
      (TreeNode.Insert metric w ((p1 + p2) % UINT32_MOD) n).2)
    (Q := fun cs => ∀ dist r1, Childs.InsertAt metric w p1 dist cs = some r1 →
      ∃ r2 r12, Childs.InsertAt metric w p2 dist r1.2 = some r2 ∧
        Childs.InsertAt metric w ((p1 + p2) % UINT32_MOD) dist cs = some r12 ∧ r2.2 = r12.2)
  · intro d pr cs mx mn ih
    by_cases h0 : metric w d = 0
    · simp only [TreeNode.Insert, h0, ne_eq, not_true_eq_false, if_false]
      have : ((pr + p1) % UINT32_MOD + p2) % UINT32_MOD =
          (pr + (p1 + p2) % UINT32_MOD) % UINT32_MOD := by
        unfold UINT32_MOD; omega
      rw [this]
    · cases h : Childs.InsertAt metric w p1 (metric w d) cs with
      | none =>
        have hn : Childs.InsertAt metric w ((p1 + p2) % UINT32_MOD) (metric w d) cs = none :=
          (InsertAt_eq_none_iff metric w _ _ cs).mpr
            ((InsertAt_eq_none_iff metric w p1 _ cs).mp h)
        simp only [TreeNode.Insert, ne_eq, h0, not_false_eq_true, if_true, h, hn,
          Childs.InsertAt]
        simp [TreeNode.leaf, hw]
      | some r1 =>
        obtain ⟨r2, r12, e2, e12, e⟩ := ih _ r1 h
        simp only [TreeNode.Insert, ne_eq, h0, not_false_eq_true, if_true, h, e2, e12, e]
  · intro dist r1 h
    simp [Childs.InsertAt] at h
  · intro k c rest ihc ihr dist r1 h
    simp only [Childs.InsertAt] at h
    by_cases hk : k = dist
    · simp only [hk, if_true, Option.some.injEq] at h
      subst h
      simp only [Childs.InsertAt, hk, if_true, ihc]
      exact ⟨_, _, rfl, rfl, rfl⟩
    · simp only [hk, if_false] at h
      cases h' : Childs.InsertAt metric w p1 dist rest with
      | none => rw [h'] at h; exact Option.noConfusion h
      | some r1' =>
        rw [h'] at h
        simp only [Option.some.injEq] at h
        subst h
        obtain ⟨r2, r12, e2, e12, e⟩ := ihr dist r1' h'
        simp only [Childs.InsertAt, hk, if_false, e2, e12, e]
        exact ⟨_, _, rfl, rfl, rfl⟩

theorem uniformMetric_self (w : WString) (hw : w.length < UINT32_MAX) : uniformMetric w w = 0 :=
  (MetricOn_uniformMetric.zero_iff w w hw hw).mpr rfl

/-- C7: in any tree over the uniform metric, the empty tree included, and for a word `w`
shorter than `2^32 - 1` characters, `Insert(w, p1)` followed by `Insert(w, p2)` yields exactly
the tree (nodes, edge labels, bounds and priorities) that the single call `Insert(w, p1 + p2)`
yields, the sum being the `uint32_t` sum. -/
theorem C7_insert_twice_adds_priorities (root : Option TreeNode) (w : WString) (p1 p2 : Nat)
    (hw : w.length < UINT32_MAX) :
    ((BKTree.Insert ⟨uniformMetric, root⟩ w p1).2.Insert w p2).2 =
      (BKTree.Insert ⟨uniformMetric, root⟩ w ((p1 + p2) % UINT32_MOD)).2 := by
  have h0 := uniformMetric_self w hw
  cases root with
  | none =>
    simp only [BKTree.Insert, Insert_leaf_self uniformMetric w p1 p2 h0]
  | some r =>
    simp only [BKTree.Insert, (Insert_twice uniformMetric w p1 p2 h0).1 r]

theorem C7_insert_twice_adds_priorities_witness :
    [100, 111, 103].length < UINT32_MAX ∧
    ((BKTree.Insert ⟨uniformMetric, some (TreeNode.leaf [99, 97, 116] 5)⟩
        [100, 111, 103] 1).2.Insert [100, 111, 103] 4).2 =
      (BKTree.Insert ⟨uniformMetric, some (TreeNode.leaf [99, 97, 116] 5)⟩
        [100, 111, 103] ((1 + 4) % UINT32_MOD)).2 :=
  ⟨by unfold UINT32_MAX; decide,
    C7_insert_twice_adds_priorities (some (TreeNode.leaf [99, 97, 116] 5)) [100, 111, 103] 1 4
      (by unfold UINT32_MAX; decide)⟩

/-! ## Sequences of `Insert` calls -/

theorem prioOf_perm (l1 l2 : List (WString × Nat)) (h : l1.Perm l2) (w : WString) :
    prioOf l1 w = prioOf l2 w := by
  unfold prioOf
  exact ((h.filter _).map _).sum_eq

theorem prioOf_cons (x : WString) (p : Nat) (l : List (WString × Nat)) (w : WString) :
    prioOf ((x, p) :: l) w = (if x = w then p else 0) + prioOf l w := by
  unfold prioOf
  by_cases h : x = w
  · simp [List.filter_cons, h]
  · simp [List.filter_cons, h]

theorem prioOf_eq_zero (l : List (WString × Nat)) (w : WString) (h : w ∉ l.map Prod.fst) :
    prioOf l w = 0 := by
  unfold prioOf
  have : l.filter (fun e => decide (e.1 = w)) = [] := by
    rw [List.filter_eq_nil_iff]
    intro e he hew
    simp only [decide_eq_true_eq] at hew
    exact h (List.mem_map.mpr ⟨e, he, hew⟩)
  rw [this]; rfl

theorem BKTree.entries_map_fst (t : BKTree) : t.entries.map Prod.fst = t.words := by
  simp [BKTree.entries, BKTree.words, entryOf, Function.comp_def]

/-- One `TreeNode::Insert` under a metric on `P`: a stored word gets its priority raised and
`false` is returned; a new word gets an entry and `true` is returned. -/
theorem Insert_step_node (P : WString → Prop) (metric : WString → WString → Nat)
    (hM : MetricOn P metric) (n : TreeNode) (hinv : TreeNode.Inv metric n)
    (hP : ∀ e ∈ n.entries, P e.1) (w : WString) (hw : P w) (p : Nat) :
    (w ∈ n.entries.map Prod.fst → (TreeNode.Insert metric w p n).1 = false ∧
      ∃ px l, n.entries.Perm ((w, px) :: l) ∧
        (TreeNode.Insert metric w p n).2.entries.Perm ((w, (px + p) % UINT32_MOD) :: l)) ∧
    (w ∉ n.entries.map Prod.fst → (TreeNode.Insert metric w p n).1 = true ∧
      (TreeNode.Insert metric w p n).2.entries.Perm ((w, p) :: n.entries)) := by
  have hww : metric w w = 0 := (hM.zero_iff w w hw hw).mpr rfl
  rcases (Insert_entries metric w p).1 n with ⟨h1, h2⟩ | ⟨h1, x, px, l, h2, h3, h4⟩
  · have hnot : w ∉ n.entries.map Prod.fst := by
      intro hmem
      have := (Insert_of_mem metric w p hww).1 n hinv (by rw [TreeNode.words_eq_entries]; exact hmem)
      rw [h1] at this
      exact Bool.noConfusion this
    exact ⟨fun hmem => absurd hmem hnot, fun _ => ⟨h1, h2⟩⟩
  · have hx : (x, px) ∈ n.entries := h3.mem_iff.mpr (List.mem_cons_self _ _)
    have hwx : w = x := (hM.zero_iff w x hw (hP _ hx)).mp h2
    subst hwx
    have hmem : w ∈ n.entries.map Prod.fst := List.mem_map.mpr ⟨_, hx, rfl⟩
    exact ⟨fun _ => ⟨h1, px, l, h3, h4⟩, fun hnot => absurd hmem hnot⟩

/-- One `BKTree::Insert` on a good tree: the tree stays good, the flag tells whether the
word is new, the stored words gain at most that word, and only its priority sum moves. -/
theorem Insert_step_tree (P : WString → Prop) (t : BKTree) (hM : MetricOn P t.metric_)
    (hg : t.Good P) (w : WString) (hw : P w) (p : Nat) :
    (t.Insert w p).2.metric_ = t.metric_ ∧ (t.Insert w p).2.Good P ∧
    ((t.Insert w p).1 = true ↔ w ∉ t.words) ∧
    (∀ v, v ∈ (t.Insert w p).2.words ↔ v = w ∨ v ∈ t.words) ∧
    (∀ v, prioOf (t.Insert w p).2.entries v =
      if v = w then (if w ∈ t.words then (prioOf t.entries w + p) % UINT32_MOD else p)
      else prioOf t.entries v) := by
  obtain ⟨hinv, hPe, hnd⟩ := hg
  unfold BKTree.Good
  cases hroot : t.root_ with
  | none =>
    have e1 : t.entries = [] := by simp [BKTree.entries, BKTree.nodes, hroot]
    have e2 : t.words = [] := by simp [BKTree.words, BKTree.nodes, hroot]
    have e3 : (t.Insert w p).2.entries = [(w, p)] := by
      simp [BKTree.Insert, hroot, BKTree.entries, BKTree.nodes, entryOf, TreeNode.leaf,
        TreeNode.data_, TreeNode.priority_]
    have e4 : (t.Insert w p).2.words = [w] := by
      rw [← BKTree.entries_map_fst, e3]; rfl
    refine ⟨by simp [BKTree.Insert, hroot], ⟨?_, ?_, ?_⟩, ?_, ?_, ?_⟩
    · simp [BKTree.Insert, hroot, BKTree.Inv, TreeNode.leaf, TreeNode.Inv, Childs.Inv,
        Childs.maxKey, Childs.minKey]
    · intro v hv
      rw [e4, List.mem_singleton] at hv
      subst hv
      exact hw
    · rw [e4]; simp
    · simp [BKTree.Insert, hroot, e2]
    · intro v; rw [e4, e2]; simp
    · intro v
      rw [e3, e1, e2, prioOf_cons]
      have hz2 : prioOf [] v = 0 := rfl
      rw [hz2]
      by_cases hv : v = w
      · subst hv
        simp
      · have hv2 : ¬ w = v := fun e => hv e.symm
        simp [hv, hv2]
  | some r =>
    have e1 : t.entries = r.entries := by
      simp [BKTree.entries, BKTree.nodes, hroot, TreeNode.entries]
    have e3 : (t.Insert w p).2.entries = (TreeNode.Insert t.metric_ w p r).2.entries := by
      simp [BKTree.Insert, hroot, BKTree.entries, BKTree.nodes, TreeNode.entries]
    have hinv' : TreeNode.Inv t.metric_ r := by
      simpa [BKTree.Inv, hroot] using hinv
    rw [← BKTree.entries_map_fst, e1] at hPe hnd
    have hPe' : ∀ e ∈ r.entries, P e.1 := fun e he => hPe _ (List.mem_map.mpr ⟨e, he, rfl⟩)
    obtain ⟨hA, hB⟩ := Insert_step_node P t.metric_ hM r hinv' hPe' w hw p
    have hinv2 : (t.Insert w p).2.Inv := by
      simp only [BKTree.Insert, hroot, BKTree.Inv]
      exact (Insert_Inv t.metric_ w p).1 r hinv'
    simp only [← BKTree.entries_map_fst, e3, e1]
    by_cases hmem : w ∈ r.entries.map Prod.fst
    · obtain ⟨hf, px, l, h3, h4⟩ := hA hmem
      have hnd2 : ((w, px) :: l).map Prod.fst |>.Nodup := (h3.map _).nodup_iff.mp hnd
      simp only [List.map_cons, List.nodup_cons] at hnd2
      refine ⟨by simp [BKTree.Insert, hroot], ⟨hinv2, ?_, ?_⟩, ?_, ?_, ?_⟩
      · intro v hv
        have := ((h4.map Prod.fst).mem_iff).mp hv
        exact hPe v (((h3.map Prod.fst).mem_iff).mpr (by simpa using this))
      · rw [(h4.map _).nodup_iff]
        simpa using hnd2
      · have : (t.Insert w p).1 = false := by simpa [BKTree.Insert, hroot] using hf
        rw [this]
        simp [hmem]
      · intro v
        rw [(h4.map _).mem_iff, (h3.map _).mem_iff]
        simp
      · intro v
        rw [prioOf_perm _ _ h4, prioOf_perm _ _ h3, prioOf_perm _ _ h3, prioOf_cons,
          prioOf_cons, prioOf_cons, prioOf_eq_zero l w hnd2.1]
        by_cases hv : v = w
        · subst hv
          simp [prioOf_eq_zero l v hnd2.1, hmem]
        · have hv2 : ¬ w = v := fun e => hv e.symm
          simp [hv, hv2]
    · obtain ⟨hf, h2⟩ := hB hmem
      refine ⟨by simp [BKTree.Insert, hroot], ⟨hinv2, ?_, ?_⟩, ?_, ?_, ?_⟩
      · intro v hv
        have := ((h2.map Prod.fst).mem_iff).mp hv
        simp only [List.map_cons, List.mem_cons] at this
        rcases this with h | h
        · rw [h]; exact hw
        · exact hPe v h
      · rw [(h2.map _).nodup_iff]
        simp only [List.map_cons, List.nodup_cons]
        exact ⟨hmem, hnd⟩
      · have : (t.Insert w p).1 = true := by simpa [BKTree.Insert, hroot] using hf
        rw [this]
        simp [hmem]
      · intro v
        rw [(h2.map _).mem_iff]
        simp
      · intro v
        rw [prioOf_perm _ _ h2, prioOf_cons, prioOf_eq_zero r.entries w hmem]
        by_cases hv : v = w
        · subst hv
          simp [prioOf_eq_zero r.entries v hmem, hmem]
        · have hv2 : ¬ w = v := fun e => hv e.symm
          simp [hv, hv2]

theorem BKTree.empty_Good (P : WString → Prop) : BKTree.empty.Good P := by
  simp [BKTree.Good, BKTree.empty, BKTree.Inv, BKTree.words, BKTree.nodes]

/-- A sequence of `Insert` calls on a good tree: the tree stays good, it stores the old
words and the inserted ones, and call number `i` returns `true` exactly when its word was
neither stored at the start nor inserted by an earlier call. -/
theorem insertAll_good (P : WString → Prop) (ws : List (WString × Nat)) :
    ∀ (t : BKTree), MetricOn P t.metric_ → t.Good P → (∀ wp ∈ ws, P wp.1) →
      (t.insertAll ws).2.metric_ = t.metric_ ∧ (t.insertAll ws).2.Good P ∧
      (∀ v, v ∈ (t.insertAll ws).2.words ↔ v ∈ t.words ∨ v ∈ ws.map Prod.fst) ∧
      (t.insertAll ws).1.length = ws.length ∧
      (∀ i wp, ws[i]? = some wp → (t.insertAll ws).1[i]? =
        some (decide (wp.1 ∉ t.words ∧ wp.1 ∉ (ws.take i).map Prod.fst))) := by
  induction ws with
  | nil =>
    intro t _ hg _
    simp [BKTree.insertAll, hg]
  | cons wp rest ih =>
    intro t hM hg hws
    obtain ⟨s1, s2, s3, s4, _⟩ :=
      Insert_step_tree P t hM hg wp.1 (hws wp (List.mem_cons_self _ _)) wp.2
    obtain ⟨i1, i2, i3, i4, i5⟩ := ih (t.Insert wp.1 wp.2).2 (by rw [s1]; exact hM) s2
      (fun x hx => hws x (List.mem_cons_of_mem _ hx))
    simp only [BKTree.insertAll]
    refine ⟨by rw [i1, s1], i2, ?_, by simp [i4], ?_⟩
    · intro v
      rw [i3, s4]
      simp only [List.map_cons, List.mem_cons]
      constructor
      · rintro ((h | h) | h)
        · exact Or.inr (Or.inl h)
        · exact Or.inl h
        · exact Or.inr (Or.inr h)
      · rintro (h | h | h)
        · exact Or.inl (Or.inr h)
        · exact Or.inl (Or.inl h)
        · exact Or.inr h
    · intro i x hx
      cases i with
      | zero =>
        simp only [List.getElem?_cons_zero, Option.some.injEq] at hx
        subst hx
        simp only [List.getElem?_cons_zero, List.take_zero, List.map_nil, List.not_mem_nil,
          not_false_eq_true, and_true, Option.some.injEq]
        by_cases hmem : wp.1 ∈ t.words
        · have : (t.Insert wp.1 wp.2).1 = false := by
            cases hb : (t.Insert wp.1 wp.2).1 with
            | false => rfl
            | true => exact absurd hmem (s3.mp hb)
          rw [this]; simp [hmem]
        · rw [s3.mpr hmem]; simp [hmem]
      | succ i =>
        simp only [List.getElem?_cons_succ] at hx
        simp only [List.getElem?_cons_succ, i5 i x hx, Option.some.injEq, List.take_succ_cons,
          List.map_cons, List.mem_cons, decide_eq_decide]
        rw [s4]
        constructor
        · rintro ⟨h1, h2⟩
          exact ⟨fun h => h1 (Or.inr h), fun h => h.elim (fun e => h1 (Or.inl e)) h2⟩
        · rintro ⟨h1, h2⟩
          exact ⟨fun h => h.elim (fun e => h2 (Or.inl e)) h1, fun h => h2 (Or.inr h)⟩

/-- A sequence of `Insert` calls adds to the priority of each word the priorities inserted
for it, in `uint32_t` arithmetic. -/
theorem insertAll_prio (P : WString → Prop) (ws : List (WString × Nat)) :
    ∀ (t : BKTree), MetricOn P t.metric_ → t.Good P → (∀ wp ∈ ws, P wp.1 ∧ wp.2 < UINT32_MOD) →
      (∀ v, prioOf t.entries v < UINT32_MOD) →
      ∀ v, prioOf (t.insertAll ws).2.entries v =
        (prioOf t.entries v + prioOf ws v) % UINT32_MOD := by
  induction ws with
  | nil =>
    intro t _ _ _ hb v
    have hz : prioOf [] v = 0 := rfl
    simp only [BKTree.insertAll, hz, Nat.add_zero]
    exact (Nat.mod_eq_of_lt (hb v)).symm
  | cons wp rest ih =>
    intro t hM hg hws hb v
    obtain ⟨hwP, hwp⟩ := hws wp (List.mem_cons_self _ _)
    obtain ⟨s1, s2, _, _, s5⟩ := Insert_step_tree P t hM hg wp.1 hwP wp.2
    have hb' : ∀ v, prioOf (t.Insert wp.1 wp.2).2.entries v < UINT32_MOD := by
      intro v
      rw [s5 v]
      split
      · split
        · exact Nat.mod_lt _ (by unfold UINT32_MOD; omega)
        · exact hwp
      · exact hb v
    have h := ih (t.Insert wp.1 wp.2).2 (by rw [s1]; exact hM) s2
      (fun x hx => hws x (List.mem_cons_of_mem _ hx)) hb' v
    simp only [BKTree.insertAll]
    rw [h, s5 v]
    have hc : prioOf (wp :: rest) v = (if wp.1 = v then wp.2 else 0) + prioOf rest v :=
      prioOf_cons wp.1 wp.2 rest v
    rw [hc]
    by_cases hv : v = wp.1
    · subst hv
      simp only [if_true]
      by_cases hmem : wp.1 ∈ t.words
      · simp only [hmem, if_true]
        unfold UINT32_MOD; omega
      · simp only [hmem, if_false]
        rw [prioOf_eq_zero t.entries wp.1 (by rw [BKTree.entries_map_fst]; exact hmem)]
        unfold UINT32_MOD; omega
    · have hv2 : ¬ wp.1 = v := fun e => hv e.symm
      simp only [hv, hv2, if_false, Nat.zero_add]

theorem prioOf_of_mem_nodup (l : List (WString × Nat)) (w : WString) (p : Nat)
    (hnd : (l.map Prod.fst).Nodup) (h : (w, p) ∈ l) : prioOf l w = p := by
  have hp := List.perm_cons_erase h
  have hnd2 := (hp.map Prod.fst).nodup_iff.mp hnd
  simp only [List.map_cons, List.nodup_cons] at hnd2
  rw [prioOf_perm _ _ hp, prioOf_cons, prioOf_eq_zero _ w hnd2.1]
  simp

/-- C6: after any sequence of `BKTree::Insert` calls on the empty tree with the uniform
metric (words shorter than `2^32 - 1` characters, priorities `uint32_t` values), every
distinct inserted word is held by exactly one node and nothing else is stored, so there are
as many nodes as distinct words; each node's priority is the sum modulo `2^32` of the
priorities inserted for its word; and call number `i` returned `true` exactly when its word
did not occur among the earlier calls. -/
theorem C6_one_node_per_word (ws : List (WString × Nat))
    (hws : ∀ wp ∈ ws, wp.1.length < UINT32_MAX ∧ wp.2 < UINT32_MOD) :
    (BKTree.empty.insertAll ws).2.words.Nodup ∧
    (∀ w, w ∈ (BKTree.empty.insertAll ws).2.words ↔ w ∈ ws.map Prod.fst) ∧
    (BKTree.empty.insertAll ws).2.nodes.length = ((ws.map Prod.fst).dedup).length ∧
    (∀ n ∈ (BKTree.empty.insertAll ws).2.nodes, n.priority_ =
      ((ws.filter (fun e => decide (e.1 = n.data_))).map Prod.snd).sum % UINT32_MOD) ∧
    (BKTree.empty.insertAll ws).1.length = ws.length ∧
    (∀ i wp, ws[i]? = some wp → (BKTree.empty.insertAll ws).1[i]? =
      some (decide (wp.1 ∉ (ws.take i).map Prod.fst))) := by
  have hM : MetricOn Short BKTree.empty.metric_ := MetricOn_uniformMetric
  obtain ⟨_, g2, g3, g4, g5⟩ := insertAll_good Short ws BKTree.empty hM
    (BKTree.empty_Good Short) (fun wp h => (hws wp h).1)
  have hpr := insertAll_prio Short ws BKTree.empty hM (BKTree.empty_Good Short) hws
    (fun v => by
      have : prioOf BKTree.empty.entries v = 0 := rfl
      rw [this]; unfold UINT32_MOD; omega)
  have hw0 : BKTree.empty.words = [] := rfl
  simp only [hw0, List.not_mem_nil, false_or, not_false_eq_true, true_and] at g3 g5
  obtain ⟨_, _, hnd⟩ := g2
  refine ⟨hnd, g3, ?_, ?_, g4, g5⟩
  · have hperm : (BKTree.empty.insertAll ws).2.words.Perm (ws.map Prod.fst).dedup :=
      (List.perm_ext_iff_of_nodup hnd (List.nodup_dedup _)).mpr
        (fun w => by rw [g3, List.mem_dedup])
    have := hperm.length_eq
    simpa [BKTree.words] using this
  · intro n hn
    have hmem : (n.data_, n.priority_) ∈ (BKTree.empty.insertAll ws).2.entries :=
      mem_entries_of_mem_nodes _ n hn
    have h1 := prioOf_of_mem_nodup _ _ _
      (by rw [BKTree.entries_map_fst]; exact hnd) hmem
    have h2 := hpr n.data_
    have h0 : prioOf BKTree.empty.entries n.data_ = 0 := rfl
    rw [h1, h0, Nat.zero_add] at h2
    exact h2

theorem C6_one_node_per_word_witness :
    (∀ wp ∈ [(([100, 111, 103] : WString), 1), ([99, 97, 116], 7), ([100, 111, 103], 4)],
      wp.1.length < UINT32_MAX ∧ wp.2 < UINT32_MOD) ∧
    (BKTree.empty.insertAll [([100, 111, 103], 1), ([99, 97, 116], 7), ([100, 111, 103], 4)]).2.words.Nodup ∧
    (∀ w, w ∈ (BKTree.empty.insertAll
        [([100, 111, 103], 1), ([99, 97, 116], 7), ([100, 111, 103], 4)]).2.words ↔
      w ∈ [([100, 111, 103], 1), ([99, 97, 116], 7), ([100, 111, 103], 4)].map Prod.fst) ∧
    (BKTree.empty.insertAll
        [([100, 111, 103], 1), ([99, 97, 116], 7), ([100, 111, 103], 4)]).2.nodes.length =
      (([([100, 111, 103], 1), ([99, 97, 116], 7), ([100, 111, 103], 4)].map Prod.fst).dedup).length ∧
    (∀ n ∈ (BKTree.empty.insertAll
        [([100, 111, 103], 1), ([99, 97, 116], 7), ([100, 111, 103], 4)]).2.nodes,
      n.priority_ =
        (([([100, 111, 103], 1), ([99, 97, 116], 7), ([100, 111, 103], 4)].filter
          (fun e => decide (e.1 = n.data_))).map Prod.snd).sum % UINT32_MOD) ∧
    (BKTree.empty.insertAll
        [([100, 111, 103], 1), ([99, 97, 116], 7), ([100, 111, 103], 4)]).1.length =
      [([100, 111, 103], 1), ([99, 97, 116], 7), ([100, 111, 103], 4)].length ∧
    (∀ i wp, [([100, 111, 103], 1), ([99, 97, 116], 7), ([100, 111, 103], 4)][i]? = some wp →
      (BKTree.empty.insertAll
        [([100, 111, 103], 1), ([99, 97, 116], 7), ([100, 111, 103], 4)]).1[i]? =
      some (decide (wp.1 ∉
        ([([100, 111, 103], 1), ([99, 97, 116], 7), ([100, 111, 103], 4)].take i).map Prod.fst))) :=
  ⟨by unfold UINT32_MAX UINT32_MOD; decide,
    C6_one_node_per_word [([100, 111, 103], 1), ([99, 97, 116], 7), ([100, 111, 103], 4)]
      (by unfold UINT32_MAX UINT32_MOD; decide)⟩

/-! ## Edge labels -/

/-- The nodes of a node of a subtree are nodes of the subtree. -/
theorem nodes_trans :
    (∀ (n m : TreeNode), m ∈ n.nodes → ∀ x ∈ m.nodes, x ∈ n.nodes) ∧
    (∀ (cs : Childs) (m : TreeNode), m ∈ cs.nodes → ∀ x ∈ m.nodes, x ∈ cs.nodes) := by
  apply TreeNode.induction
    (P := fun n => ∀ (m : TreeNode), m ∈ n.nodes → ∀ x ∈ m.nodes, x ∈ n.nodes)
    (Q := fun cs => ∀ (m : TreeNode), m ∈ cs.nodes → ∀ x ∈ m.nodes, x ∈ cs.nodes)
  · intro d p cs mx mn ih m hm x hx
    simp only [TreeNode.nodes_mk, List.mem_cons] at hm
    rcases hm with hm | hm
    · rw [hm] at hx; exact hx
    · simp only [TreeNode.nodes_mk, List.mem_cons]
      exact Or.inr (ih m hm x hx)
  · intro m hm
    simp at hm
  · intro k c rest ihc ihr m hm x hx
    simp only [Childs.nodes_cons, List.mem_append] at hm ⊢
    rcases hm with hm | hm
    · exact Or.inl (ihc m hm x hx)
    · exact Or.inr (ihr m hm x hx)

/-- The invariant of a subtree holds at each of its nodes. -/
theorem Inv_of_mem_nodes (metric : WString → WString → Nat) :
    (∀ n, TreeNode.Inv metric n → ∀ m ∈ n.nodes, TreeNode.Inv metric m) ∧
    (∀ cs d, Childs.Inv metric d cs → ∀ m ∈ cs.nodes, TreeNode.Inv metric m) := by
  apply TreeNode.induction
    (P := fun n => TreeNode.Inv metric n → ∀ m ∈ n.nodes, TreeNode.Inv metric m)
    (Q := fun cs => ∀ d, Childs.Inv metric d cs → ∀ m ∈ cs.nodes, TreeNode.Inv metric m)
  · intro d p cs mx mn ih hinv m hm
    simp only [TreeNode.nodes_mk, List.mem_cons] at hm
    rcases hm with hm | hm
    · rw [hm]; exact hinv
    · simp only [TreeNode.Inv] at hinv
      exact ih d hinv.1 m hm
  · intro d _ m hm
    simp at hm
  · intro k c rest ihc ihr d hinv m hm
    simp only [Childs.Inv] at hinv
    simp only [Childs.nodes_cons, List.mem_append] at hm
    rcases hm with hm | hm
    · exact ihc hinv.2.2.2.1 m hm
    · exact ihr d hinv.2.2.2.2 m hm

/-- Under the invariant every word below the edge labelled `k` is at distance `k` from the
parent word, and `k` lies between the smallest and the largest key. -/
theorem Childs.Inv_toList (metric : WString → WString → Nat) (d : WString) (cs : Childs) :
    Childs.Inv metric d cs → ∀ kc ∈ cs.toList,
      (∀ x ∈ kc.2.nodes, metric x.data_ d = kc.1) ∧ cs.minKey ≤ kc.1 ∧ kc.1 ≤ cs.maxKey := by
  refine (TreeNode.induction (P := fun _ => True)
    (Q := fun cs => Childs.Inv metric d cs → ∀ kc ∈ cs.toList,
      (∀ x ∈ kc.2.nodes, metric x.data_ d = kc.1) ∧ cs.minKey ≤ kc.1 ∧ kc.1 ≤ cs.maxKey)
    (fun _ _ _ _ _ _ => trivial) (by simp [Childs.toList]) ?_).2 cs
  intro k c rest _ ih hinv kc hkc
  simp only [Childs.Inv] at hinv
  simp only [Childs.toList, List.mem_cons] at hkc
  simp only [Childs.minKey, Childs.maxKey]
  rcases hkc with hkc | hkc
  · subst hkc
    exact ⟨hinv.2.2.1, by omega, by omega⟩
  · obtain ⟨h1, h2, h3⟩ := ih hinv.2.2.2.2 kc hkc
    exact ⟨h1, by omega, by omega⟩

theorem BKTree.words_of_mem_nodes (t : BKTree) (x : TreeNode) (h : x ∈ t.nodes) :
    x.data_ ∈ t.words :=
  List.mem_map.mpr ⟨x, h, rfl⟩

/-- C8: in a tree built from the empty tree by any sequence of `Insert` calls with the
uniform metric (words shorter than `2^32 - 1` characters), every parent/child pair joined by
an edge labelled `k` has `metric(parent.data, child.data) = k`, and every node of the
subtree under that edge is at distance exactly `k` from the parent. -/
theorem C8_edge_label_is_distance_to_parent (ws : List (WString × Nat))
    (hws : ∀ wp ∈ ws, wp.1.length < UINT32_MAX) :
    ∀ n ∈ (BKTree.empty.insertAll ws).2.nodes, ∀ kc ∈ n.childs_.toList,
      uniformMetric n.data_ kc.2.data_ = kc.1 ∧
      ∀ x ∈ kc.2.nodes, uniformMetric n.data_ x.data_ = kc.1 := by
  have hM : MetricOn Short BKTree.empty.metric_ := MetricOn_uniformMetric
  obtain ⟨g1, ⟨ginv, gP, _⟩, _⟩ := insertAll_good Short ws BKTree.empty hM
    (BKTree.empty_Good Short) hws
  have hmetric : (BKTree.empty.insertAll ws).2.metric_ = uniformMetric := g1
  intro n hn kc hkc
  have hall : ∀ x ∈ kc.2.nodes, uniformMetric n.data_ x.data_ = kc.1 := by
    intro x hx
    cases hroot : (BKTree.empty.insertAll ws).2.root_ with
    | none => simp [BKTree.nodes, hroot] at hn
    | some root =>
      have hn' : n ∈ root.nodes := by simpa [BKTree.nodes, hroot] using hn
      have hinv : TreeNode.Inv uniformMetric root := by
        simpa [BKTree.Inv, hroot, hmetric] using ginv
      have hninv := (Inv_of_mem_nodes uniformMetric).1 root hinv n hn'
      cases n with
      | mk d p cs mx mn =>
        simp only [TreeNode.childs_] at hkc
        simp only [TreeNode.Inv] at hninv
        have hkx := (Childs.Inv_toList uniformMetric d cs hninv.1 kc hkc).1 x hx
        have hx1 : x ∈ (TreeNode.mk d p cs mx mn).nodes := by
          simp only [TreeNode.nodes_mk, List.mem_cons]
          exact Or.inr (Childs.mem_nodes_of_mem_toList cs kc.1 kc.2 x hkc hx)
        have hx2 : x ∈ (BKTree.empty.insertAll ws).2.nodes := by
          simp only [BKTree.nodes, hroot]
          exact nodes_trans.1 root _ hn' x hx1
        have hd : Short d := gP _ (BKTree.words_of_mem_nodes _ _ hn)
        have hxs : Short x.data_ := gP _ (BKTree.words_of_mem_nodes _ _ hx2)
        have hsymm := MetricOn_uniformMetric.symm d x.data_ hd hxs
        show uniformMetric d x.data_ = kc.1
        rw [hsymm]
        exact hkx
  exact ⟨hall kc.2 (TreeNode.mem_nodes_self _), hall⟩

theorem C8_edge_label_is_distance_to_parent_witness :
    (∀ wp ∈ [(([99, 97, 116] : WString), 5), ([99, 97, 114], 3), ([98, 97, 116], 2),
      ([100, 111, 103], 1)], wp.1.length < UINT32_MAX) ∧
    ∀ n ∈ (BKTree.empty.insertAll
        [([99, 97, 116], 5), ([99, 97, 114], 3), ([98, 97, 116], 2), ([100, 111, 103], 1)]).2.nodes,
      ∀ kc ∈ n.childs_.toList,
        uniformMetric n.data_ kc.2.data_ = kc.1 ∧
        ∀ x ∈ kc.2.nodes, uniformMetric n.data_ x.data_ = kc.1 :=
  ⟨by unfold UINT32_MAX; decide,
    C8_edge_label_is_distance_to_parent
      [([99, 97, 116], 5), ([99, 97, 114], 3), ([98, 97, 116], 2), ([100, 111, 103], 1)]
      (by unfold UINT32_MAX; decide)⟩

/-! ## The pruned search agrees with a linear scan -/

theorem foundAt_of_not_mem_keys (metric : WString → WString → Nat) (q : WString) (t dist : Nat)
    (cs : Childs) (h : dist ∉ cs.keys) : Childs.foundAt metric q t dist cs = [] := by
  refine (TreeNode.induction (P := fun _ => True)
    (Q := fun cs => dist ∉ cs.keys → Childs.foundAt metric q t dist cs = [])
    (fun _ _ _ _ _ _ => trivial) (by simp [Childs.foundAt]) ?_).2 cs h
  intro k c rest _ ih hk
  simp only [Childs.keys_cons, List.mem_cons, not_or] at hk
  have hk1 : ¬ k = dist := fun e => hk.1 e.symm
  simp only [Childs.foundAt, hk1, if_false]
  exact ih hk.2

/-- The loop over distinct values of `dist` visits the child of the first entry once if its
key is among them, and otherwise looks only at the remaining entries. -/
theorem flatMap_foundAt_cons (metric : WString → WString → Nat) (q : WString) (t k : Nat)
    (c : TreeNode) (rest : Childs) (hk : k ∉ rest.keys) (ds : List Nat) (hnd : ds.Nodup) :
    (ds.flatMap (fun dist => Childs.foundAt metric q t dist (Childs.cons k c rest))).Perm
      ((if k ∈ ds then TreeNode.found metric q t c else []) ++
        ds.flatMap (fun dist => Childs.foundAt metric q t dist rest)) := by
  induction ds with
  | nil => simp
  | cons d ds ih =>
    simp only [List.nodup_cons] at hnd
    have ih' := ih hnd.2
    simp only [List.flatMap_cons, List.mem_cons]
    by_cases hkd : k = d
    · subst hkd
      have hnot : k ∉ ds := hnd.1
      simp only [hnot, if_false, List.nil_append] at ih'
      simp only [Childs.foundAt, if_true, true_or,
        foundAt_of_not_mem_keys metric q t k rest hk, List.nil_append]
      exact List.Perm.append_left _ ih'
    · have hkd' : ¬ (k = d ∨ k ∈ ds) ↔ ¬ k ∈ ds := by
        constructor
        · intro h h2; exact h (Or.inr h2)
        · intro h h2; exact h2.elim hkd h
      simp only [Childs.foundAt, hkd, if_false]
      by_cases hmem : k ∈ ds
      · simp only [hmem, or_true, if_true] at ih' ⊢
        exact (List.Perm.append_left _ ih').trans
          (by rw [← List.append_assoc, ← List.append_assoc]
              exact List.Perm.append_right _ List.perm_append_comm)
      · simp only [hmem, or_false, hkd, if_false, List.nil_append] at ih' ⊢
        exact List.Perm.append_left _ ih'

/-- Membership in the range scanned by the loop of `FindSimilar`. -/
theorem mem_scan_range (start end_ k : Nat) (h1 : start ≤ k) (h2 : k ≤ end_) :
    k ∈ List.range' start (end_ + 1 - start) := by
  rw [List.mem_range'_1]; omega

/-- Under the invariant and a metric on `P`, without wrap in `my_distance + tolerance`, the
results `FindSimilar` appends are, up to order, the results of the nodes of the subtree
whose word is within the tolerance: no subtree holding a match is skipped. -/
theorem found_perm (P : WString → Prop) (metric : WString → WString → Nat)
    (hM : MetricOn P metric) (q : WString) (hq : P q) (t : Nat) :
    (∀ n, TreeNode.Inv metric n → (∀ x ∈ n.nodes, P x.data_) →
      (∀ x ∈ n.nodes, metric q x.data_ + t < UINT32_MOD) →
      (TreeNode.found metric q t n).Perm
        ((n.nodes.filter (fun x => decide (metric q x.data_ ≤ t))).map
          (SearchResult.ofNode metric q))) ∧
    (∀ cs d (ds : List Nat), Childs.Inv metric d cs → (∀ x ∈ cs.nodes, P x.data_) →
      (∀ x ∈ cs.nodes, metric q x.data_ + t < UINT32_MOD) → ds.Nodup →
      (∀ kc ∈ cs.toList, kc.1 ∉ ds → ∀ x ∈ kc.2.nodes, ¬ metric q x.data_ ≤ t) →
      (ds.flatMap (fun dist => Childs.foundAt metric q t dist cs)).Perm
        ((cs.nodes.filter (fun x => decide (metric q x.data_ ≤ t))).map
          (SearchResult.ofNode metric q))) := by
  apply TreeNode.induction
    (P := fun n => TreeNode.Inv metric n → (∀ x ∈ n.nodes, P x.data_) →
      (∀ x ∈ n.nodes, metric q x.data_ + t < UINT32_MOD) →
      (TreeNode.found metric q t n).Perm
        ((n.nodes.filter (fun x => decide (metric q x.data_ ≤ t))).map
          (SearchResult.ofNode metric q)))
    (Q := fun cs => ∀ d (ds : List Nat), Childs.Inv metric d cs → (∀ x ∈ cs.nodes, P x.data_) →
      (∀ x ∈ cs.nodes, metric q x.data_ + t < UINT32_MOD) → ds.Nodup →
      (∀ kc ∈ cs.toList, kc.1 ∉ ds → ∀ x ∈ kc.2.nodes, ¬ metric q x.data_ ≤ t) →
      (ds.flatMap (fun dist => Childs.foundAt metric q t dist cs)).Perm
        ((cs.nodes.filter (fun x => decide (metric q x.data_ ≤ t))).map
          (SearchResult.ofNode metric q)))
  · intro d p cs mx mn ih hinv hP hwrap
    simp only [TreeNode.Inv] at hinv
    obtain ⟨hcs, hmx, hmn⟩ := hinv
    have hself := TreeNode.mem_nodes_self (TreeNode.mk d p cs mx mn)
    have hPd : P d := hP _ hself
    have hwd : metric q d + t < UINT32_MOD := hwrap _ hself
    have hPcs : ∀ x ∈ cs.nodes, P x.data_ := fun x hx => hP x (by simp [hx])
    have hwcs : ∀ x ∈ cs.nodes, metric q x.data_ + t < UINT32_MOD :=
      fun x hx => hwrap x (by simp [hx])
    have hloop := ih d
      (List.range' (if metric q d < t then mn else max (metric q d - t) mn)
        (min ((metric q d + t) % UINT32_MOD) mx + 1 -
          (if metric q d < t then mn else max (metric q d - t) mn)))
      hcs hPcs hwcs (List.nodup_range' _ _) (by
        intro kc hkc hnot x hx hle
        apply hnot
        obtain ⟨hk, hlo, hhi⟩ := Childs.Inv_toList metric d cs hcs kc hkc
        have hxcs : x ∈ cs.nodes := Childs.mem_nodes_of_mem_toList cs kc.1 kc.2 x hkc hx
        have hPx := hPcs x hxcs
        have hkx := hk x hx
        have t1 := hM.triangle x.data_ q d hPx hq hPd
        have t2 := hM.triangle q x.data_ d hq hPx hPd
        have hs := hM.symm x.data_ q hPx hq
        rw [Nat.mod_eq_of_lt hwd]
        apply mem_scan_range
        · split <;> omega
        · omega)
    simp only [TreeNode.found, TreeNode.nodes_mk, List.filter_cons]
    by_cases hle : metric q d ≤ t
    · simp only [hle, if_true, decide_True, List.map_cons, TreeNode.data_]
      exact List.Perm.cons _ hloop
    · simp only [hle, if_false, decide_False, List.nil_append, TreeNode.data_]
      exact hloop
  · intro d ds _ _ _ _ _
    simp [Childs.foundAt]
  · intro k c rest ihc ihr d ds hinv hP hwrap hnd hprune
    simp only [Childs.Inv] at hinv
    obtain ⟨_, hk, _, hcinv, hrest⟩ := hinv
    have h1 := flatMap_foundAt_cons metric q t k c rest hk ds hnd
    have hrest' := ihr d ds hrest (fun x hx => hP x (by simp [hx]))
      (fun x hx => hwrap x (by simp [hx])) hnd
      (fun kc hkc => hprune kc (by simp [Childs.toList, hkc]))
    have hc := ihc hcinv (fun x hx => hP x (by simp [hx])) (fun x hx => hwrap x (by simp [hx]))
    simp only [Childs.nodes_cons, List.filter_append, List.map_append]
    refine h1.trans (List.Perm.append ?_ hrest')
    by_cases hmem : k ∈ ds
    · simp only [hmem, if_true]; exact hc
    · simp only [hmem, if_false]
      have hnone : c.nodes.filter (fun x => decide (metric q x.data_ ≤ t)) = [] := by
        rw [List.filter_eq_nil_iff]
        intro x hx
        simp only [decide_eq_true_eq]
        exact hprune (k, c) (by simp [Childs.toList]) hmem x hx
      rw [hnone]; exact List.Perm.nil

/-- Under the invariant and a metric on `P`, no node has `max_dist_ = UINT32_MAX`. -/
theorem maxKey_lt (P : WString → Prop) (metric : WString → WString → Nat)
    (hM : MetricOn P metric) (d : WString) (hd : P d) (cs : Childs) :
    Childs.Inv metric d cs → (∀ x ∈ cs.nodes, P x.data_) → cs.maxKey < UINT32_MAX := by
  refine (TreeNode.induction (P := fun _ => True)
    (Q := fun cs => Childs.Inv metric d cs → (∀ x ∈ cs.nodes, P x.data_) →
      cs.maxKey < UINT32_MAX)
    (fun _ _ _ _ _ _ => trivial) (by unfold UINT32_MAX; simp [Childs.maxKey]) ?_).2 cs
  intro k c rest _ ih hinv hP
  simp only [Childs.Inv] at hinv
  have h1 := ih hinv.2.2.2.2 (fun x hx => hP x (by simp [hx]))
  have h2 := hinv.2.2.1 c (TreeNode.mem_nodes_self c)
  have h3 := hM.lt_max c.data_ d (hP c (by simp [TreeNode.mem_nodes_self])) hd
  simp only [Childs.maxKey]
  omega

theorem max_dist_lt (P : WString → Prop) (metric : WString → WString → Nat)
    (hM : MetricOn P metric) (n : TreeNode) (hinv : TreeNode.Inv metric n)
    (hP : ∀ x ∈ n.nodes, P x.data_) : ∀ x ∈ n.nodes, x.max_dist_ < UINT32_MAX := by
  intro x hx
  have hxinv := (Inv_of_mem_nodes metric).1 n hinv x hx
  have hPx : ∀ y ∈ x.nodes, P y.data_ := fun y hy => hP y (nodes_trans.1 n x hx y hy)
  cases x with
  | mk d p cs mx mn =>
    simp only [TreeNode.Inv] at hxinv
    simp only [TreeNode.max_dist_]
    rw [hxinv.2.1]
    exact maxKey_lt P metric hM d (hPx _ (TreeNode.mem_nodes_self _)) cs hxinv.1
      (fun y hy => hPx y (by simp [hy]))

/-- On a good tree, and without wrap in `my_distance + tolerance`, `BKTree::FindSimilar`
returns, and its results are up to order the results of the nodes within the tolerance. -/
theorem FindSimilar_tree_perm (P : WString → Prop) (t : BKTree) (hM : MetricOn P t.metric_)
    (hg : t.Good P) (q : WString) (hq : P q) (tol : Nat)
    (hwrap : ∀ w ∈ t.words, t.metric_ q w + tol < UINT32_MOD) :
    ∃ res, t.FindSimilar q tol = some res ∧
      res.Perm ((t.nodes.filter (fun x => decide (t.metric_ q x.data_ ≤ tol))).map
        (SearchResult.ofNode t.metric_ q)) := by
  obtain ⟨hinv, hP, _⟩ := hg
  cases hroot : t.root_ with
  | none =>
    refine ⟨[], by simp [BKTree.FindSimilar, hroot], ?_⟩
    simp [BKTree.nodes, hroot]
  | some root =>
    have hinv' : TreeNode.Inv t.metric_ root := by simpa [BKTree.Inv, hroot] using hinv
    have hn : t.nodes = root.nodes := by simp [BKTree.nodes, hroot]
    have hP' : ∀ x ∈ root.nodes, P x.data_ := fun x hx =>
      hP _ (BKTree.words_of_mem_nodes t x (by rw [hn]; exact hx))
    have hw' : ∀ x ∈ root.nodes, t.metric_ q x.data_ + tol < UINT32_MOD := fun x hx =>
      hwrap _ (BKTree.words_of_mem_nodes t x (by rw [hn]; exact hx))
    have hsome := (FindSimilar_some t.metric_ q tol).1 root
      (max_dist_lt P t.metric_ hM root hinv' hP') []
    have hperm := (found_perm P t.metric_ hM q hq tol).1 root hinv' hP' hw'
    refine ⟨sortResults (TreeNode.found t.metric_ q tol root), ?_, ?_⟩
    · simp [BKTree.FindSimilar, hroot, hsome]
    · rw [hn]
      exact (sortResults_perm _).trans hperm

/-- C2: for the tree built from the empty tree by any sequence of `Insert` calls with the
uniform metric (stored words and query shorter than `2^32 - 1` characters), and a tolerance
`t` with `t + d(q, w) < 2^32` for every stored word `w`, `BKTree::FindSimilar(q, t)` returns;
the set of words it returns is exactly the set of stored words with `d(q, w) ≤ t`, each
returned once; so it agrees with a linear scan of the dictionary. -/
theorem C2_search_agrees_with_linear_scan (ws : List (WString × Nat)) (q : WString) (t : Nat)
    (hws : ∀ wp ∈ ws, wp.1.length < UINT32_MAX) (hq : q.length < UINT32_MAX)
    (ht : ∀ wp ∈ ws, t + uniformMetric q wp.1 < UINT32_MOD) :
    ∃ res, (BKTree.empty.insertAll ws).2.FindSimilar q t = some res ∧
      (res.map SearchResult.result).Nodup ∧
      (∀ w, w ∈ res.map SearchResult.result ↔ (w ∈ ws.map Prod.fst ∧ uniformMetric q w ≤ t)) ∧
      (res.map SearchResult.result).Perm
        (((ws.map Prod.fst).dedup).filter (fun w => decide (uniformMetric q w ≤ t))) := by
  have hM0 : MetricOn Short BKTree.empty.metric_ := MetricOn_uniformMetric
  obtain ⟨g1, g2, g3, _⟩ := insertAll_good Short ws BKTree.empty hM0
    (BKTree.empty_Good Short) hws
  have hmetric : (BKTree.empty.insertAll ws).2.metric_ = uniformMetric := g1
  have hw0 : BKTree.empty.words = [] := rfl
  simp only [hw0, List.not_mem_nil, false_or] at g3
  have hM : MetricOn Short (BKTree.empty.insertAll ws).2.metric_ := by
    rw [hmetric]; exact MetricOn_uniformMetric
  obtain ⟨res, hres, hperm⟩ := FindSimilar_tree_perm Short (BKTree.empty.insertAll ws).2 hM g2
    q hq t (by
      intro w hw
      obtain ⟨wp, hwp, rfl⟩ := List.mem_map.mp ((g3 w).mp hw)
      rw [hmetric]
      have := ht wp hwp
      omega)
  rw [hmetric] at hperm
  have hmap : (res.map SearchResult.result).Perm
      (((BKTree.empty.insertAll ws).2.words).filter (fun w => decide (uniformMetric q w ≤ t))) := by
    have h1 := hperm.map SearchResult.result
    have h2 : (((BKTree.empty.insertAll ws).2.nodes.filter
        (fun x => decide (uniformMetric q x.data_ ≤ t))).map
          (SearchResult.ofNode uniformMetric q)).map SearchResult.result =
        ((BKTree.empty.insertAll ws).2.words).filter (fun w => decide (uniformMetric q w ≤ t)) := by
      simp only [BKTree.words, List.map_map, List.filter_map]
      rfl
    rw [h2] at h1
    exact h1
  have hnd : (res.map SearchResult.result).Nodup :=
    hmap.nodup_iff.mpr (g2.2.2.filter _)
  have hmem : ∀ w, w ∈ res.map SearchResult.result ↔
      (w ∈ ws.map Prod.fst ∧ uniformMetric q w ≤ t) := by
    intro w
    rw [hmap.mem_iff, List.mem_filter, g3]
    simp
  refine ⟨res, hres, hnd, hmem, ?_⟩
  refine (List.perm_ext_iff_of_nodup hnd ((List.nodup_dedup _).filter _)).mpr ?_
  intro w
  rw [hmem, List.mem_filter, List.mem_dedup]
  simp

theorem C2_search_agrees_with_linear_scan_witness :
    ((∀ wp ∈ [(([99, 97, 116] : WString), 5), ([99, 97, 114], 3), ([98, 97, 116], 2),
        ([100, 111, 103], 1), ([99, 97, 116], 2)], wp.1.length < UINT32_MAX) ∧
      [99, 97, 116].length < UINT32_MAX ∧
      ∀ wp ∈ [(([99, 97, 116] : WString), 5), ([99, 97, 114], 3), ([98, 97, 116], 2),
        ([100, 111, 103], 1), ([99, 97, 116], 2)],
        1 + uniformMetric [99, 97, 116] wp.1 < UINT32_MOD) ∧
    ∃ res, (BKTree.empty.insertAll
        [([99, 97, 116], 5), ([99, 97, 114], 3), ([98, 97, 116], 2), ([100, 111, 103], 1),
          ([99, 97, 116], 2)]).2.FindSimilar [99, 97, 116] 1 = some res ∧
      (res.map SearchResult.result).Nodup ∧
      (∀ w, w ∈ res.map SearchResult.result ↔
        (w ∈ [([99, 97, 116], 5), ([99, 97, 114], 3), ([98, 97, 116], 2), ([100, 111, 103], 1),
          ([99, 97, 116], 2)].map Prod.fst ∧ uniformMetric [99, 97, 116] w ≤ 1)) ∧
      (res.map SearchResult.result).Perm
        ((([([99, 97, 116], 5), ([99, 97, 114], 3), ([98, 97, 116], 2), ([100, 111, 103], 1),
          ([99, 97, 116], 2)].map Prod.fst).dedup).filter
            (fun w => decide (uniformMetric [99, 97, 116] w ≤ 1))) :=
  ⟨⟨by unfold UINT32_MAX; decide, by unfold UINT32_MAX; decide, by unfold UINT32_MOD; decide⟩,
    C2_search_agrees_with_linear_scan
      [([99, 97, 116], 5), ([99, 97, 114], 3), ([98, 97, 116], 2), ([100, 111, 103], 1),
        ([99, 97, 116], 2)] [99, 97, 116] 1
      (by unfold UINT32_MAX; decide) (by unfold UINT32_MAX; decide)
      (by unfold UINT32_MOD; decide)⟩

/-- C4: `BKTree::FindSimilar(w, t)` misses a stored word `w` when `my_distance + tolerance`
wraps. After `Insert("a", 1)` and `Insert("b", 1)`, the search for `"b"` with tolerance
`2^32 - 1` returns only `("a", 1, 1)`: at the root `1 + (2^32 - 1)` wraps to `0`, `end` is `0`
and the child holding `"b"` at edge `1` is not visited, while the search with tolerance `1`
returns `("b", 0, 1)` first. -/
theorem C4_stored_word_missed_at_max_tolerance :
    (BKTree.empty.insertAll [([97], 1), ([98], 1)]).2.FindSimilar [98] 4294967295 =
      some [⟨[97], 1, 1⟩] ∧
    (BKTree.empty.insertAll [([97], 1), ([98], 1)]).2.FindSimilar [98] 1 =
      some [⟨[98], 0, 1⟩, ⟨[97], 1, 1⟩] := by
  decide

/-! ## The Bloom filter has no false negatives -/

theorem getD_set_true_self (l : List Bool) (i : Nat) (h : i < l.length) :
    (l.set i true).getD i false = true := by
  simp [List.getD_eq_getElem?_getD, List.getElem?_set_self h]

theorem getD_set_true_of_true (l : List Bool) (i j : Nat) (h : l.getD i false = true) :
    (l.set j true).getD i false = true := by
  by_cases hij : j = i
  · subst hij
    have hlt : j < l.length := by
      by_contra hge
      rw [List.getD_eq_default _ _ (by omega)] at h
      exact Bool.noConfusion h
    exact getD_set_true_self l j hlt
  · simpa [List.getD_eq_getElem?_getD, List.getElem?_set_ne hij] using h

namespace BloomCache

theorem init_eq_some (bits : Nat) (c : BloomCache) (h : init bits = some c) :
    c.cache_.length = 2 ^ bits ∧ c.mask_ = 2 ^ bits - 1 ∧ c.WF := by
  unfold init at h
  split at h
  · simp only [Option.some.injEq] at h
    subst h
    have hpos : 0 < 2 ^ bits := Nat.two_pow_pos bits
    refine ⟨by simp, rfl, ?_⟩
    unfold WF
    simp only [List.length_replicate]
    omega
  · exact Option.noConfusion h

theorem default16_WF : default16.WF := by
  unfold WF default16
  rw [List.length_replicate]

theorem pos1_lt {α : Type} (Hash : α → Nat) (c : BloomCache) (hc : c.WF) (v : α) :
    pos1 Hash c v < c.cache_.length := by
  have h : pos1 Hash c v ≤ c.mask_ := Nat.and_le_right
  unfold WF at hc
  omega

theorem pos2_lt {α : Type} (Hash : α → Nat) (c : BloomCache) (hc : c.WF) (v : α) :
    pos2 Hash c v < c.cache_.length := by
  have h : pos2 Hash c v ≤ c.mask_ := Nat.and_le_right
  unfold WF at hc
  omega

theorem Add_mask {α : Type} (Hash : α → Nat) (c : BloomCache) (v : α) :
    (c.Add Hash v).mask_ = c.mask_ := rfl

theorem Add_length {α : Type} (Hash : α → Nat) (c : BloomCache) (v : α) :
    (c.Add Hash v).cache_.length = c.cache_.length := by
  simp [Add]

theorem Add_WF {α : Type} (Hash : α → Nat) (c : BloomCache) (hc : c.WF) (v : α) :
    (c.Add Hash v).WF := by
  unfold WF at hc ⊢
  rw [Add_length, Add_mask]; exact hc

/-- A value just added is found. -/
theorem Check_Add_self {α : Type} (Hash : α → Nat) (c : BloomCache) (hc : c.WF) (v : α) :
    (c.Add Hash v).Check Hash v = true := by
  have h1 := pos1_lt Hash c hc v
  have h2 := pos2_lt Hash c hc v
  unfold Check
  have e1 : pos1 Hash (c.Add Hash v) v = pos1 Hash c v := rfl
  have e2 : pos2 Hash (c.Add Hash v) v = pos2 Hash c v := rfl
  rw [e1, e2]
  simp only [Add, Bool.and_eq_true]
  exact ⟨getD_set_true_of_true _ _ _ (getD_set_true_self _ _ h1),
    getD_set_true_self _ _ (by simpa using h2)⟩

/-- An `Add` never clears a bit: a value found before is found after. -/
theorem Check_Add_of_Check {α : Type} (Hash : α → Nat) (c : BloomCache) (v x : α)
    (h : c.Check Hash x = true) : (c.Add Hash v).Check Hash x = true := by
  unfold Check at h ⊢
  have e1 : pos1 Hash (c.Add Hash v) x = pos1 Hash c x := rfl
  have e2 : pos2 Hash (c.Add Hash v) x = pos2 Hash c x := rfl
  rw [e1, e2]
  simp only [Bool.and_eq_true] at h
  simp only [Add, Bool.and_eq_true]
  exact ⟨getD_set_true_of_true _ _ _ (getD_set_true_of_true _ _ _ h.1),
    getD_set_true_of_true _ _ _ (getD_set_true_of_true _ _ _ h.2)⟩

theorem foldl_Add_shape {α : Type} (Hash : α → Nat) (xs : List α) :
    ∀ c : BloomCache, c.WF → (xs.foldl (Add Hash) c).WF ∧
      (xs.foldl (Add Hash) c).mask_ = c.mask_ ∧
      (xs.foldl (Add Hash) c).cache_.length = c.cache_.length := by
  induction xs with
  | nil => intro c hc; exact ⟨hc, rfl, rfl⟩
  | cons v xs ih =>
    intro c hc
    obtain ⟨h1, h2, h3⟩ := ih (c.Add Hash v) (Add_WF Hash c hc v)
    exact ⟨h1, by rw [List.foldl_cons, h2, Add_mask], by rw [List.foldl_cons, h3, Add_length]⟩

theorem foldl_Add_of_Check {α : Type} (Hash : α → Nat) (xs : List α) (x : α) :
    ∀ c : BloomCache, c.Check Hash x = true → (xs.foldl (Add Hash) c).Check Hash x = true := by
  induction xs with
  | nil => intro c h; exact h
  | cons v xs ih => intro c h; exact ih _ (Check_Add_of_Check Hash c v x h)

theorem foldl_Add_Check {α : Type} (Hash : α → Nat) (xs : List α) (x : α) (hx : x ∈ xs) :
    ∀ c : BloomCache, c.WF → (xs.foldl (Add Hash) c).Check Hash x = true := by
  induction xs with
  | nil => exact absurd hx (List.not_mem_nil _)
  | cons v xs ih =>
    intro c hc
    rw [List.foldl_cons]
    rcases List.mem_cons.mp hx with h | h
    · subst h
      exact foldl_Add_of_Check Hash xs x _ (Check_Add_self Hash c hc x)
    · exact ih h _ (Add_WF Hash c hc v)

end BloomCache

/-- C11: a `BloomCache` has no false negatives. For every bit width `b` for which
`BloomCache(b)` is constructed, after every sequence of `Add` calls on the fresh cache the
array still has `2^b` bits, both probed positions `h1 & mask` and `h2 & mask` of every value
lie inside it, and `Check(x)` is true for every `x` added anywhere in the sequence. -/
theorem C11_bloom_no_false_negatives {α : Type} (Hash : α → Nat) (bits : Nat) (c0 : BloomCache)
    (h0 : BloomCache.init bits = some c0) (xs : List α) :
    (xs.foldl (BloomCache.Add Hash) c0).cache_.length = 2 ^ bits ∧
    (∀ y, BloomCache.pos1 Hash (xs.foldl (BloomCache.Add Hash) c0) y < 2 ^ bits ∧
      BloomCache.pos2 Hash (xs.foldl (BloomCache.Add Hash) c0) y < 2 ^ bits) ∧
    (∀ x ∈ xs, (xs.foldl (BloomCache.Add Hash) c0).Check Hash x = true) := by
  obtain ⟨hlen, _, hwf⟩ := BloomCache.init_eq_some bits c0 h0
  obtain ⟨s1, _, s3⟩ := BloomCache.foldl_Add_shape Hash xs c0 hwf
  refine ⟨by rw [s3, hlen], ?_, ?_⟩
  · intro y
    have p1 := BloomCache.pos1_lt Hash _ s1 y
    have p2 := BloomCache.pos2_lt Hash _ s1 y
    rw [s3, hlen] at p1 p2
    exact ⟨p1, p2⟩
  · intro x hx
    exact BloomCache.foldl_Add_Check Hash xs x hx c0 hwf

theorem C11_bloom_no_false_negatives_witness :
    BloomCache.init 4 = some ⟨List.replicate 16 false, 15⟩ ∧
    ([97, 105, 97].foldl (BloomCache.Add hashWChar) ⟨List.replicate 16 false, 15⟩).cache_.length =
      2 ^ 4 ∧
    (∀ y, BloomCache.pos1 hashWChar
        ([97, 105, 97].foldl (BloomCache.Add hashWChar) ⟨List.replicate 16 false, 15⟩) y < 2 ^ 4 ∧
      BloomCache.pos2 hashWChar
        ([97, 105, 97].foldl (BloomCache.Add hashWChar) ⟨List.replicate 16 false, 15⟩) y < 2 ^ 4) ∧
    (∀ x ∈ [97, 105, 97],
      ([97, 105, 97].foldl (BloomCache.Add hashWChar) ⟨List.replicate 16 false, 15⟩).Check
        hashWChar x = true) :=
  ⟨by decide, C11_bloom_no_false_negatives hashWChar 4 ⟨List.replicate 16 false, 15⟩
    (by decide) [97, 105, 97]⟩

/-! ## The loader and the cost lookups -/

theorem lookup_some_mem {α β : Type} [BEq α] [LawfulBEq α] (k : α) (l : List (α × β)) (v : β)
    (h : l.lookup k = some v) : ∃ e ∈ l, e.1 = k := by
  induction l with
  | nil => simp at h
  | cons e l ih =>
    obtain ⟨a, b⟩ := e
    rw [List.lookup_cons] at h
    by_cases hk : (k == a) = true
    · exact ⟨(a, b), List.mem_cons_self _ _, (beq_iff_eq.mp hk).symm⟩
    · simp only [hk] at h
      obtain ⟨e, he, hek⟩ := ih h
      exact ⟨e, List.mem_cons_of_mem _ he, hek⟩

theorem foldl_preserves {σ α : Type} (P : σ → Prop) (f : σ → α → σ)
    (h : ∀ s x, P s → P (f s x)) (xs : List α) : ∀ s, P s → P (xs.foldl f s) := by
  induction xs with
  | nil => intro s hs; exact hs
  | cons x xs ih => intro s hs; exact ih _ (h s x hs)

theorem foldlM_option_preserves {σ α : Type} (P : σ → Prop) (f : σ → α → Option σ)
    (h : ∀ s x s', f s x = some s' → P s → P s') (xs : List α) :
    ∀ s s', P s → xs.foldlM f s = some s' → P s' := by
  induction xs with
  | nil =>
    intro s s' hs hres
    simp only [List.foldlM_nil, Option.pure_def, Option.some.injEq] at hres
    rw [← hres]; exact hs
  | cons x xs ih =>
    intro s s' hs hres
    rw [List.foldlM_cons] at hres
    cases hf : f s x with
    | none => rw [hf] at hres; exact Option.noConfusion hres
    | some s1 =>
      rw [hf] at hres
      exact ih s1 s' (h s x s1 hf hs) hres

namespace WeightedLevensteinMetric

/-- What the loader maintains: complete caches and a symmetric replace table. -/
theorem init_Complete : init.Complete ∧ init.SymmetricTable := by
  refine ⟨⟨BloomCache.default16_WF, BloomCache.default16_WF, ?_, ?_⟩, ?_⟩
  · intro e he; exact absurd he (List.not_mem_nil _)
  · intro e he; exact absurd he (List.not_mem_nil _)
  · intro f s; rfl

theorem addInsertDelete_Complete (cost : Nat) (m : WeightedLevensteinMetric) (elem : WChar)
    (h : m.Complete ∧ m.SymmetricTable) :
    (addInsertDelete cost m elem).Complete ∧ (addInsertDelete cost m elem).SymmetricTable := by
  obtain ⟨⟨h1, h2, h3, h4⟩, h5⟩ := h
  refine ⟨⟨BloomCache.Add_WF _ _ h1 _, h2, ?_, h4⟩, h5⟩
  intro e he
  simp only [addInsertDelete, List.mem_cons] at he ⊢
  rcases he with he | he
  · subst he; exact BloomCache.Check_Add_self _ _ h1 _
  · exact BloomCache.Check_Add_of_Check _ _ _ _ (h3 e he)

theorem addReplace_Complete (cost : Nat) (first : WChar) (m : WeightedLevensteinMetric)
    (second : WChar) (h : m.Complete ∧ m.SymmetricTable) :
    (addReplace cost first m second).Complete ∧ (addReplace cost first m second).SymmetricTable := by
  obtain ⟨⟨h1, h2, h3, h4⟩, h5⟩ := h
  refine ⟨⟨h1, BloomCache.Add_WF _ _ (BloomCache.Add_WF _ _ h2 _) _, h3, ?_⟩, ?_⟩
  · intro e he
    simp only [addReplace, List.mem_cons] at he ⊢
    rcases he with he | he | he
    · subst he; exact BloomCache.Check_Add_self _ _ (BloomCache.Add_WF _ _ h2 _) _
    · subst he
      exact BloomCache.Check_Add_of_Check _ _ _ _ (BloomCache.Check_Add_self _ _ h2 _)
    · exact BloomCache.Check_Add_of_Check _ _ _ _
        (BloomCache.Check_Add_of_Check _ _ _ _ (h4 e he))
  · intro f s
    have h5' := h5 f s
    have e1 : ((f, s) == (second, first)) = ((s, f) == (first, second)) := by
      rw [Bool.eq_iff_iff]
      simp only [beq_iff_eq, Prod.mk.injEq]
      exact and_comm
    have e2 : ((f, s) == (first, second)) = ((s, f) == (second, first)) := by
      rw [Bool.eq_iff_iff]
      simp only [beq_iff_eq, Prod.mk.injEq]
      exact and_comm
    simp only [addReplace, List.lookup_cons, e1, e2]
    cases ((s, f) == (first, second)) <;> cases ((s, f) == (second, first)) <;>
      simp only [h5']

theorem loadInsertDelete_Complete (towlower : WChar → WChar) (m : WeightedLevensteinMetric)
    (e : InsertDeleteEntry) (h : m.Complete ∧ m.SymmetricTable) :
    (loadInsertDelete towlower m e).Complete ∧ (loadInsertDelete towlower m e).SymmetricTable :=
  foldl_preserves (fun m => m.Complete ∧ m.SymmetricTable) _
    (fun s x hs => addInsertDelete_Complete e.cost s x hs) _ m h

theorem loadReplace_Complete (towlower : WChar → WChar) (m : WeightedLevensteinMetric)
    (e : ReplaceEntry) (h : m.Complete ∧ m.SymmetricTable) :
    (loadReplace towlower m e).Complete ∧ (loadReplace towlower m e).SymmetricTable :=
  foldl_preserves (fun m => m.Complete ∧ m.SymmetricTable) _
    (fun s first hs => foldl_preserves (fun m => m.Complete ∧ m.SymmetricTable) _
      (fun s2 second hs2 => addReplace_Complete e.cost first s2 second hs2) _ s hs) _ m h

/-- Every state the loader produces has complete caches and a symmetric replace table. -/
theorem load_Complete (towlower : WChar → WChar) (cfg : MetricConfig)
    (m : WeightedLevensteinMetric) (h : load towlower cfg = some m) :
    m.Complete ∧ m.SymmetricTable := by
  unfold load at h
  refine foldlM_option_preserves (fun m => m.Complete ∧ m.SymmetricTable) _ ?_ _ _ m ?_ h
  · intro s index s' hstep hs
    cases hg : cfg.custom_replace[index]? with
    | none => simp only [hg] at hstep; exact Option.noConfusion hstep
    | some e =>
      simp only [hg, Option.some.injEq] at hstep
      rw [← hstep]; exact loadReplace_Complete towlower s e hs
  · refine foldl_preserves (fun m => m.Complete ∧ m.SymmetricTable) _
      (fun s e hs => loadInsertDelete_Complete towlower s e hs) _ _ ?_
    exact init_Complete

/-- With complete caches the cache check never changes an insert/delete lookup. -/
theorem get_insert_delete_cost_eq_plain (towlower : WChar → WChar)
    (m : WeightedLevensteinMetric) (hc : m.Complete) (ch : WChar) :
    get_insert_delete_cost towlower m ch = plainInsertDeleteCost towlower m ch := by
  unfold get_insert_delete_cost plainInsertDeleteCost
  simp only []
  cases hl : m.insert_delete_costs_.lookup (fold towlower m ch) with
  | none => simp
  | some v =>
    obtain ⟨e, he, hek⟩ := lookup_some_mem _ _ _ hl
    have hchk := hc.2.2.1 e he
    rw [hek] at hchk
    simp [hchk]

/-- With complete caches the cache check never changes a replace lookup. -/
theorem get_replace_cost_eq_plain (towlower : WChar → WChar)
    (m : WeightedLevensteinMetric) (hc : m.Complete) (first second : WChar) :
    get_replace_cost towlower m first second = plainReplaceCost towlower m first second := by
  unfold get_replace_cost plainReplaceCost
  simp only []
  split
  · rfl
  · cases hl : m.replace_costs_.lookup (fold towlower m first, fold towlower m second) with
    | none => simp
    | some v =>
      obtain ⟨e, he, hek⟩ := lookup_some_mem _ _ _ hl
      have hchk := hc.2.2.2 e he
      rw [hek] at hchk
      simp [hchk]

end WeightedLevensteinMetric

theorem eq_some_getD_of_isSome {α : Type} (o : Option α) (d : α) (h : o.isSome = true) :
    o = some (o.getD d) := by
  cases o with
  | none => exact Bool.noConfusion h
  | some a => rfl

set_option maxRecDepth 100000

/-- C20, as stated, fails on a case-insensitive metric: after loading
`default {insert_delete 1, replace 1, case_sensitive false}`, `custom_insert_delete
[{group "a", cost 5}]`, `custom_replace [{"e", "i", 2}]`, the character `'A'` is not in the
insert/delete table and the default is `1`, yet `get_insert_delete_cost('A')` is `5`; and
`'A' ≠ 'a'`, the pair `('A', 'a')` is not in the replace table and the default is `1`, yet
`get_replace_cost('A', 'a')` is `0`. -/
theorem C20_lookup_of_unfolded_character_counterexample :
    (WeightedLevensteinMetric.load asciiLower
        ⟨1, 1, some false, [⟨[97], 5⟩], [⟨[101], [105], 2⟩]⟩).map
      (fun m => (m.insert_delete_costs_.lookup 65, m.default_insert_delete_,
        m.get_insert_delete_cost asciiLower 65,
        m.replace_costs_.lookup (65, 97), m.default_replace_,
        m.get_replace_cost asciiLower 65 97)) =
      some (none, 1, 5, none, 1, 0) := by
  decide

/-- C20, amended: in every state the loader produces, and whatever the scratch rows hold,
the cache check never changes a cost lookup: `get_insert_delete_cost(c)` is the table value
of the case-folded `c` if the table has one and the default otherwise, and
`get_replace_cost(a, b)` is `0` if `a` and `b` are equal after case folding, else the table
value of the folded pair if present, else the default. Case folding is `towlower` when the
metric is not case-sensitive and nothing when it is, where the lookups are those of `c` and
`(a, b)` themselves. -/
theorem C20_bloom_check_never_changes_lookup (towlower : WChar → WChar) (cfg : MetricConfig)
    (m : WeightedLevensteinMetric) (h : WeightedLevensteinMetric.load towlower cfg = some m)
    (src dst : List Nat) :
    (∀ c, (m.withBuffers src dst).get_insert_delete_cost towlower c =
      WeightedLevensteinMetric.plainInsertDeleteCost towlower m c) ∧
    (∀ a b, (m.withBuffers src dst).get_replace_cost towlower a b =
      WeightedLevensteinMetric.plainReplaceCost towlower m a b) ∧
    (m.is_case_sensitive_ = true →
      (∀ c, (m.withBuffers src dst).get_insert_delete_cost towlower c =
        (m.insert_delete_costs_.lookup c).getD m.default_insert_delete_) ∧
      (∀ a b, (m.withBuffers src dst).get_replace_cost towlower a b =
        if a = b then 0 else (m.replace_costs_.lookup (a, b)).getD m.default_replace_)) := by
  have hc := (WeightedLevensteinMetric.load_Complete towlower cfg m h).1
  have e1 : ∀ c, (m.withBuffers src dst).get_insert_delete_cost towlower c =
      WeightedLevensteinMetric.plainInsertDeleteCost towlower m c := fun c =>
    WeightedLevensteinMetric.get_insert_delete_cost_eq_plain towlower m hc c
  have e2 : ∀ a b, (m.withBuffers src dst).get_replace_cost towlower a b =
      WeightedLevensteinMetric.plainReplaceCost towlower m a b := fun a b =>
    WeightedLevensteinMetric.get_replace_cost_eq_plain towlower m hc a b
  refine ⟨e1, e2, ?_⟩
  intro hs
  constructor
  · intro c
    rw [e1]
    simp [WeightedLevensteinMetric.plainInsertDeleteCost, WeightedLevensteinMetric.fold, hs]
  · intro a b
    rw [e2]
    simp [WeightedLevensteinMetric.plainReplaceCost, WeightedLevensteinMetric.fold, hs]

theorem C20_bloom_check_never_changes_lookup_witness :
    WeightedLevensteinMetric.load asciiLower
        ⟨1, 3, some true, [⟨[97, 101], 5⟩], [⟨[101], [105], 2⟩]⟩ =
      some ((WeightedLevensteinMetric.load asciiLower
        ⟨1, 3, some true, [⟨[97, 101], 5⟩], [⟨[101], [105], 2⟩]⟩).getD
          WeightedLevensteinMetric.init) ∧
    ((∀ c, (((WeightedLevensteinMetric.load asciiLower
          ⟨1, 3, some true, [⟨[97, 101], 5⟩], [⟨[101], [105], 2⟩]⟩).getD
            WeightedLevensteinMetric.init).withBuffers [0, 1] [1, 1]).get_insert_delete_cost
          asciiLower c =
        WeightedLevensteinMetric.plainInsertDeleteCost asciiLower
          ((WeightedLevensteinMetric.load asciiLower
            ⟨1, 3, some true, [⟨[97, 101], 5⟩], [⟨[101], [105], 2⟩]⟩).getD
              WeightedLevensteinMetric.init) c) ∧
      (∀ a b, (((WeightedLevensteinMetric.load asciiLower
          ⟨1, 3, some true, [⟨[97, 101], 5⟩], [⟨[101], [105], 2⟩]⟩).getD
            WeightedLevensteinMetric.init).withBuffers [0, 1] [1, 1]).get_replace_cost
          asciiLower a b =
        WeightedLevensteinMetric.plainReplaceCost asciiLower
          ((WeightedLevensteinMetric.load asciiLower
            ⟨1, 3, some true, [⟨[97, 101], 5⟩], [⟨[101], [105], 2⟩]⟩).getD
              WeightedLevensteinMetric.init) a b) ∧
      (((WeightedLevensteinMetric.load asciiLower
          ⟨1, 3, some true, [⟨[97, 101], 5⟩], [⟨[101], [105], 2⟩]⟩).getD
            WeightedLevensteinMetric.init).is_case_sensitive_ = true →
        (∀ c, (((WeightedLevensteinMetric.load asciiLower
            ⟨1, 3, some true, [⟨[97, 101], 5⟩], [⟨[101], [105], 2⟩]⟩).getD
              WeightedLevensteinMetric.init).withBuffers [0, 1] [1, 1]).get_insert_delete_cost
            asciiLower c =
          (((WeightedLevensteinMetric.load asciiLower
            ⟨1, 3, some true, [⟨[97, 101], 5⟩], [⟨[101], [105], 2⟩]⟩).getD
              WeightedLevensteinMetric.init).insert_delete_costs_.lookup c).getD
            ((WeightedLevensteinMetric.load asciiLower
              ⟨1, 3, some true, [⟨[97, 101], 5⟩], [⟨[101], [105], 2⟩]⟩).getD
                WeightedLevensteinMetric.init).default_insert_delete_) ∧
        (∀ a b, (((WeightedLevensteinMetric.load asciiLower
            ⟨1, 3, some true, [⟨[97, 101], 5⟩], [⟨[101], [105], 2⟩]⟩).getD
              WeightedLevensteinMetric.init).withBuffers [0, 1] [1, 1]).get_replace_cost
            asciiLower a b =
          if a = b then 0 else
            (((WeightedLevensteinMetric.load asciiLower
              ⟨1, 3, some true, [⟨[97, 101], 5⟩], [⟨[101], [105], 2⟩]⟩).getD
                WeightedLevensteinMetric.init).replace_costs_.lookup (a, b)).getD
              ((WeightedLevensteinMetric.load asciiLower
                ⟨1, 3, some true, [⟨[97, 101], 5⟩], [⟨[101], [105], 2⟩]⟩).getD
                  WeightedLevensteinMetric.init).default_replace_))) :=
  ⟨eq_some_getD_of_isSome _ _ (by decide),
    C20_bloom_check_never_changes_lookup asciiLower
      ⟨1, 3, some true, [⟨[97, 101], 5⟩], [⟨[101], [105], 2⟩]⟩ _
      (eq_some_getD_of_isSome _ _ (by decide)) [0, 1] [1, 1]⟩

/-- C15: the loader drops entries of `custom_replace` beyond the length of
`custom_insert_delete`, because its second loop is bounded by `insert_delete_array->size()`.
With `default {insert_delete 1, replace 3, case_sensitive false}`, an empty
`custom_insert_delete` and `custom_replace [{"e", "i", 1}]` the load succeeds but
`get_replace_cost('e', 'i')` and `get_replace_cost('i', 'e')` are the default `3`, not `1`;
with one insert/delete entry before it the same replace entry is applied; and with two
insert/delete entries the load throws. -/
theorem C15_replace_entry_dropped_by_loop_bound :
    (WeightedLevensteinMetric.load asciiLower
        ⟨1, 3, some false, [], [⟨[101], [105], 1⟩]⟩).map
      (fun m => (m.replace_costs_, m.get_replace_cost asciiLower 101 105,
        m.get_replace_cost asciiLower 105 101)) = some ([], 3, 3) ∧
    (WeightedLevensteinMetric.load asciiLower
        ⟨1, 3, some false, [⟨[97], 1⟩], [⟨[101], [105], 1⟩]⟩).map
      (fun m => (m.get_replace_cost asciiLower 101 105,
        m.get_replace_cost asciiLower 105 101)) = some (1, 1) ∧
    (WeightedLevensteinMetric.load asciiLower
        ⟨1, 3, some false, [⟨[97], 1⟩, ⟨[98], 1⟩], [⟨[101], [105], 1⟩]⟩).isNone = true := by
  decide

/-! ## The loops of the weighted metric -/

theorem charAt_ok (s : WString) (pos : Nat) (h : pos ≤ s.length) :
    charAt s pos = .ok (s.getD pos 0) := by
  unfold charAt; rw [if_pos h]

theorem charAt_fault (s : WString) (pos : Nat) (h : s.length < pos) :
    charAt s pos = .error .outOfRange := by
  unfold charAt; rw [if_neg (by omega)]

theorem foldlM_ok {β γ : Type} (f : β → γ → Except Fault β) (g : β → γ → β) (l : List γ) :
    ∀ b : β, (∀ j ∈ l, ∀ b, f b j = .ok (g b j)) → l.foldlM f b = .ok (l.foldl g b) := by
  induction l with
  | nil => intro b _; rfl
  | cons x xs ih =>
    intro b h
    rw [List.foldlM_cons, h x (List.mem_cons_self _ _) b]
    exact ih (g b x) (fun j hj b => h j (List.mem_cons_of_mem _ hj) b)

namespace WeightedLevensteinMetric

theorem cell_eq_value (insdel : WChar → Nat) (rep : WChar → WChar → Nat) (left right : WString)
    (i j : Nat) (src dst : List Nat)
    (h : j = 0 ∨ (i - 1 ≤ left.length ∧ j - 1 ≤ right.length)) :
    cell insdel rep left right i src dst j = .ok (cellValue insdel rep left right i src dst j) := by
  unfold cell cellValue
  by_cases hj : j = 0
  · simp only [hj, if_true]
  · rcases h with h | ⟨h1, h2⟩
    · exact absurd h hj
    · simp only [hj, if_false, charAt_ok left _ h1, charAt_ok right _ h2]
      rfl

theorem cell_fault (insdel : WChar → Nat) (rep : WChar → WChar → Nat) (left right : WString)
    (i j : Nat) (src dst : List Nat) (hj : j ≠ 0) (h : left.length < i - 1) :
    cell insdel rep left right i src dst j = .error .outOfRange := by
  unfold cell
  simp only [hj, if_false, charAt_fault left _ h]
  rfl

theorem innerLoop_eq_value (insdel : WChar → Nat) (rep : WChar → WChar → Nat)
    (left right : WString) (i : Nat) (src dst : List Nat)
    (hlr : left.length ≤ right.length + 1) (h : left.length = 0 ∨ i - 1 ≤ left.length) :
    innerLoop insdel rep left right i src dst =
      .ok (innerLoopValue insdel rep left right i src dst) := by
  unfold innerLoop innerLoopValue
  apply foldlM_ok
  intro j hj b
  apply cell_eq_value
  rw [List.mem_range] at hj
  rcases h with h | h
  · left; omega
  · right; exact ⟨h, by omega⟩

theorem innerLoop_fault (insdel : WChar → Nat) (rep : WChar → WChar → Nat)
    (left right : WString) (i : Nat) (src dst : List Nat)
    (hl : 1 ≤ left.length) (h : left.length < i - 1) :
    innerLoop insdel rep left right i src dst = .error .outOfRange := by
  unfold innerLoop
  obtain ⟨n, hn⟩ : ∃ n, left.length = n + 1 := ⟨left.length - 1, by omega⟩
  rw [hn, List.range_succ_eq_map, List.range_succ_eq_map]
  rw [List.foldlM_cons, cell_eq_value insdel rep left right i 0 src dst (Or.inl rfl)]
  simp only [List.map_cons, List.foldlM_cons, pure_bind]
  have := cell_fault insdel rep left right i 1 src
    (cellValue insdel rep left right i src dst 0) (by omega) h
  show (cell insdel rep left right i src (cellValue insdel rep left right i src dst 0) (Nat.succ 0)
    >>= _) = _
  rw [this]
  rfl

theorem rowStep_eq_value (insdel : WChar → Nat) (rep : WChar → WChar → Nat)
    (left right : WString) (i : Nat) (b : List Nat × List Nat)
    (hlr : left.length ≤ right.length + 1) (h : left.length = 0 ∨ i - 1 ≤ left.length) :
    rowStep insdel rep left right b i = .ok (rowStepValue insdel rep left right b i) := by
  unfold rowStep rowStepValue
  rw [innerLoop_eq_value insdel rep left right i b.1 b.2 hlr h]
  rfl

theorem rowStep_fault (insdel : WChar → Nat) (rep : WChar → WChar → Nat)
    (left right : WString) (i : Nat) (b : List Nat × List Nat)
    (hl : 1 ≤ left.length) (h : left.length < i - 1) :
    rowStep insdel rep left right b i = .error .outOfRange := by
  unfold rowStep
  rw [innerLoop_fault insdel rep left right i b.1 b.2 hl h]
  rfl

/-- The outer loop returns the rows of the plain loop when no character read leaves its
string, and faults at row `left.size() + 2` otherwise. -/
theorem rows_eq (insdel : WChar → Nat) (rep : WChar → WChar → Nat) (left right : WString)
    (b : List Nat × List Nat) (hlr : left.length ≤ right.length) :
    rows insdel rep left right b =
      if left.length = 0 ∨ right.length ≤ left.length + 1 then
        .ok ((List.range' 1 right.length).foldl (rowStepValue insdel rep left right) b)
      else .error .outOfRange := by
  unfold rows
  split
  · next h =>
    apply foldlM_ok
    intro i hi b
    apply rowStep_eq_value _ _ _ _ _ _ (by omega)
    rw [List.mem_range'_1] at hi
    rcases h with h | h
    · exact Or.inl h
    · right; omega
  · next h =>
    have h1 : 1 ≤ left.length := by omega
    obtain ⟨k, hk⟩ : ∃ k, right.length = (k + 1) + (left.length + 1) :=
      ⟨right.length - left.length - 2, by omega⟩
    rw [hk, List.range'_append_1 1 (left.length + 1) (k + 1) |>.symm, List.foldlM_append]
    rw [foldlM_ok (rowStep insdel rep left right) (rowStepValue insdel rep left right)]
    · generalize (List.range' 1 (left.length + 1)).foldl (rowStepValue insdel rep left right) b
        = p
      show List.foldlM (rowStep insdel rep left right) p
        (List.range' (1 + (left.length + 1)) (k + 1)) = _
      rw [List.range'_succ (1 + (left.length + 1)) k, List.foldlM_cons,
        rowStep_fault insdel rep left right _ _ h1 (by omega)]
      rfl
    · intro i hi b
      apply rowStep_eq_value _ _ _ _ _ _ (by omega)
      rw [List.mem_range'_1] at hi
      right; omega

theorem wtable_succ_zero (insdel : WChar → Nat) (rep : WChar → WChar → Nat)
    (left right : WString) (i : Nat) :
    wtable insdel rep left right (i + 1) 0 = (i + 1) % UINT32_MOD := rfl

theorem wtable_succ_succ (insdel : WChar → Nat) (rep : WChar → WChar → Nat)
    (left right : WString) (i j : Nat) :
    wtable insdel rep left right (i + 1) (j + 1) =
      min (min ((wtable insdel rep left right i (j + 1) + insdel (right.getD j 0)) % UINT32_MOD)
          ((wtable insdel rep left right (i + 1) j + insdel (left.getD i 0)) % UINT32_MOD))
        ((wtable insdel rep left right i j + rep (left.getD i 0) (right.getD j 0)) %
          UINT32_MOD) := rfl

theorem cellValue_length (insdel : WChar → Nat) (rep : WChar → WChar → Nat)
    (left right : WString) (i j : Nat) (src dst : List Nat) :
    (cellValue insdel rep left right i src dst j).length = dst.length := by
  unfold cellValue; split <;> simp

/-- The plain inner loop up to column `k`: the columns below `k` hold row `i + 1` of the
table. -/
theorem innerLoopValue_aux (insdel : WChar → Nat) (rep : WChar → WChar → Nat)
    (left right : WString) (i : Nat) (src dst : List Nat)
    (hsrc : ∀ j, j ≤ left.length → src.getD j 0 = wtable insdel rep left right i j)
    (k : Nat) (hk : k ≤ left.length + 1) (hlen : left.length < dst.length) :
    ((List.range k).foldl (cellValue insdel rep left right (i + 1) src) dst).length =
      dst.length ∧
    ∀ j, j < k →
      ((List.range k).foldl (cellValue insdel rep left right (i + 1) src) dst).getD j 0 =
        wtable insdel rep left right (i + 1) j := by
  induction k with
  | zero => simp
  | succ k ih =>
    obtain ⟨h1, h2⟩ := ih (by omega)
    rw [List.range_succ, List.foldl_append]
    simp only [List.foldl_cons, List.foldl_nil]
    generalize (List.range k).foldl (cellValue insdel rep left right (i + 1) src) dst = d
      at h1 h2 ⊢
    refine ⟨by rw [cellValue_length]; exact h1, ?_⟩
    intro j hj
    unfold cellValue
    by_cases hk0 : k = 0
    · subst hk0
      have hj0 : j = 0 := by omega
      subst hj0
      simp only [if_true]
      rw [getD_set_self _ _ _ _ (by omega), wtable_succ_zero]
    · simp only [hk0, if_false]
      by_cases hjk : j = k
      · subst hjk
        obtain ⟨k', rfl⟩ : ∃ k', j = k' + 1 := ⟨j - 1, by omega⟩
        rw [getD_set_self _ _ _ _ (by simp; omega), getD_set_self _ _ _ _ (by omega)]
        simp only [Nat.add_sub_cancel]
        rw [h2 k' (by omega), hsrc (k' + 1) (by omega), hsrc k' (by omega), wtable_succ_succ]
      · rw [getD_set_ne _ _ _ _ _ (fun e => hjk e.symm),
          getD_set_ne _ _ _ _ _ (fun e => hjk e.symm)]
        exact h2 j (by omega)

theorem innerLoopValue_spec (insdel : WChar → Nat) (rep : WChar → WChar → Nat)
    (left right : WString) (i : Nat) (src dst : List Nat)
    (hsrc : ∀ j, j ≤ left.length → src.getD j 0 = wtable insdel rep left right i j)
    (hlen : left.length < dst.length) :
    (innerLoopValue insdel rep left right (i + 1) src dst).length = dst.length ∧
    ∀ j, j ≤ left.length → (innerLoopValue insdel rep left right (i + 1) src dst).getD j 0 =
      wtable insdel rep left right (i + 1) j := by
  obtain ⟨h1, h2⟩ := innerLoopValue_aux insdel rep left right i src dst hsrc (left.length + 1)
    (Nat.le_refl _) hlen
  exact ⟨h1, fun j hj => h2 j (by omega)⟩

/-- The plain outer loop up to row `k`: `buffer_src` holds row `k` of the table. -/
theorem rowsValue_aux (insdel : WChar → Nat) (rep : WChar → WChar → Nat)
    (left right : WString) (b : List Nat × List Nat)
    (hlen1 : left.length < b.1.length) (hlen2 : b.2.length = b.1.length)
    (hsrc : ∀ j, j ≤ left.length → b.1.getD j 0 = j) (k : Nat) :
    (((List.range' 1 k).foldl (rowStepValue insdel rep left right) b).1.length = b.1.length ∧
     ((List.range' 1 k).foldl (rowStepValue insdel rep left right) b).2.length = b.1.length) ∧
    ∀ j, j ≤ left.length →
      ((List.range' 1 k).foldl (rowStepValue insdel rep left right) b).1.getD j 0 =
        wtable insdel rep left right k j := by
  induction k with
  | zero =>
    simp only [List.range'_zero, List.foldl_nil]
    exact ⟨⟨trivial, hlen2⟩, fun j hj => by rw [hsrc j hj]; rfl⟩
  | succ k ih =>
    obtain ⟨⟨h1, h2⟩, h3⟩ := ih
    rw [List.range'_1_concat, List.foldl_append]
    simp only [List.foldl_cons, List.foldl_nil]
    generalize (List.range' 1 k).foldl (rowStepValue insdel rep left right) b = p at h1 h2 h3 ⊢
    unfold rowStepValue
    simp only [Nat.add_comm 1 k]
    obtain ⟨g1, g2⟩ := innerLoopValue_spec insdel rep left right k p.1 p.2 h3 (by omega)
    exact ⟨⟨by omega, h1⟩, g2⟩

theorem grow_lengths (m : WeightedLevensteinMetric) (left : WString) (hm : m.WF) :
    left.length < (grow m left).1.length ∧ (grow m left).2.length = (grow m left).1.length := by
  unfold grow
  split
  · next h => simp only [LevensteinMetric.resize_length]; exact ⟨by omega, trivial⟩
  · next h => exact ⟨by simp only []; omega, hm.symm⟩

/-- The outcome of a call, from any state with rows of equal size: no return from `2^32 - 1`
characters of the shorter string on; a read outside the shorter string when it is not empty
and the longer one has at least two characters more; the table entry otherwise. -/
theorem value_eq (towlower : WChar → WChar) (m : WeightedLevensteinMetric) (a b : WString)
    (hm : m.WF) :
    m.value towlower a b =
      if UINT32_MOD ≤ (LevensteinMetric.pickLeft a b).length + 1 then .error .noReturn
      else if (LevensteinMetric.pickLeft a b).length = 0 ∨
          (LevensteinMetric.pickRight a b).length ≤ (LevensteinMetric.pickLeft a b).length + 1
        then .ok (wtable (m.get_insert_delete_cost towlower) (m.get_replace_cost towlower)
          (LevensteinMetric.pickLeft a b) (LevensteinMetric.pickRight a b)
          (LevensteinMetric.pickRight a b).length (LevensteinMetric.pickLeft a b).length)
      else .error .outOfRange := by
  unfold value call
  simp only []
  have hlr : (LevensteinMetric.pickLeft a b).length ≤ (LevensteinMetric.pickRight a b).length := by
    rw [LevensteinMetric.pickLeft_length, LevensteinMetric.pickRight_length]; omega
  generalize LevensteinMetric.pickLeft a b = left at hlr ⊢
  generalize LevensteinMetric.pickRight a b = right at hlr ⊢
  by_cases h0 : UINT32_MOD ≤ left.length + 1
  · simp only [h0, if_true]; rfl
  · simp only [h0, if_false]
    rw [rows_eq _ _ _ _ _ hlr]
    by_cases h1 : left.length = 0 ∨ right.length ≤ left.length + 1
    · simp only [h1, if_true]
      obtain ⟨g1, g2⟩ := grow_lengths m left hm
      obtain ⟨i1, i2, _⟩ := LevensteinMetric.initRow_aux (grow m left).1 (left.length + 1)
        (by omega)
      have hs := (rowsValue_aux (m.get_insert_delete_cost towlower)
        (m.get_replace_cost towlower) left right (initRow left (grow m left).1, (grow m left).2)
        (by show left.length < (initRow left (grow m left).1).length
            unfold initRow; rw [i1]; exact g1)
        (by show (grow m left).2.length = (initRow left (grow m left).1).length
            unfold initRow; rw [i1]; exact g2)
        (fun j hj => i2 j (by omega)) right.length).2 left.length (Nat.le_refl _)
      show Except.ok _ = Except.ok _
      rw [← hs]
    · simp only [h1, if_false]; rfl

/-- Exchanging the two strings transposes the table, when the replace cost is symmetric. -/
theorem wtable_swap (insdel : WChar → Nat) (rep : WChar → WChar → Nat)
    (hrep : ∀ x y, rep x y = rep y x) (left right : WString) :
    ∀ i j, i < UINT32_MOD → j < UINT32_MOD →
      wtable insdel rep left right i j = wtable insdel rep right left j i := by
  intro i
  induction i with
  | zero =>
    intro j _ hj
    cases j with
    | zero => rfl
    | succ j =>
      rw [wtable_succ_zero, Nat.mod_eq_of_lt hj]
      rfl
  | succ i ih =>
    intro j hi hj
    induction j with
    | zero =>
      rw [wtable_succ_zero, Nat.mod_eq_of_lt hi]
      rfl
    | succ j ihj =>
      rw [wtable_succ_succ, wtable_succ_succ, ih (j + 1) (by omega) hj, ih j (by omega) (by omega),
        ihj (by omega), hrep (left.getD i 0) (right.getD j 0)]
      congr 1
      exact min_comm _ _

theorem plainReplaceCost_comm (towlower : WChar → WChar) (m : WeightedLevensteinMetric)
    (hs : m.SymmetricTable) (x y : WChar) :
    plainReplaceCost towlower m x y = plainReplaceCost towlower m y x := by
  unfold plainReplaceCost
  by_cases h : fold towlower m x = fold towlower m y
  · rw [if_pos h, if_pos h.symm]
  · rw [if_neg h, if_neg (fun e => h e.symm), hs]

theorem withBuffers_Complete (m : WeightedLevensteinMetric) (src dst : List Nat)
    (h : m.Complete) : (m.withBuffers src dst).Complete := h

theorem withBuffers_SymmetricTable (m : WeightedLevensteinMetric) (src dst : List Nat)
    (h : m.SymmetricTable) : (m.withBuffers src dst).SymmetricTable := h

/-- With complete caches and a symmetric table the two calls `(a, b)` and `(b, a)` have the
same outcome, from any two states of the rows. -/
theorem value_comm (towlower : WChar → WChar) (m1 m2 : WeightedLevensteinMetric)
    (h1 : m1.WF) (h2 : m2.WF)
    (hi : m1.get_insert_delete_cost towlower = m2.get_insert_delete_cost towlower)
    (hr : m1.get_replace_cost towlower = m2.get_replace_cost towlower)
    (hrep : ∀ x y, m1.get_replace_cost towlower x y = m1.get_replace_cost towlower y x)
    (a b : WString) :
    m1.value towlower a b = m2.value towlower b a := by
  rw [value_eq towlower m1 a b h1, value_eq towlower m2 b a h2, ← hi, ← hr]
  by_cases hne : a.length = b.length
  · have e1 : LevensteinMetric.pickLeft a b = b := by
      unfold LevensteinMetric.pickLeft; rw [if_neg (by omega)]
    have e2 : LevensteinMetric.pickRight a b = a := by
      unfold LevensteinMetric.pickRight; rw [if_pos (by omega)]
    have e3 : LevensteinMetric.pickLeft b a = a := by
      unfold LevensteinMetric.pickLeft; rw [if_neg (by omega)]
    have e4 : LevensteinMetric.pickRight b a = b := by
      unfold LevensteinMetric.pickRight; rw [if_pos (by omega)]
    rw [e1, e2, e3, e4, hne]
    by_cases h0 : UINT32_MOD ≤ b.length + 1
    · simp only [h0, if_true]
    · simp only [h0, if_false]
      rw [wtable_swap _ _ hrep b a b.length b.length (by omega) (by omega)]
  · rw [LevensteinMetric.pickLeft_swap a b hne, LevensteinMetric.pickRight_swap a b hne]

end WeightedLevensteinMetric

/-- C13: the weighted metric is symmetric in its arguments. For every state `m` the loader
produces (its replace table holds `(f, s)` and `(s, f)` at the same cost), for all strings `a`
and `b` and from any two states of the scratch rows, `WeightedLevensteinMetric::operator()`
has the same outcome on `(a, b)` and on `(b, a)`: the same number, or the same fault on
both. For `a` and `b` of equal length below `2^32 - 1`, where the two calls exchange the
roles of `left` and `right`, that outcome is a number. -/
theorem C13_weighted_symmetric (towlower : WChar → WChar) (cfg : MetricConfig)
    (m : WeightedLevensteinMetric) (h : WeightedLevensteinMetric.load towlower cfg = some m)
    (s1 d1 s2 d2 : List Nat) (h1 : s1.length = d1.length) (h2 : s2.length = d2.length)
    (a b : WString) :
    (m.withBuffers s1 d1).value towlower a b = (m.withBuffers s2 d2).value towlower b a ∧
    (a.length = b.length → a.length < UINT32_MAX →
      ∃ v, (m.withBuffers s1 d1).value towlower a b = .ok v ∧
        (m.withBuffers s2 d2).value towlower b a = .ok v) := by
  obtain ⟨hc, hs⟩ := WeightedLevensteinMetric.load_Complete towlower cfg m h
  have hrep : ∀ x y, (m.withBuffers s1 d1).get_replace_cost towlower x y =
      (m.withBuffers s1 d1).get_replace_cost towlower y x := by
    intro x y
    rw [WeightedLevensteinMetric.get_replace_cost_eq_plain towlower _
        (WeightedLevensteinMetric.withBuffers_Complete m s1 d1 hc),
      WeightedLevensteinMetric.get_replace_cost_eq_plain towlower _
        (WeightedLevensteinMetric.withBuffers_Complete m s1 d1 hc)]
    exact WeightedLevensteinMetric.plainReplaceCost_comm towlower _
      (WeightedLevensteinMetric.withBuffers_SymmetricTable m s1 d1 hs) x y
  have hcomm := WeightedLevensteinMetric.value_comm towlower (m.withBuffers s1 d1)
    (m.withBuffers s2 d2) h1 h2 rfl rfl hrep a b
  refine ⟨hcomm, ?_⟩
  intro hab hlt
  rw [← hcomm, WeightedLevensteinMetric.value_eq towlower (m.withBuffers s1 d1) a b h1]
  have e1 : LevensteinMetric.pickLeft a b = b := by
    unfold LevensteinMetric.pickLeft; rw [if_neg (by omega)]
  have e2 : LevensteinMetric.pickRight a b = a := by
    unfold LevensteinMetric.pickRight; rw [if_pos (by omega)]
  rw [e1, e2]
  unfold UINT32_MAX at hlt
  rw [if_neg (by unfold UINT32_MOD; omega), if_pos (Or.inr (by omega))]
  exact ⟨_, rfl, rfl⟩

theorem C13_weighted_symmetric_witness :
    WeightedLevensteinMetric.load asciiLower sampleConfig =
      some ((WeightedLevensteinMetric.load asciiLower sampleConfig).getD
        WeightedLevensteinMetric.init) ∧
    ([] : List Nat).length = ([] : List Nat).length ∧ [9, 9].length = [8, 8].length ∧
    ((((WeightedLevensteinMetric.load asciiLower sampleConfig).getD
          WeightedLevensteinMetric.init).withBuffers [] []).value asciiLower
        [116, 101, 97] [69, 97, 116] =
      (((WeightedLevensteinMetric.load asciiLower sampleConfig).getD
          WeightedLevensteinMetric.init).withBuffers [9, 9] [8, 8]).value asciiLower
        [69, 97, 116] [116, 101, 97] ∧
      ([116, 101, 97].length = [69, 97, 116].length → [116, 101, 97].length < UINT32_MAX →
        ∃ v, (((WeightedLevensteinMetric.load asciiLower sampleConfig).getD
              WeightedLevensteinMetric.init).withBuffers [] []).value asciiLower
            [116, 101, 97] [69, 97, 116] = .ok v ∧
          (((WeightedLevensteinMetric.load asciiLower sampleConfig).getD
              WeightedLevensteinMetric.init).withBuffers [9, 9] [8, 8]).value asciiLower
            [69, 97, 116] [116, 101, 97] = .ok v)) :=
  ⟨eq_some_getD_of_isSome _ _ (by decide), rfl, rfl,
    C13_weighted_symmetric asciiLower sampleConfig _
      (eq_some_getD_of_isSome _ _ (by decide)) [] [] [9, 9] [8, 8] rfl rfl
      [116, 101, 97] [69, 97, 116]⟩

/-- C12: the weighted `operator()` is not the minimum edit cost. On the default-constructed
metric (every insertion, deletion and substitution costs `1`), the call on `("ab", "b")`
returns `2` while deleting `'a'` turns `"ab"` into `"b"` at cost `1`; the call on
`("c", "cat")` reads `left[2]` of the one-character string `"c"`. The inner loop takes
`left[i - 1]` and `right[j - 1]`, with `i` the index over `right` and `j` the index over
`left`. -/
theorem C12_weighted_operator_not_minimum_cost :
    WeightedLevensteinMetric.init.value asciiLower [97, 98] [98] = .ok 2 ∧
    WeightedLevensteinMetric.weightedRef asciiLower WeightedLevensteinMetric.init
      [97, 98] [98] = 1 ∧
    WeightedLevensteinMetric.init.value asciiLower [99] [99, 97, 116] = .error .outOfRange := by
  decide

/-- C14: the default-constructed weighted metric differs from the uniform metric. On
`("cat", "at")`, in either argument order, the weighted `operator()` returns `3` and
`LevensteinMetric::operator()` returns `1`. -/
theorem C14_default_weighted_differs_from_uniform :
    WeightedLevensteinMetric.init.value asciiLower [99, 97, 116] [97, 116] = .ok 3 ∧
    WeightedLevensteinMetric.init.value asciiLower [97, 116] [99, 97, 116] = .ok 3 ∧
    (LevensteinMetric.fresh.call [99, 97, 116] [97, 116]).map Prod.fst = some 1 ∧
    (LevensteinMetric.fresh.call [97, 116] [99, 97, 116]).map Prod.fst = some 1 := by
  decide

/-- C16: a huge tolerance does not return the whole dictionary. After `Insert("cat", 5)`,
`Insert("car", 3)`, `Insert("bat", 2)`, the search for `"cab"` with tolerance `2^32 - 1`
returns only `("cat", 1, 5)`: at the root `1 + (2^32 - 1)` wraps to `0` and no child is
visited. With tolerance `3`, the maximum length, all three words are returned. -/
theorem C16_huge_tolerance_misses_words :
    (BKTree.empty.insertAll [([99, 97, 116], 5), ([99, 97, 114], 3), ([98, 97, 116], 2)]).2.FindSimilar
      [99, 97, 98] 4294967295 = some [⟨[99, 97, 116], 1, 5⟩] ∧
    (BKTree.empty.insertAll [([99, 97, 116], 5), ([99, 97, 114], 3), ([98, 97, 116], 2)]).2.FindSimilar
      [99, 97, 98] 3 =
        some [⟨[99, 97, 116], 1, 5⟩, ⟨[99, 97, 114], 1, 3⟩, ⟨[98, 97, 116], 2, 2⟩] := by
  decide

/-- A list with the same elements as three distinct given ones is one of their six orders. -/
theorem perm_three {α : Type} (x y z : α) (order : List α) (h : order.Perm [x, y, z])
    (hxy : x ≠ y) (hxz : x ≠ z) (hyz : y ≠ z) :
    order ∈ [[x, y, z], [x, z, y], [y, x, z], [y, z, x], [z, x, y], [z, y, x]] := by
  have hl := h.length_eq
  have hn : order.Nodup := h.nodup_iff.mpr (by simp [hxy, hxz, hyz])
  match order, hl, h, hn with
  | [a, b, c], _, h, hn =>
    have ha : a ∈ [x, y, z] := h.subset (by simp)
    have hb : b ∈ [x, y, z] := h.subset (by simp)
    have hc : c ∈ [x, y, z] := h.subset (by simp)
    simp only [List.mem_cons, List.mem_singleton, List.not_mem_nil, or_false] at ha hb hc
    simp only [List.nodup_cons, List.mem_cons, List.mem_singleton, List.not_mem_nil, or_false,
      not_or, List.nodup_nil, and_true, not_false_eq_true] at hn
    obtain ⟨⟨hab, hac⟩, hbc⟩ := hn
    rcases ha with rfl | rfl | rfl <;> rcases hb with rfl | rfl | rfl <;>
      rcases hc with rfl | rfl | rfl <;> simp_all

/-- C17: scenario S1 holds for every insertion order. For every order of the three calls
`Insert("cat", 5)`, `Insert("car", 3)`, `Insert("bat", 2)` on an empty tree with the uniform
metric, `FindSimilar("cat", 0)` returns exactly `[("cat", 0, 5)]` and `FindSimilar("cat", 1)`
returns exactly `[("cat", 0, 5), ("car", 1, 3), ("bat", 1, 2)]`, in that order. -/
theorem C17_scenario_S1_every_order (order : List (WString × Nat))
    (h : order.Perm [([99, 97, 116], 5), ([99, 97, 114], 3), ([98, 97, 116], 2)]) :
    (BKTree.empty.insertAll order).2.FindSimilar [99, 97, 116] 0 =
      some [⟨[99, 97, 116], 0, 5⟩] ∧
    (BKTree.empty.insertAll order).2.FindSimilar [99, 97, 116] 1 =
      some [⟨[99, 97, 116], 0, 5⟩, ⟨[99, 97, 114], 1, 3⟩, ⟨[98, 97, 116], 1, 2⟩] := by
  have hm := perm_three _ _ _ order h (by decide) (by decide) (by decide)
  simp only [List.mem_cons, List.mem_singleton, List.not_mem_nil, or_false] at hm
  rcases hm with rfl | rfl | rfl | rfl | rfl | rfl <;> decide

theorem C17_scenario_S1_every_order_witness :
    List.Perm [(([98, 97, 116] : WString), 2), ([99, 97, 116], 5), ([99, 97, 114], 3)]
      [([99, 97, 116], 5), ([99, 97, 114], 3), ([98, 97, 116], 2)] ∧
    ((BKTree.empty.insertAll
        [([98, 97, 116], 2), ([99, 97, 116], 5), ([99, 97, 114], 3)]).2.FindSimilar
      [99, 97, 116] 0 = some [⟨[99, 97, 116], 0, 5⟩] ∧
    (BKTree.empty.insertAll
        [([98, 97, 116], 2), ([99, 97, 116], 5), ([99, 97, 114], 3)]).2.FindSimilar
      [99, 97, 116] 1 =
        some [⟨[99, 97, 116], 0, 5⟩, ⟨[99, 97, 114], 1, 3⟩, ⟨[98, 97, 116], 1, 2⟩]) :=
  ⟨by decide,
    C17_scenario_S1_every_order [([98, 97, 116], 2), ([99, 97, 116], 5), ([99, 97, 114], 3)]
      (by decide)⟩

/-- C18: raising the tolerance can lose a result. After `Insert("kit", 1)` and
`Insert("sit", 1)`, the search for `"sit"` with tolerance `2^32 - 2` returns `("sit", 0, 1)`
and `("kit", 1, 1)`, and with tolerance `2^32 - 1` it returns only `("kit", 1, 1)`: at the
root `1 + (2^32 - 1)` wraps to `0` and the child holding `"sit"` is not visited. -/
theorem C18_larger_tolerance_loses_result :
    (BKTree.empty.insertAll [([107, 105, 116], 1), ([115, 105, 116], 1)]).2.FindSimilar
      [115, 105, 116] 4294967294 = some [⟨[115, 105, 116], 0, 1⟩, ⟨[107, 105, 116], 1, 1⟩] ∧
    (BKTree.empty.insertAll [([107, 105, 116], 1), ([115, 105, 116], 1)]).2.FindSimilar
      [115, 105, 116] 4294967295 = some [⟨[107, 105, 116], 1, 1⟩] := by
  decide

/-- The results of a search with tolerance `0` in a tree of short words built from the empty
tree: exactly the node holding the query, when there is one. -/
theorem FindSimilar_zero (ws : List (WString × Nat)) (q : WString)
    (hws : ∀ wp ∈ ws, Short wp.1) (hq : Short q) :
    ∃ res, (BKTree.empty.insertAll ws).2.FindSimilar q 0 = some res ∧
      (∀ r ∈ res, r.result = q ∧ r.tolerance = 0) ∧
      (q ∈ ws.map Prod.fst → ∃ r ∈ res, r.result = q) := by
  have hM0 : MetricOn Short BKTree.empty.metric_ := MetricOn_uniformMetric
  obtain ⟨g1, g2, g3, _⟩ := insertAll_good Short ws BKTree.empty hM0
    (BKTree.empty_Good Short) hws
  have hmetric : (BKTree.empty.insertAll ws).2.metric_ = uniformMetric := g1
  have hw0 : BKTree.empty.words = [] := rfl
  simp only [hw0, List.not_mem_nil, false_or] at g3
  have hM : MetricOn Short (BKTree.empty.insertAll ws).2.metric_ := by
    rw [hmetric]; exact MetricOn_uniformMetric
  obtain ⟨res, hres, hperm⟩ := FindSimilar_tree_perm Short (BKTree.empty.insertAll ws).2 hM g2
    q hq 0 (by
      intro w hw
      have := hM.lt_max q w hq (g2.2.1 w hw)
      unfold UINT32_MAX at this; unfold UINT32_MOD; omega)
  rw [hmetric] at hperm
  refine ⟨res, hres, ?_, ?_⟩
  · intro r hr
    obtain ⟨x, hx, rfl⟩ := List.mem_map.mp (hperm.mem_iff.mp hr)
    obtain ⟨hxn, hd⟩ := List.mem_filter.mp hx
    have hd0 : uniformMetric q x.data_ = 0 := by
      have := of_decide_eq_true hd; omega
    have hxs : Short x.data_ := g2.2.1 _ (BKTree.words_of_mem_nodes _ x hxn)
    exact ⟨((MetricOn_uniformMetric.zero_iff q x.data_ hq hxs).mp hd0).symm, hd0⟩
  · intro hqw
    obtain ⟨x, hxn, hxd⟩ := List.mem_map.mp ((g3 q).mpr hqw)
    refine ⟨SearchResult.ofNode uniformMetric q x, hperm.mem_iff.mpr ?_, hxd⟩
    refine List.mem_map.mpr ⟨x, List.mem_filter.mpr ⟨hxn, ?_⟩, rfl⟩
    rw [hxd, uniformMetric_self q hq]
    rfl

/-- C19, as stated, fails: the driver does not lowercase the query. The dictionary holds
the lowercased word `"cafe"`; the query `"CAFE"` has the lowercase form `"cafe"`; the
response of `handleRequest` to `("CAFE", 0)` carries the query as received and no result. -/
theorem C19_uppercase_query_finds_nothing_counterexample :
    [99, 97, 102, 101].map asciiLower = [99, 97, 102, 101] ∧
    [67, 65, 70, 69].map asciiLower = [99, 97, 102, 101] ∧
    handleRequest (BKTree.empty.insertAll [([99, 97, 102, 101], 1)]).2 [([67, 65, 70, 69], 0)] =
      some [([67, 65, 70, 69], 0, [])] := by
  decide

/-- C19, amended: the driver searches the query as it was received. With the uniform
metric, for every dictionary of words shorter than `2^32 - 1` characters, every stored word
`w` and every query `q` shorter than `2^32 - 1` characters, `handleRequest` answers `(q, 0)`
with a response whose results hold `w` exactly when `q = w`, and every result is the word
`q` itself at distance `0`. -/
theorem C19_query_is_searched_as_received (ws : List (WString × Nat)) (q w : WString)
    (hws : ∀ wp ∈ ws, wp.1.length < UINT32_MAX) (hq : q.length < UINT32_MAX)
    (hw : w ∈ ws.map Prod.fst) :
    ∃ res, handleRequest (BKTree.empty.insertAll ws).2 [(q, 0)] = some [(q, 0, res)] ∧
      ((∃ r ∈ res, r.result = w) ↔ q = w) ∧
      (∀ r ∈ res, r.result = q ∧ r.tolerance = 0) := by
  obtain ⟨res, hres, h1, h2⟩ := FindSimilar_zero ws q hws hq
  refine ⟨res, ?_, ⟨?_, ?_⟩, h1⟩
  · simp [handleRequest, List.mapM, List.mapM.loop, handleOne, hres]
  · rintro ⟨r, hr, hrw⟩
    rw [← hrw, (h1 r hr).1]
  · intro e
    subst e
    exact h2 hw

theorem C19_query_is_searched_as_received_witness :
    (∀ wp ∈ [(([99, 97, 102, 101] : WString), 4), ([99, 97, 103, 101], 1)],
        wp.1.length < UINT32_MAX) ∧
    [99, 97, 102, 101].length < UINT32_MAX ∧
    [99, 97, 102, 101] ∈ [(([99, 97, 102, 101] : WString), 4), ([99, 97, 103, 101], 1)].map
      Prod.fst ∧
    ∃ res, handleRequest
        (BKTree.empty.insertAll [([99, 97, 102, 101], 4), ([99, 97, 103, 101], 1)]).2
        [([99, 97, 102, 101], 0)] = some [([99, 97, 102, 101], 0, res)] ∧
      ((∃ r ∈ res, r.result = [99, 97, 102, 101]) ↔ [99, 97, 102, 101] = [99, 97, 102, 101]) ∧
      (∀ r ∈ res, r.result = [99, 97, 102, 101] ∧ r.tolerance = 0) :=
  ⟨by unfold UINT32_MAX; decide, by unfold UINT32_MAX; decide, by decide,
    C19_query_is_searched_as_received [([99, 97, 102, 101], 4), ([99, 97, 103, 101], 1)]
      [99, 97, 102, 101] [99, 97, 102, 101] (by unfold UINT32_MAX; decide)
      (by unfold UINT32_MAX; decide) (by decide)⟩

/-! ## The bookkeeping of `max_dist_` and `min_dist_` -/

/-- The loop of `FindSimilar` runs over `scanStart .. scanEnd`. -/
theorem FindSimilar_scan (metric : WString → WString → Nat) (q : WString) (t : Nat)
    (n : TreeNode) (results : List SearchResult) :
    TreeNode.FindSimilar metric q t n results =
      if n.scanEnd metric q t = UINT32_MAX then none
      else
        (List.range' (n.scanStart metric q t)
            (n.scanEnd metric q t + 1 - n.scanStart metric q t)).foldlM
          (fun results dist => Childs.FindSimilarAt metric q t dist n.childs_ results)
          (if metric q n.data_ ≤ t then results ++ [⟨n.data_, metric q n.data_, n.priority_⟩]
            else results) := by
  cases n with
  | mk d p cs mx mn => simp only [TreeNode.FindSimilar]; rfl

theorem Childs.key_ne_zero (metric : WString → WString → Nat) (d : WString) (cs : Childs) :
    Childs.Inv metric d cs → 0 ∉ cs.keys := by
  refine (TreeNode.induction (P := fun _ => True)
    (Q := fun cs => Childs.Inv metric d cs → 0 ∉ cs.keys)
    (fun _ _ _ _ _ _ => trivial) (by simp [Childs.keys, Childs.toList]) ?_).2 cs
  intro k c rest _ ih hinv
  simp only [Childs.Inv] at hinv
  have h1 := ih hinv.2.2.2.2
  simp only [Childs.keys_cons, List.mem_cons, not_or]
  exact ⟨fun e => hinv.1 e.symm, h1⟩

theorem Childs.key_bounds (cs : Childs) : ∀ k ∈ cs.keys, cs.minKey ≤ k ∧ k ≤ cs.maxKey := by
  refine (TreeNode.induction (P := fun _ => True)
    (Q := fun cs => ∀ k ∈ cs.keys, cs.minKey ≤ k ∧ k ≤ cs.maxKey)
    (fun _ _ _ _ _ _ => trivial) (by simp [Childs.keys, Childs.toList]) ?_).2 cs
  intro k c rest _ ih k' hk'
  simp only [Childs.keys_cons, List.mem_cons] at hk'
  simp only [Childs.minKey, Childs.maxKey]
  rcases hk' with rfl | hk'
  · omega
  · have := ih k' hk'; omega

theorem Childs.key_le (metric : WString → WString → Nat)
    (hm : ∀ a b, metric a b < UINT32_MOD) (d : WString) (cs : Childs) :
    Childs.Inv metric d cs → ∀ k ∈ cs.keys, k ≤ UINT32_MAX := by
  refine (TreeNode.induction (P := fun _ => True)
    (Q := fun cs => Childs.Inv metric d cs → ∀ k ∈ cs.keys, k ≤ UINT32_MAX)
    (fun _ _ _ _ _ _ => trivial) (by simp [Childs.keys, Childs.toList]) ?_).2 cs
  intro k c rest _ ih hinv k' hk'
  simp only [Childs.Inv] at hinv
  simp only [Childs.keys_cons, List.mem_cons] at hk'
  rcases hk' with rfl | hk'
  · have h2 := hinv.2.2.1 c (TreeNode.mem_nodes_self c)
    have h3 := hm c.data_ d
    unfold UINT32_MOD at h3; unfold UINT32_MAX; omega
  · exact ih hinv.2.2.2.2 k' hk'

theorem Childs.extreme_keys_mem (cs : Childs) (hle : ∀ k ∈ cs.keys, k ≤ UINT32_MAX) :
    cs.keys ≠ [] → cs.minKey ∈ cs.keys ∧ cs.maxKey ∈ cs.keys := by
  revert hle
  refine (TreeNode.induction (P := fun _ => True)
    (Q := fun cs => (∀ k ∈ cs.keys, k ≤ UINT32_MAX) → cs.keys ≠ [] →
      cs.minKey ∈ cs.keys ∧ cs.maxKey ∈ cs.keys)
    (fun _ _ _ _ _ _ => trivial) (by simp [Childs.keys, Childs.toList]) ?_).2 cs
  intro k c rest _ ih hle _
  have hk : k ≤ UINT32_MAX := hle k (by simp [Childs.keys_cons])
  have hrest : ∀ k' ∈ rest.keys, k' ≤ UINT32_MAX := fun k' hk' =>
    hle k' (by simp [Childs.keys_cons, hk'])
  simp only [Childs.keys_cons, Childs.minKey, Childs.maxKey, List.mem_cons]
  by_cases he : rest.keys = []
  · have e1 : rest.minKey = UINT32_MAX := by
      cases rest with
      | nil => rfl
      | cons k2 c2 r2 => simp [Childs.keys_cons] at he
    have e2 : rest.maxKey = 0 := by
      cases rest with
      | nil => rfl
      | cons k2 c2 r2 => simp [Childs.keys_cons] at he
    rw [e1, e2]
    exact ⟨Or.inl (by omega), Or.inl (by omega)⟩
  · obtain ⟨h1, h2⟩ := ih hrest he
    constructor
    · rcases Nat.le_total rest.minKey k with h | h
      · right; rw [Nat.min_eq_left h]; exact h1
      · left; exact Nat.min_eq_right h
    · rcases Nat.le_total rest.maxKey k with h | h
      · left; exact Nat.max_eq_right h
      · right; rw [Nat.max_eq_left h]; exact h2

theorem BKTree.Insert_Inv_any (t : BKTree) (w : WString) (p : Nat) (h : t.Inv) :
    (t.Insert w p).2.metric_ = t.metric_ ∧ (t.Insert w p).2.Inv := by
  unfold BKTree.Insert
  cases hroot : t.root_ with
  | none =>
    refine ⟨rfl, ?_⟩
    simp [BKTree.Inv, TreeNode.leaf, TreeNode.Inv, Childs.Inv, Childs.maxKey, Childs.minKey]
  | some root =>
    refine ⟨rfl, ?_⟩
    have hr : TreeNode.Inv t.metric_ root := by simpa [BKTree.Inv, hroot] using h
    simpa [BKTree.Inv] using (Insert_Inv t.metric_ w p).1 root hr

theorem BKTree.insertAll_Inv_any (ws : List (WString × Nat)) :
    ∀ t : BKTree, t.Inv → (t.insertAll ws).2.metric_ = t.metric_ ∧ (t.insertAll ws).2.Inv := by
  induction ws with
  | nil => intro t h; exact ⟨rfl, h⟩
  | cons wp rest ih =>
    intro t h
    obtain ⟨h1, h2⟩ := BKTree.Insert_Inv_any t wp.1 wp.2 h
    obtain ⟨h3, h4⟩ := ih _ h2
    simp only [BKTree.insertAll]
    exact ⟨h3.trans h1, h4⟩

namespace LevensteinMetric

theorem foldl_cell_length (left right : WString) (i : Nat) (src : List Nat) (js : List Nat) :
    ∀ dst : List Nat, (js.foldl (cell left right i src) dst).length = dst.length := by
  induction js with
  | nil => intro dst; rfl
  | cons j js ih => intro dst; rw [List.foldl_cons, ih, cell_length]

/-- The last cell a row writes holds a 32-bit value. -/
theorem innerLoop_last_lt (left right : WString) (i : Nat) (src dst : List Nat)
    (hlen : left.length < dst.length) :
    (innerLoop left right i src dst).getD left.length 0 < UINT32_MOD := by
  unfold innerLoop
  rw [List.range_succ, List.foldl_append]
  simp only [List.foldl_cons, List.foldl_nil]
  have hl := foldl_cell_length left right i src (List.range left.length) dst
  generalize (List.range left.length).foldl (cell left right i src) dst = d at hl ⊢
  have hpos : 0 < UINT32_MOD := by unfold UINT32_MOD; omega
  unfold cell
  split
  · rw [getD_set_self _ _ _ _ (by omega)]
    exact Nat.mod_lt _ hpos
  · rw [getD_set_self _ _ _ _ (by simp; omega), getD_set_self _ _ _ _ (by omega)]
    have := Nat.mod_lt (d.getD (left.length - 1) 0 + 1) hpos
    omega

end LevensteinMetric

/-- The value of the uniform metric is a 32-bit value, on all strings. -/
theorem uniformMetric_lt (a b : WString) : uniformMetric a b < UINT32_MOD := by
  unfold uniformMetric
  cases h : LevensteinMetric.call LevensteinMetric.fresh a b with
  | none => unfold UINT32_MOD; simp
  | some r =>
    simp only []
    unfold LevensteinMetric.call at h
    simp only [] at h
    obtain ⟨g1, g2⟩ := LevensteinMetric.grow_length LevensteinMetric.fresh
      (LevensteinMetric.pickLeft a b) LevensteinMetric.fresh_WF
    generalize LevensteinMetric.pickLeft a b = left at h g1 g2
    generalize LevensteinMetric.pickRight a b = right at h
    by_cases hlong : UINT32_MOD ≤ (LevensteinMetric.grow LevensteinMetric.fresh left).1.length
    · rw [if_pos hlong] at h; exact Option.noConfusion h
    · rw [if_neg hlong] at h
      simp only [Option.some.injEq] at h
      rw [← h]
      show (LevensteinMetric.rows left right _).1.getD left.length 0 < UINT32_MOD
      have hfl : LevensteinMetric.fresh.buffer_src.length = 0 := rfl
      rw [hfl] at g1
      unfold LevensteinMetric.rows
      rcases Nat.eq_zero_or_pos right.length with h0 | hpos
      · rw [h0]
        simp only [List.range'_zero, List.foldl_nil]
        rw [LevensteinMetric.initRow_getD _ _ (by omega)]
        omega
      · obtain ⟨k, hk⟩ : ∃ k, right.length = k + 1 := ⟨right.length - 1, by omega⟩
        rw [hk, List.range'_1_concat, List.foldl_append]
        simp only [List.foldl_cons, List.foldl_nil]
        obtain ⟨r1, r2⟩ := LevensteinMetric.rows_length_aux left right
          (LevensteinMetric.grow LevensteinMetric.fresh left).1.length (List.range' 1 k)
          (LevensteinMetric.initRow (LevensteinMetric.grow LevensteinMetric.fresh left).1,
            (LevensteinMetric.grow LevensteinMetric.fresh left).2)
          (LevensteinMetric.initRow_length _) g2
        exact LevensteinMetric.innerLoop_last_lt left right _ _ _ (by rw [r2]; omega)

/-- The bookkeeping of a node. After any sequence of `Insert` calls on an empty tree,
with any metric of 32-bit values, at every node the children map has no key `0`;
`min_dist_` is `2^32 - 1` and `max_dist_` is `0` when the map is empty; otherwise both are
keys of the map, `min_dist_` the smallest and `max_dist_` the largest. Hence, for a query at
distance `d` from the node's word and a tolerance `t` with `d + t < 2^32`, every child key
`k` with `d - t ≤ k ≤ d + t` lies in the range `start .. end` scanned by `FindSimilar`. -/
theorem node_bookkeeping (metric : WString → WString → Nat)
    (hm : ∀ a b, metric a b < UINT32_MOD) (ws : List (WString × Nat)) (x : TreeNode)
    (hx : x ∈ ((BKTree.mk metric none).insertAll ws).2.nodes) :
    0 ∉ x.childs_.keys ∧
    (x.childs_.keys = [] → x.min_dist_ = UINT32_MAX ∧ x.max_dist_ = 0) ∧
    (x.childs_.keys ≠ [] → x.min_dist_ ∈ x.childs_.keys ∧ x.max_dist_ ∈ x.childs_.keys) ∧
    (∀ k ∈ x.childs_.keys, x.min_dist_ ≤ k ∧ k ≤ x.max_dist_) ∧
    (∀ q t k, k ∈ x.childs_.keys → metric q x.data_ + t < UINT32_MOD →
      metric q x.data_ ≤ k + t → k ≤ metric q x.data_ + t →
      x.scanStart metric q t ≤ k ∧ k ≤ x.scanEnd metric q t) := by
  obtain ⟨hmet, hinv⟩ := BKTree.insertAll_Inv_any ws (BKTree.mk metric none)
    (by simp [BKTree.Inv])
  have hmet' : ((BKTree.mk metric none).insertAll ws).2.metric_ = metric := hmet
  have hxinv : TreeNode.Inv metric x := by
    cases hroot : ((BKTree.mk metric none).insertAll ws).2.root_ with
    | none => simp [BKTree.nodes, hroot] at hx
    | some root =>
      have hr : TreeNode.Inv metric root := by
        have := hinv
        simp only [BKTree.Inv, hroot, hmet'] at this
        exact this
      have hxr : x ∈ root.nodes := by simpa [BKTree.nodes, hroot] using hx
      exact (Inv_of_mem_nodes metric).1 root hr x hxr
  cases x with
  | mk d p cs mx mn =>
    simp only [TreeNode.Inv] at hxinv
    obtain ⟨hcs, hmx, hmn⟩ := hxinv
    simp only [TreeNode.childs_, TreeNode.min_dist_, TreeNode.max_dist_, TreeNode.data_,
      TreeNode.scanStart, TreeNode.scanEnd]
    subst hmx hmn
    have hb := Childs.key_bounds cs
    have hle := Childs.key_le metric hm d cs hcs
    refine ⟨Childs.key_ne_zero metric d cs hcs, ?_, Childs.extreme_keys_mem cs hle, hb, ?_⟩
    · intro he
      cases cs with
      | nil => exact ⟨rfl, rfl⟩
      | cons k2 c2 r2 => simp [Childs.keys_cons] at he
    · intro q t k hk hw h1 h2
      obtain ⟨b1, b2⟩ := hb k hk
      rw [Nat.mod_eq_of_lt hw]
      constructor
      · split <;> omega
      · omega

/-- C22: the scan range of `FindSimilar` does not cover every child key within
`[d - t, d + t]`, although the bookkeeping is right. After `Insert("dog", 1)` and
`Insert("dig", 1)` the root holds the one child key `1`, with `min_dist_ = 1` and
`max_dist_ = 1`; for the query `"dig"`, at distance `d = 1` from the root, and the tolerance
`t = 2^32 - 1`, the key `1` lies within `[d - t, d + t]`, but `start` is `1` and `end` is `0`:
`my_distance + tolerance` wraps to `0`. With `t = 2^32 - 2` the range is `1 .. 1`. -/
theorem C22_scan_range_misses_key_on_wrap :
    (BKTree.empty.insertAll [([100, 111, 103], 1), ([100, 105, 103], 1)]).2.root_.map
      (fun x => (x.childs_.keys, x.min_dist_, x.max_dist_,
        uniformMetric [100, 105, 103] x.data_)) = some ([1], 1, 1, 1) ∧
    (BKTree.empty.insertAll [([100, 111, 103], 1), ([100, 105, 103], 1)]).2.root_.map
      (fun x => (x.scanStart uniformMetric [100, 105, 103] 4294967295,
        x.scanEnd uniformMetric [100, 105, 103] 4294967295)) = some (1, 0) ∧
    (BKTree.empty.insertAll [([100, 111, 103], 1), ([100, 105, 103], 1)]).2.root_.map
      (fun x => (x.scanStart uniformMetric [100, 105, 103] 4294967294,
        x.scanEnd uniformMetric [100, 105, 103] 4294967294)) = some (1, 1) := by
  decide

/-- C21: the weighted `operator()` reads outside its strings. On the default-constructed
metric the call on `("x", "xyz")`, in either argument order, reads `left[2]` of the
one-character string `"x"`; so does the call on a metric loaded from a configuration. The
outer index `i`, which runs up to the size of the longer string, indexes the shorter one. -/
theorem C21_weighted_reads_out_of_range :
    WeightedLevensteinMetric.init.value asciiLower [120] [120, 121, 122] =
      .error .outOfRange ∧
    WeightedLevensteinMetric.init.value asciiLower [120, 121, 122] [120] =
      .error .outOfRange ∧
    (WeightedLevensteinMetric.load asciiLower sampleConfig).map
      (fun m => m.value asciiLower [102, 105] [102, 105, 108, 101]) =
      some (.error .outOfRange) := by
  decide

/-- C23: for the uniform metric, distance zero means equality. For all strings `a` and `b`
shorter than `2^32 - 1` characters and from any state of the buffers,
`LevensteinMetric::operator()` returns, and the value is `0` exactly when `a = b`. So the
test `distance != 0` of `TreeNode::Insert` at a node holding `b` fails exactly for the word
`b` itself: inserting a different word leaves the word and the priority of the node as they
were, and inserting `b` only adds the priority. -/
theorem C23_uniform_zero_iff_equal (m : LevensteinMetric) (a b : WString) (hm : m.WF)
    (ha : a.length < UINT32_MAX) (hb : b.length < UINT32_MAX)
    (p pr : Nat) (cs : Childs) (mx mn : Nat) :
    (∃ d, (m.call a b).map Prod.fst = some d ∧ (d = 0 ↔ a = b)) ∧
    (m.call a a).map Prod.fst = some 0 ∧
    (uniformMetric a b = 0 ↔ a = b) ∧
    (a ≠ b →
      (TreeNode.Insert uniformMetric a p (.mk b pr cs mx mn)).2.data_ = b ∧
      (TreeNode.Insert uniformMetric a p (.mk b pr cs mx mn)).2.priority_ = pr) ∧
    (a = b →
      TreeNode.Insert uniformMetric a p (.mk b pr cs mx mn) =
        (false, .mk b ((pr + p) % UINT32_MOD) cs mx mn)) := by
  obtain ⟨m1, e1, _⟩ := LevensteinMetric.call_eq m a b hm ha hb
  obtain ⟨m2, e2, _⟩ := LevensteinMetric.call_eq m a a hm ha ha
  have hz := MetricOn_uniformMetric.zero_iff a b ha hb
  refine ⟨⟨levRef a b, by rw [e1]; rfl, levRef_eq_zero_iff a b⟩, ?_, hz, ?_, ?_⟩
  · rw [e2, levRef_self]; rfl
  · intro hne
    have hd : uniformMetric a b ≠ 0 := fun e => hne (hz.mp e)
    simp only [TreeNode.Insert, hd, ne_eq, not_false_eq_true, if_true]
    split <;> exact ⟨rfl, rfl⟩
  · intro he
    have hd : uniformMetric a b = 0 := hz.mpr he
    simp only [TreeNode.Insert, hd, ne_eq, not_true_eq_false, if_false]

theorem C23_uniform_zero_iff_equal_witness :
    LevensteinMetric.WF ⟨[4, 4, 4, 4], [1, 2, 3, 4]⟩ ∧
    [99, 97, 116].length < UINT32_MAX ∧ [99, 97, 114].length < UINT32_MAX ∧
    ((∃ d, (LevensteinMetric.call ⟨[4, 4, 4, 4], [1, 2, 3, 4]⟩ [99, 97, 116]
        [99, 97, 114]).map Prod.fst = some d ∧
        (d = 0 ↔ ([99, 97, 116] : WString) = [99, 97, 114])) ∧
      (LevensteinMetric.call ⟨[4, 4, 4, 4], [1, 2, 3, 4]⟩ [99, 97, 116] [99, 97, 116]).map
        Prod.fst = some 0 ∧
      (uniformMetric [99, 97, 116] [99, 97, 114] = 0 ↔
        ([99, 97, 116] : WString) = [99, 97, 114]) ∧
      (([99, 97, 116] : WString) ≠ [99, 97, 114] →
        (TreeNode.Insert uniformMetric [99, 97, 116] 2
          (.mk [99, 97, 114] 3 .nil 0 UINT32_MAX)).2.data_ = [99, 97, 114] ∧
        (TreeNode.Insert uniformMetric [99, 97, 116] 2
          (.mk [99, 97, 114] 3 .nil 0 UINT32_MAX)).2.priority_ = 3) ∧
      (([99, 97, 116] : WString) = [99, 97, 114] →
        TreeNode.Insert uniformMetric [99, 97, 116] 2 (.mk [99, 97, 114] 3 .nil 0 UINT32_MAX) =
          (false, .mk [99, 97, 114] ((3 + 2) % UINT32_MOD) .nil 0 UINT32_MAX))) :=
  ⟨by unfold LevensteinMetric.WF UINT32_MOD; decide, by unfold UINT32_MAX; decide,
    by unfold UINT32_MAX; decide,
    C23_uniform_zero_iff_equal ⟨[4, 4, 4, 4], [1, 2, 3, 4]⟩ [99, 97, 116] [99, 97, 114]
      (by unfold LevensteinMetric.WF UINT32_MOD; decide) (by unfold UINT32_MAX; decide)
      (by unfold UINT32_MAX; decide) 2 3 .nil 0 UINT32_MAX⟩

/-- The free function `Dist` gives the outcome of a call on a fresh metric object: on its
own buffers, of exactly `left.size() + 1` cells, `back()` is the cell at `left.size()`. -/
theorem Dist_eq_call_fresh (a b : WString) :
    Dist a b = (LevensteinMetric.fresh.call a b).map Prod.fst := by
  unfold Dist LevensteinMetric.call
  simp only []
  generalize LevensteinMetric.pickLeft a b = left
  generalize LevensteinMetric.pickRight a b = right
  by_cases hlong : UINT32_MOD ≤ (LevensteinMetric.grow LevensteinMetric.fresh left).1.length
  · simp only [hlong, if_true, Option.map_none']
  · simp only [hlong, if_false, Option.map_some', Option.some.injEq]
    have g1 : (LevensteinMetric.grow LevensteinMetric.fresh left).1.length = left.length + 1 := by
      unfold LevensteinMetric.grow LevensteinMetric.fresh
      simp [LevensteinMetric.resize]
    have g2 : (LevensteinMetric.grow LevensteinMetric.fresh left).2.length = left.length + 1 := by
      unfold LevensteinMetric.grow LevensteinMetric.fresh
      simp [LevensteinMetric.resize]
    obtain ⟨r1, _⟩ := LevensteinMetric.rows_length_aux left right (left.length + 1)
      (List.range' 1 right.length)
      (LevensteinMetric.initRow (LevensteinMetric.grow LevensteinMetric.fresh left).1,
        (LevensteinMetric.grow LevensteinMetric.fresh left).2)
      (by rw [LevensteinMetric.initRow_length]; exact g1) g2
    unfold LevensteinMetric.rows
    generalize ((List.range' 1 right.length).foldl (LevensteinMetric.rowStep left right)
      (LevensteinMetric.initRow (LevensteinMetric.grow LevensteinMetric.fresh left).1,
        (LevensteinMetric.grow LevensteinMetric.fresh left).2)).1 = l at r1 ⊢
    rw [List.getLastD_eq_getLast?, List.getLast?_eq_getElem?, List.getD_eq_getElem?_getD, r1]
    rfl

/-- C24: the result of the uniform metric does not depend on its scratch buffers. For all
strings `a` and `b`, of any lengths, and from every state of `buffer_src` and `buffer_dst`
that earlier calls can leave (two rows of one size below `2^32`, of any content),
`LevensteinMetric::operator()(a, b)` has the outcome of the free function `Dist(a, b)`: the
same value, or no return for either. -/
theorem C24_operator_eq_buffer_free_Dist (m : LevensteinMetric) (a b : WString)
    (hm : m.WF) : (m.call a b).map Prod.fst = Dist a b := by
  rw [Dist_eq_call_fresh]
  exact LevensteinMetric.call_state_irrelevant m LevensteinMetric.fresh a b hm
    LevensteinMetric.fresh_WF

theorem C24_operator_eq_buffer_free_Dist_witness :
    LevensteinMetric.WF ⟨[9, 8, 7, 6, 5, 4, 3], [1, 1, 1, 1, 1, 1, 1]⟩ ∧
    (LevensteinMetric.call ⟨[9, 8, 7, 6, 5, 4, 3], [1, 1, 1, 1, 1, 1, 1]⟩ [107, 105, 116]
      [115, 105, 116, 116]).map Prod.fst = Dist [107, 105, 116] [115, 105, 116, 116] :=
  ⟨by unfold LevensteinMetric.WF UINT32_MOD; decide,
    C24_operator_eq_buffer_free_Dist ⟨[9, 8, 7, 6, 5, 4, 3], [1, 1, 1, 1, 1, 1, 1]⟩
      [107, 105, 116] [115, 105, 116, 116]
      (by unfold LevensteinMetric.WF UINT32_MOD; decide)⟩

end SpellCorrector
